import Mathlib

/-!
# robotspy: the type cache

A shallow embedding of the type cache of `robotspy` (`src/src/typecache.cpp`,
`src/include/robotspy/typecache.hpp`) and of the name utilities it relies on
(`src/src/typesupport.cpp`, `src/include/robotspy/typesupport.hpp`), of the
conversion of introspection members into type codes
(`src/include/robotspy/typecache.hpp`, `src/include/robotspy/typecodes.hpp`),
of the queue of the input emitter (`src/src/base_input_emitter.cpp`) and of
the JSON strings of the output emitter (`src/src/base_output_emitter.cpp`).

* `std::string` is `List Char` (`Name`); positions are `Nat`, and
  `std::string::npos` is `none`.
* `std::regex_replace` with a literal pattern is `regex_replace_lit`
  (leftmost, non-overlapping, every match).
* C++ exceptions are the `Except Err` monad; a function that mutates the
  cache returns the cache after the call next to its result, so that the
  state left behind by a throwing call is visible too.
* `std::map` is an association list in insertion order; `emplace` keeps an
  existing binding, `find` returns the binding of the key. The one map that
  is iterated, `input_streams_`, is kept in the order of its keys.
* `size_t` has 64 bits where its arithmetic wraps.
* The introspection records and the type code factory belong to libraries
  outside the repository; they are modelled by the data the code reads and
  by the type codes the code asks for.
* `DDS_TypeCode` is a tree (`TypeCode`); pointers to type codes are the
  trees themselves.
-/

namespace robotspy

/-! ## Strings -/

/-- A `std::string`. -/
abbrev Name := List Char

/-- The exceptions thrown by the cache and by the name utilities. -/
inductive Err : Type
  /-- Embeds `std::runtime_error("empty type name")` of `normalize_dds_type_name`. -/
  | emptyTypeName
  /-- Embeds `InvalidTopicNameException` carrying the offending name. -/
  | invalidName (name : Name)
  /-- Embeds `std::runtime_error("conflict detected for asserted typecode: " + name)`. -/
  | typeConflict (name : Name)
  /-- Embeds `std::runtime_error("conflict detected for asserted nested typecode: " + name)`. -/
  | nestedTypeConflict (name : Name)
  /-- Embeds `std::runtime_error("topic already asserted with a different type")`. -/
  | topicConflict (topic : Name)
  /-- Embeds `std::runtime_error("failed to get typecode name")` and its siblings:
  a type code accessor was used on a kind that does not support it. -/
  | badKind
  /-- Embeds the `std::runtime_error` thrown by the constructor of `TypeCache` for
  contradictory options, with its message. -/
  | invalidConfig (message : Name)
  /-- Embeds a `std::runtime_error` of the conversion of introspection members,
  with its message. -/
  | runtimeError (message : Name)
  deriving DecidableEq, Repr

deriving instance DecidableEq for Except

/-- Worker of `regex_replace_lit`: `skip` counts the characters of the
current match that are still to be consumed. -/
def regex_replace_aux (pat rep : List Char) : Nat → List Char → List Char
  | _, [] => []
  | skip + 1, _ :: cs => regex_replace_aux pat rep skip cs
  | 0, c :: cs =>
    if pat.isPrefixOf (c :: cs) then
      rep ++ regex_replace_aux pat rep (pat.length - 1) cs
    else
      c :: regex_replace_aux pat rep 0 cs

/-- Embeds `std::regex_replace(s, std::regex(pat), rep)` for a pattern `pat` without
metacharacters: every match, leftmost first, the search resuming after the
end of the previous match. -/
def regex_replace_lit (s pat rep : List Char) : List Char :=
  regex_replace_aux pat rep 0 s

/-- Embeds `std::regex_replace(s, std::regex("_$"), "")`: one trailing underscore is
removed. -/
def strip_trailing_underscore (s : List Char) : List Char :=
  if s.getLast? = some '_' then s.dropLast else s

/-- Worker of `str_find`: first position at or after `off` where `pat`
starts, `s` being the text from `off` on. -/
def str_find_aux (pat : List Char) : List Char → Nat → Option Nat
  | [], _ => none
  | c :: cs, off =>
    if pat.isPrefixOf (c :: cs) then some off else str_find_aux pat cs (off + 1)

/-- Embeds `s.find(pat, pos)` for a non-empty `pat`; `none` is `npos`. -/
def str_find (s pat : List Char) (pos : Nat) : Option Nat :=
  str_find_aux pat (s.drop pos) pos

/-- Worker of `str_rfind`. -/
def str_rfind_aux (pat : List Char) : List Char → Nat → Option Nat
  | [], _ => none
  | c :: cs, off =>
    match str_rfind_aux pat cs (off + 1) with
    | some i => some i
    | none => if pat.isPrefixOf (c :: cs) then some off else none

/-- Embeds `s.rfind(pat)` for a non-empty `pat`; `none` is `npos`. -/
def str_rfind (s pat : List Char) : Option Nat :=
  str_rfind_aux pat s 0

/-- Embeds `s.substr(pos, n)` for `pos <= s.size()`. -/
def substr (s : List Char) (pos n : Nat) : List Char :=
  (s.drop pos).take n

/-- Embeds `normalize_dds_type_name` (typesupport.cpp): `__` becomes `::`, one
trailing `_` is dropped, `::dds_::` becomes `::dds::`, `::dds::` becomes
`::`; the empty name throws. -/
def normalize_dds_type_name (type_fqname : Name) : Except Err Name :=
  if type_fqname.length = 0 then
    .error .emptyTypeName
  else
    .ok
      (regex_replace_lit
        (regex_replace_lit
          (strip_trailing_underscore
            (regex_replace_lit type_fqname "__".toList "::".toList))
          "::dds_::".toList "::dds::".toList)
        "::dds::".toList "::".toList)

/-- Embeds `parse_ros_type_name` (typesupport.cpp). The separators are located in
the rewritten copy `norm_fqname`, the three parts are cut out of
`type_fqname` itself, as in the source. -/
def parse_ros_type_name (type_fqname : Name) : Except Err (Name × Name × Name) :=
  let norm_fqname :=
    strip_trailing_underscore (regex_replace_lit type_fqname "__".toList "/".toList)
  match str_rfind norm_fqname ['/'], str_find norm_fqname ['/'] 0 with
  | some sep_position_back, some sep_position_front =>
    if sep_position_back = 0 ∨ sep_position_back = norm_fqname.length - 1 then
      .error (.invalidName type_fqname)
    else
      let package_name := substr type_fqname 0 sep_position_front
      let middle_module :=
        if sep_position_back - sep_position_front > 0 then
          substr type_fqname (sep_position_front + 1)
            (sep_position_back - sep_position_front - 1)
        else []
      let type_name := type_fqname.drop (sep_position_back + 1)
      .ok (package_name, middle_module, type_name)
  | _, _ => .error (.invalidName type_fqname)

/-- The counting loop at the head of `demangle_dds_type_name`: the number
of `::` found scanning left to right, each search resuming two characters
after the previous hit. The fuel is the length of the name. -/
def count_ns_seps (s : Name) : Nat → Option Nat → Nat → Nat
  | 0, _, ns_count => ns_count
  | _ + 1, none, ns_count => ns_count
  | fuel + 1, some ns_sep_pos, ns_count =>
    count_ns_seps s fuel (str_find s "::".toList (ns_sep_pos + 2)) (ns_count + 1)

/-- The `do ... while (sep_pos <= dds_prefix_pos)` loop of
`demangle_dds_type_name`, which writes the segments in front of the
`dds` pseudo-namespace separated by `/`. -/
def demangle_loop (s : Name) (dds_prefix_pos : Nat) : Nat → Nat → Name → Name
  | 0, _, ss => ss
  | fuel + 1, search_start, ss =>
    let ss1 := if search_start > 0 then ss ++ ['/'] else ss
    let el :=
      match str_find s "::".toList search_start with
      | some sep_pos => substr s search_start (sep_pos - search_start)
      | none => s.drop search_start
    let ss2 := ss1 ++ el
    let search_start2 := search_start + el.length + 2
    match str_find s "::".toList search_start2 with
    | some sep_pos =>
      if sep_pos ≤ dds_prefix_pos then demangle_loop s dds_prefix_pos fuel search_start2 ss2
      else ss2
    | none => ss2

/-- The tail of `demangle_dds_type_name` once the `dds` pseudo-namespace has
been found at `dds_prefix_pos` with length `dds_prefix_len`. One trailing
`_` of the type name is dropped; on an empty type name the source indexes
out of bounds, the model leaves the name empty. -/
def demangle_after_dds (dds_type_name : Name) (dds_prefix_pos dds_prefix_len : Nat) :
    Except Err Name :=
  if str_rfind dds_type_name "::".toList ≠ some (dds_prefix_pos + dds_prefix_len - 2) then
    .error (.invalidName dds_type_name)
  else
    let type_name0 := dds_type_name.drop (dds_prefix_pos + dds_prefix_len)
    let type_name := strip_trailing_underscore type_name0
    .ok (demangle_loop dds_type_name dds_prefix_pos (dds_type_name.length + 1) 0 []
          ++ ['/'] ++ type_name)

/-- Embeds `demangle_dds_type_name` (typesupport.hpp). -/
def demangle_dds_type_name (dds_type_name : Name) : Except Err Name :=
  let first_sep_pos := str_find dds_type_name "::".toList 0
  let ns_count := count_ns_seps dds_type_name (dds_type_name.length + 1) first_sep_pos 0
  let at_first := dds_type_name.drop (first_sep_pos.getD 0)
  if ns_count = 2 ∧
      ("::msg::".toList.isPrefixOf at_first ∨ "::srv::".toList.isPrefixOf at_first) then
    .ok (regex_replace_lit dds_type_name "::".toList "/".toList)
  else
    match str_rfind dds_type_name "::dds_::".toList with
    | some dds_prefix_pos => demangle_after_dds dds_type_name dds_prefix_pos 8
    | none =>
      match str_rfind dds_type_name "::dds::".toList with
      | some dds_prefix_pos => demangle_after_dds dds_type_name dds_prefix_pos 7
      | none => .error (.invalidName dds_type_name)

/-- Embeds `make_typecode_name_mangled` (typecache.cpp). -/
def make_typecode_name_mangled (tc_name : Name) : Except Err Name := do
  let norm_tc_name ← normalize_dds_type_name tc_name
  if norm_tc_name = tc_name then
    let demangled ← demangle_dds_type_name tc_name
    let (package_name, middle_module, type_name) ← parse_ros_type_name demangled
    pure (package_name ++ "::".toList ++ middle_module ++ "::".toList ++ "dds_".toList
            ++ "::".toList ++ type_name ++ "_".toList)
  else
    pure tc_name

/-- Embeds `make_typecode_name_demangled` (typecache.cpp). -/
def make_typecode_name_demangled (tc_name : Name) : Except Err Name := do
  let norm_tc_name ← normalize_dds_type_name tc_name
  if norm_tc_name = tc_name then pure tc_name else pure norm_tc_name

/-- Embeds `make_typecode_member_name_mangled` (typecache.cpp). On an empty
member name the source indexes out of bounds; the model takes the last
character as different from `_`. -/
def make_typecode_member_name_mangled (member_name : Name) (legacy_rmw_compatible : Bool) :
    Name :=
  if legacy_rmw_compatible then
    if member_name.getLast? ≠ some '_' then member_name ++ ['_'] else member_name
  else member_name

/-- Embeds `make_typecode_member_name_demangled` (typecache.cpp). On an
empty member name the source indexes out of bounds; the model takes the last
character as different from `_`. -/
def make_typecode_member_name_demangled (member_name : Name) : Name :=
  if member_name.getLast? = some '_' then member_name.dropLast else member_name

/-! ## Type codes -/

/-- The primitive kinds of the data model. -/
inductive PrimKind : Type
  | boolean | octet | char | short | ushort | long | ulong | longlong | ulonglong
  | float | double
  deriving DecidableEq, Repr

/-- A string or sequence bound; `unbounded` is distinct from every finite
bound. -/
inductive Bound : Type
  | unbounded
  | bounded (n : Nat)
  deriving DecidableEq, Repr

mutual
/-- Modelled from the spec: the `DDS_TypeCode` of the middleware library,
which is not part of the repository. A node is a primitive, a (wide) string
with its bound, a sequence with its bound and element type, an array with
its dimensions and element type, a struct with its name and ordered
members, an enum with its name and labels, a union with its name and
members, or a value type with its name, optional concrete base type and
members. -/
inductive TypeCode : Type
  | prim (kind : PrimKind)
  | string (bound : Bound)
  | wstring (bound : Bound)
  | sequence (bound : Bound) (element : TypeCode)
  | array (dimensions : List Nat) (element : TypeCode)
  | struct (name : Name) (members : Members)
  | enum (name : Name) (labels : List Name)
  | union (name : Name) (members : Members)
  | value (name : Name) (base : Base) (members : Members)
  deriving DecidableEq
/-- An ordered member list: `(name, type)` pairs. -/
inductive Members : Type
  | nil
  | cons (name : Name) (type : TypeCode) (rest : Members)
  deriving DecidableEq
/-- The concrete base type of a value type, when it has one. -/
inductive Base : Type
  | none
  | some (type : TypeCode)
  deriving DecidableEq
end

instance : Inhabited TypeCode := ⟨.prim .boolean⟩

/-- The kinds of `DDS_TCKind` that the cache distinguishes. -/
inductive DDS_TCKind : Type
  | TK_PRIMITIVE | TK_STRING | TK_WSTRING | TK_SEQUENCE | TK_ARRAY
  | TK_STRUCT | TK_ENUM | TK_UNION | TK_VALUE
  deriving DecidableEq, Repr

/-- Modelled from the spec: `DDS_TypeCode_kind`. -/
def DDS_TypeCode_kind : TypeCode → DDS_TCKind
  | .prim _ => .TK_PRIMITIVE
  | .string _ => .TK_STRING
  | .wstring _ => .TK_WSTRING
  | .sequence _ _ => .TK_SEQUENCE
  | .array _ _ => .TK_ARRAY
  | .struct _ _ => .TK_STRUCT
  | .enum _ _ => .TK_ENUM
  | .union _ _ => .TK_UNION
  | .value _ _ _ => .TK_VALUE

/-- Modelled from the spec: `DDS_TypeCode_name`; the named kinds are struct,
enum, union and value, every other kind raises an exception, which the
callers turn into `std::runtime_error("failed to get typecode name")`. -/
def DDS_TypeCode_name : TypeCode → Except Err Name
  | .struct n _ => .ok n
  | .enum n _ => .ok n
  | .union n _ => .ok n
  | .value n _ _ => .ok n
  | _ => .error .badKind

/-- Modelled from the spec: `DDS_TypeCode_equal`, structural equality: same
kind, same name, same bounds, same ordered member list with recursively
equal types. -/
def DDS_TypeCode_equal (a b : TypeCode) : Bool :=
  decide (a = b)

/-- Modelled from the spec: `DDS_TypeCodeFactory_clone_tc`, a deep copy. -/
abbrev DDS_TypeCodeFactory_clone_tc (tc : TypeCode) : TypeCode := tc

/-- Embeds `is_typecode_complex` (typecache.cpp). -/
def is_typecode_complex (tckind : DDS_TCKind) : Bool :=
  tckind = .TK_ENUM || tckind = .TK_STRUCT || tckind = .TK_VALUE || tckind = .TK_UNION

/-- Embeds `is_typecode_collection` (typecache.cpp). -/
def is_typecode_collection (tckind : DDS_TCKind) : Bool :=
  tckind = .TK_ARRAY || tckind = .TK_SEQUENCE

/-- The walk of `resolve_collection_typecode`: through nested sequences and
arrays down to the first type that is not a collection. -/
def collection_leaf : TypeCode → TypeCode
  | .sequence _ e => collection_leaf e
  | .array _ e => collection_leaf e
  | t => t

/-- Embeds `TypeCache::resolve_collection_typecode` (typecache.cpp): the content
type of the collection `tc`, resolved through nested collections; a type
without content type raises an exception. -/
def resolve_collection_typecode : TypeCode → Except Err TypeCode
  | .sequence _ e => .ok (collection_leaf e)
  | .array _ e => .ok (collection_leaf e)
  | _ => .error .badKind

/-! ## The cache -/

/-- Embeds `RequestReplyMapping` (typecache.hpp). -/
inductive RequestReplyMapping : Type
  | Basic
  | Extended
  deriving DecidableEq, Repr

/-- Embeds `TypeCacheOptions` (typecache.hpp) with its default member values. -/
structure TypeCacheOptions where
  demangle_ros_names : Bool := true
  cyclone_compatible : Bool := false
  legacy_rmw_compatible : Bool := false
  request_reply_mapping : RequestReplyMapping := .Extended
  deriving DecidableEq, Repr

/-- The data members of `TypeCache` (typecache.hpp): the options, the
vector `tc_cache_` (all_types), the map `tc_named_cache_` (types_by_name)
and the map `topics_cache_` (topics). -/
structure TypeCache where
  options_ : TypeCacheOptions
  tc_cache_ : List TypeCode
  tc_named_cache_ : List (Name × TypeCode)
  topics_cache_ : List (Name × Name)
  deriving DecidableEq

/-- The cache right after construction with the options `options`. -/
def TypeCache.empty (options : TypeCacheOptions) : TypeCache :=
  { options_ := options, tc_cache_ := [], tc_named_cache_ := [], topics_cache_ := [] }

/-- Embeds `std::map::emplace`: the binding is added unless the key is bound. -/
def map_emplace {V : Type} (m : List (Name × V)) (key : Name) (v : V) : List (Name × V) :=
  if (m.lookup key).isSome then m else m ++ [(key, v)]

/-- The key expression shared by `TypeCache::find` and `TypeCache::insert`:
`(ros_type ? normalize_dds_type_name(type_fqname) : type_fqname)`. -/
def cache_key (type_fqname : Name) (ros_type : Bool) : Except Err Name :=
  if ros_type then normalize_dds_type_name type_fqname else .ok type_fqname

/-- Embeds `TypeCache::find` (typecache.cpp); `none` is `nullptr`. -/
def TypeCache.find (c : TypeCache) (type_fqname : Name) (ros_type : Bool) :
    Except Err (Option TypeCode) :=
  match cache_key type_fqname ros_type with
  | .error e => .error e
  | .ok key => .ok (c.tc_named_cache_.lookup key)

/-- Embeds `TypeCache::insert(type_fqname, typecode, ros_type)` (typecache.cpp). -/
def TypeCache.insert (c : TypeCache) (type_fqname : Name) (typecode : TypeCode)
    (ros_type : Bool) : Except Err TypeCache :=
  match cache_key type_fqname ros_type with
  | .error e => .error e
  | .ok key =>
    .ok { c with
      tc_named_cache_ := map_emplace c.tc_named_cache_ key typecode
      tc_cache_ := c.tc_cache_ ++ [typecode] }

/-- Embeds `TypeCache::insert_topic` (typecache.cpp): the cache after the call and
whether the topic is new. A throwing call leaves the cache as it was. -/
def TypeCache.insert_topic (c : TypeCache) (topic_name type_fqname : Name) :
    Except Err (TypeCache × Bool) :=
  match normalize_dds_type_name type_fqname with
  | .error e => .error e
  | .ok norm_fqname =>
    match c.topics_cache_.lookup topic_name with
    | some cached =>
      if norm_fqname ≠ cached then .error (.topicConflict topic_name)
      else .ok (c, false)
    | none =>
      .ok ({ c with topics_cache_ := c.topics_cache_ ++ [(topic_name, norm_fqname)] }, true)

/-! ## Collecting nested type codes -/

/-- The tail of one round of the inspection loop of
`collect_nested_typecodes`: `nested` is what the recursive call on
`nested_tc` returned; a clone of `nested_tc` is appended unless its name is
found in the cache. -/
def collect_round (c : TypeCache) (ros_type : Bool) (nested_tc : TypeCode)
    (nested : List TypeCode) : Except Err (List TypeCode) :=
  match DDS_TypeCode_name nested_tc with
  | .error e => .error e
  | .ok nested_name =>
    match c.find nested_name ros_type with
    | .error e => .error e
    | .ok none => .ok (nested ++ [DDS_TypeCodeFactory_clone_tc nested_tc])
    | .ok (some _) => .ok nested

mutual
/-- One round of the inspection loop of `collect_nested_typecodes` for the
inspected type `ntc`: a complex type is taken as it is, a collection is
resolved to its leaf (`resolve_collection_typecode`) which is taken when it
is complex, anything else is skipped; the type taken is collected
recursively and then handed to `collect_round`. -/
def collect_inspect (c : TypeCache) (ros_type : Bool) : TypeCode → Except Err (List TypeCode)
  | .sequence _ e => collect_inspect c ros_type e
  | .array _ e => collect_inspect c ros_type e
  | .struct n ms =>
    match collect_members c ros_type ms with
    | .error e => .error e
    | .ok nested => collect_round c ros_type (.struct n ms) nested
  | .union n ms =>
    match collect_members c ros_type ms with
    | .error e => .error e
    | .ok nested => collect_round c ros_type (.union n ms) nested
  | .value n b ms =>
    match collect_base c ros_type b with
    | .error e => .error e
    | .ok from_base =>
      match collect_members c ros_type ms with
      | .error e => .error e
      | .ok from_members => collect_round c ros_type (.value n b ms) (from_base ++ from_members)
  | .enum n ls => collect_round c ros_type (.enum n ls) []
  | .prim _ => .ok []
  | .string _ => .ok []
  | .wstring _ => .ok []
/-- The inspection loop of `collect_nested_typecodes` over the member
types, in member order. -/
def collect_members (c : TypeCache) (ros_type : Bool) : Members → Except Err (List TypeCode)
  | .nil => .ok []
  | .cons _ t rest =>
    match collect_inspect c ros_type t with
    | .error e => .error e
    | .ok first =>
      match collect_members c ros_type rest with
      | .error e => .error e
      | .ok others => .ok (first ++ others)
/-- The round of the inspection loop for the concrete base type, which is
inspected before the members. -/
def collect_base (c : TypeCache) (ros_type : Bool) : Base → Except Err (List TypeCode)
  | .none => .ok []
  | .some t => collect_inspect c ros_type t
end

/-- Embeds `TypeCache::collect_nested_typecodes` (typecache.cpp): the clones of the
nested complex type codes of `tc` whose names are not in the cache, every
type after the types nested in it. The types inspected are the concrete
base type, when there is one, and the member types; enum labels carry no
type and the discriminator of a union is not inspected. -/
def TypeCache.collect_nested_typecodes (c : TypeCache) (tc : TypeCode) (ros_type : Bool) :
    Except Err (List TypeCode) :=
  match tc with
  | .struct _ ms => collect_members c ros_type ms
  | .union _ ms => collect_members c ros_type ms
  | .value _ b ms =>
    match collect_base c ros_type b with
    | .error e => .error e
    | .ok from_base =>
      match collect_members c ros_type ms with
      | .error e => .error e
      | .ok from_members => .ok (from_base ++ from_members)
  | .enum _ _ => .ok []
  | _ => .error .badKind

/-! ## The mangling transform -/

mutual
/-- The body of the member loop of `mangle_typecode_recur` for a member of
type `member_tc`: a struct is transformed recursively; a collection whose
resolved leaf is a struct is rebuilt as one sequence (with the bound of the
member) or one array (with the dimensions of the member) of the transformed
leaf, any other collection is cloned; every other member type is kept. -/
def mangle_member_type (make_name_fn : Name → Except Err Name) (make_member_name_fn : Name → Name) :
    TypeCode → Except Err TypeCode
  | .struct n ms =>
    match make_name_fn n with
    | .error e => .error e
    | .ok mangled_tc_name =>
      match mangle_members make_name_fn make_member_name_fn ms with
      | .error e => .error e
      | .ok tc_members => .ok (.struct mangled_tc_name tc_members)
  | .sequence seq_bound e =>
    match mangle_leaf make_name_fn make_member_name_fn e with
    | .error err => .error err
    | .ok (some nested_tc) => .ok (.sequence seq_bound nested_tc)
    | .ok none => .ok (DDS_TypeCodeFactory_clone_tc (.sequence seq_bound e))
  | .array array_dimensions e =>
    match mangle_leaf make_name_fn make_member_name_fn e with
    | .error err => .error err
    | .ok (some nested_tc) => .ok (.array array_dimensions nested_tc)
    | .ok none => .ok (DDS_TypeCodeFactory_clone_tc (.array array_dimensions e))
  | t => .ok t
/-- The leaf of a collection as `mangle_typecode_recur` sees it: the
content type resolved through nested collections, transformed when it is a
struct (`some`), and `none` when it is not a struct. -/
def mangle_leaf (make_name_fn : Name → Except Err Name) (make_member_name_fn : Name → Name) :
    TypeCode → Except Err (Option TypeCode)
  | .sequence _ e => mangle_leaf make_name_fn make_member_name_fn e
  | .array _ e => mangle_leaf make_name_fn make_member_name_fn e
  | .struct n ms =>
    match make_name_fn n with
    | .error e => .error e
    | .ok mangled_tc_name =>
      match mangle_members make_name_fn make_member_name_fn ms with
      | .error e => .error e
      | .ok tc_members => .ok (some (.struct mangled_tc_name tc_members))
  | _ => .ok none
/-- The member loop of `mangle_typecode_recur`. -/
def mangle_members (make_name_fn : Name → Except Err Name) (make_member_name_fn : Name → Name) :
    Members → Except Err Members
  | .nil => .ok .nil
  | .cons tc_mem_name member_tc rest =>
    match mangle_member_type make_name_fn make_member_name_fn member_tc with
    | .error e => .error e
    | .ok member_tc2 =>
      match mangle_members make_name_fn make_member_name_fn rest with
      | .error e => .error e
      | .ok rest2 => .ok (.cons (make_member_name_fn tc_mem_name) member_tc2 rest2)
end

/-- Embeds `TypeCache::mangle_typecode_recur` (typecache.cpp): a struct type code
named `make_name_fn(name)` over the transformed members of `tc`. The
members walked are the typed members of `tc` (enum labels carry no type),
and the type code factory is taken to build every struct it is asked for. -/
def mangle_typecode_recur (tc : TypeCode) (make_name_fn : Name → Except Err Name)
    (make_member_name_fn : Name → Name) : Except Err TypeCode :=
  match DDS_TypeCode_name tc with
  | .error e => .error e
  | .ok tc_name =>
    match make_name_fn tc_name with
    | .error e => .error e
    | .ok mangled_tc_name =>
      let members : Members :=
        match tc with
        | .struct _ ms => ms
        | .union _ ms => ms
        | .value _ _ ms => ms
        | _ => .nil
      match mangle_members make_name_fn make_member_name_fn members with
      | .error e => .error e
      | .ok tc_members => .ok (.struct mangled_tc_name tc_members)

/-- Embeds `TypeCache::mangle_typecode` (typecache.cpp). -/
def TypeCache.mangle_typecode (c : TypeCache) (tc : TypeCode) : Except Err TypeCode :=
  mangle_typecode_recur tc make_typecode_name_mangled
    (fun member_name =>
      make_typecode_member_name_mangled member_name c.options_.legacy_rmw_compatible)

/-- Embeds `TypeCache::demangle_typecode` (typecache.cpp). -/
def TypeCache.demangle_typecode (_c : TypeCache) (tc : TypeCode) : Except Err TypeCode :=
  mangle_typecode_recur tc make_typecode_name_demangled make_typecode_member_name_demangled

/-! ## Asserting type codes and topics -/

/-- The head of `TypeCache::assert_typecode(tc, ros_type, demangled_ros_type)`:
the type code `assert_tc` that is looked up and stored, and its name
`type_fqname`. A ROS type whose name form disagrees with the storage form is
mangled or demangled, every other type is cloned. -/
def TypeCache.assert_form (c : TypeCache) (tc : TypeCode) (ros_type : Bool)
    (demangled_ros_type : Name) : Except Err (TypeCode × Name) :=
  match DDS_TypeCode_name tc with
  | .error e => .error e
  | .ok type_fqname =>
    if ros_type ∧ ¬ c.options_.demangle_ros_names ∧ type_fqname = demangled_ros_type then
      match c.mangle_typecode tc with
      | .error e => .error e
      | .ok assert_tc =>
        match DDS_TypeCode_name assert_tc with
        | .error e => .error e
        | .ok type_fqname2 => .ok (assert_tc, type_fqname2)
    else if ros_type ∧ c.options_.demangle_ros_names ∧ type_fqname ≠ demangled_ros_type then
      match c.demangle_typecode tc with
      | .error e => .error e
      | .ok assert_tc =>
        match DDS_TypeCode_name assert_tc with
        | .error e => .error e
        | .ok type_fqname2 => .ok (assert_tc, type_fqname2)
    else
      .ok (DDS_TypeCodeFactory_clone_tc tc, type_fqname)

/-- The loop `for (auto & n : nested)` of `TypeCache::assert_typecode`:
a collected type whose name is not found is inserted and reported as new,
one whose name is found must equal the cached type and is reported as
already asserted. The cache returned is the cache when the loop ends or
throws. -/
def TypeCache.assert_nested (c : TypeCache) (ros_type : Bool) :
    List TypeCode → List TypeCode → List TypeCode →
      TypeCache × Except Err (List TypeCode × List TypeCode)
  | [], new_asserted, already_asserted => (c, .ok (new_asserted, already_asserted))
  | n :: rest, new_asserted, already_asserted =>
    match DDS_TypeCode_name n with
    | .error e => (c, .error e)
    | .ok n_name =>
      match c.find n_name ros_type with
      | .error e => (c, .error e)
      | .ok none =>
        match c.insert n_name n ros_type with
        | .error e => (c, .error e)
        | .ok c1 => TypeCache.assert_nested c1 ros_type rest (new_asserted ++ [n]) already_asserted
      | .ok (some cached) =>
        if ¬ DDS_TypeCode_equal cached n then (c, .error (.nestedTypeConflict n_name))
        else TypeCache.assert_nested c ros_type rest new_asserted (already_asserted ++ [n])

/-- Embeds `TypeCache::assert_typecode(tc, ros_type, demangled_ros_type)`
(typecache.cpp): the cache after the call and either the exception thrown
or `(is_new, new_asserted, already_asserted)`. -/
def TypeCache.assert_typecode (c : TypeCache) (tc : TypeCode) (ros_type : Bool)
    (demangled_ros_type : Name) :
    TypeCache × Except Err (Bool × List TypeCode × List TypeCode) :=
  match c.assert_form tc ros_type demangled_ros_type with
  | .error e => (c, .error e)
  | .ok (assert_tc, type_fqname) =>
    match c.find type_fqname ros_type with
    | .error e => (c, .error e)
    | .ok (some cached) =>
      if ¬ DDS_TypeCode_equal cached assert_tc then (c, .error (.typeConflict type_fqname))
      else (c, .ok (false, [], [cached]))
    | .ok none =>
      let clone_tc := DDS_TypeCodeFactory_clone_tc assert_tc
      match c.collect_nested_typecodes clone_tc ros_type with
      | .error e => (c, .error e)
      | .ok nested =>
        match c.assert_nested ros_type nested [] [] with
        | (c1, .error e) => (c1, .error e)
        | (c1, .ok (new_asserted, already_asserted)) =>
          match c1.insert type_fqname clone_tc ros_type with
          | .error e => (c1, .error e)
          | .ok c2 => (c2, .ok (true, new_asserted ++ [clone_tc], already_asserted))

/-- Embeds `TypeCache::assert_dds_type` (typecache.cpp). -/
def TypeCache.assert_dds_type (c : TypeCache) (tc : TypeCode) (ros_type : Bool)
    (demangled_ros_type : Name) :
    TypeCache × Except Err (Bool × List TypeCode × List TypeCode) :=
  c.assert_typecode tc ros_type demangled_ros_type

/-- Embeds `TypeCache::assert_dds_topic` (typecache.cpp): the cache after the call
and either the exception thrown or
`(new_topic, new_type, new_types, existing_types)`. The vector whose
`back()` is taken is never empty after a successful type assertion; the
model answers `badKind` for the empty one. -/
def TypeCache.assert_dds_topic (c : TypeCache) (topic_name : Name) (tc : TypeCode)
    (ros_type : Bool) (demangled_ros_type : Name) :
    TypeCache × Except Err (Bool × Bool × List TypeCode × List TypeCode) :=
  match c.assert_typecode tc ros_type demangled_ros_type with
  | (c1, .error e) => (c1, .error e)
  | (c1, .ok (new_type, new_types, existing_types)) =>
    match (if new_type then new_types.getLast? else existing_types.getLast?) with
    | none => (c1, .error .badKind)
    | some topic_tc =>
      match DDS_TypeCode_name topic_tc with
      | .error e => (c1, .error e)
      | .ok tc_name =>
        match c1.insert_topic topic_name tc_name with
        | .error e => (c1, .error e)
        | .ok (c2, new_topic) => (c2, .ok (new_topic, new_type, new_types, existing_types))

/-- The keys of `tc_named_cache_`. -/
def TypeCache.keys (c : TypeCache) : List Name :=
  c.tc_named_cache_.map Prod.fst

/-! ## Notions used by the statements -/

mutual
/-- The complex type codes met when a member type is inspected: the type
itself when it is complex (after the types nested in it), the complex leaf
and what it nests when it is a collection. -/
def nc_inspect : TypeCode → List TypeCode
  | .sequence _ e => nc_inspect e
  | .array _ e => nc_inspect e
  | .struct n ms => nc_members ms ++ [.struct n ms]
  | .union n ms => nc_members ms ++ [.union n ms]
  | .value n b ms => (nc_base b ++ nc_members ms) ++ [.value n b ms]
  | .enum n ls => [.enum n ls]
  | .prim _ => []
  | .string _ => []
  | .wstring _ => []
/-- The complex type codes nested in a member list, in member order. -/
def nc_members : Members → List TypeCode
  | .nil => []
  | .cons _ t rest => nc_inspect t ++ nc_members rest
/-- The complex type codes nested in a concrete base type. -/
def nc_base : Base → List TypeCode
  | .none => []
  | .some t => nc_inspect t
end

/-- Every nested complex descriptor of `tc`, at any depth: a struct, enum,
union or value that is a member type, the leaf of a member collection or
the concrete base type of `tc` or of a descriptor nested in `tc`. -/
def nested_complex : TypeCode → List TypeCode
  | .struct _ ms => nc_members ms
  | .union _ ms => nc_members ms
  | .value _ b ms => nc_base b ++ nc_members ms
  | _ => []

/-- The key under which `find` and `insert` address the type code `tc`. -/
def key_of (tc : TypeCode) (ros_type : Bool) : Except Err Name :=
  match DDS_TypeCode_name tc with
  | .error e => .error e
  | .ok type_fqname => cache_key type_fqname ros_type

/-- The test of `collect_nested_typecodes` on a nested type: its name is
looked up and not found. -/
def uncached (c : TypeCache) (ros_type : Bool) (tc : TypeCode) : Bool :=
  match DDS_TypeCode_name tc with
  | .error _ => false
  | .ok nested_name =>
    match c.find nested_name ros_type with
    | .ok none => true
    | _ => false

/-- A list of type codes is in dependency order when every descriptor comes
after all the complex descriptors nested in it. -/
def DepOrdered (l : List TypeCode) : Prop :=
  ∀ (before : List TypeCode) (x : TypeCode) (after : List TypeCode),
    l = before ++ x :: after → ∀ d ∈ nested_complex x, d ∈ before

/-- The cache states reached from the empty cache by successful
`assert_dds_type` and `assert_dds_topic` calls whose `ros_type` argument
satisfies `allowed`. -/
inductive Reachable (options : TypeCacheOptions) (allowed : Bool → Prop) : TypeCache → Prop
  | empty : Reachable options allowed (TypeCache.empty options)
  | assert_dds_type (c c1 : TypeCache) (tc : TypeCode) (ros_type : Bool)
      (demangled_ros_type : Name) (r : Bool × List TypeCode × List TypeCode) :
      Reachable options allowed c → allowed ros_type →
      c.assert_dds_type tc ros_type demangled_ros_type = (c1, .ok r) →
      Reachable options allowed c1
  | assert_dds_topic (c c1 : TypeCache) (topic_name : Name) (tc : TypeCode) (ros_type : Bool)
      (demangled_ros_type : Name) (r : Bool × Bool × List TypeCode × List TypeCode) :
      Reachable options allowed c → allowed ros_type →
      c.assert_dds_topic topic_name tc ros_type demangled_ros_type = (c1, .ok r) →
      Reachable options allowed c1

/-! ## Descriptors and caches used in the examples -/

/-- The primitive `long`. -/
def ex_long : TypeCode := .prim .long

/-- The struct `ns::A { long x }`. -/
def ex_A_x : TypeCode := .struct "ns::A".toList (.cons "x".toList ex_long .nil)

/-- The struct `ns::A { long y }`. -/
def ex_A_y : TypeCode := .struct "ns::A".toList (.cons "y".toList ex_long .nil)

/-- The nested struct `N { long v }`. -/
def ex_N : TypeCode := .struct "N".toList (.cons "v".toList ex_long .nil)

/-- A different struct with the same name, `N { long w }`. -/
def ex_N_other : TypeCode := .struct "N".toList (.cons "w".toList ex_long .nil)

/-- The top-level struct `A { N n }`. -/
def ex_top_A : TypeCode := .struct "A".toList (.cons "n".toList ex_N .nil)

/-- The top-level struct `B { sequence<N> n }`, which embeds the same `N`. -/
def ex_top_B : TypeCode :=
  .struct "B".toList (.cons "n".toList (.sequence .unbounded ex_N) .nil)

/-- The top-level struct `B { N n }` over the other struct named `N`. -/
def ex_top_B_other : TypeCode := .struct "B".toList (.cons "n".toList ex_N_other .nil)

/-- The mangled struct `p::msg::dds_::T_ { long x_ }`. -/
def ex_T_mangled : TypeCode :=
  .struct "p::msg::dds_::T_".toList (.cons "x_".toList ex_long .nil)

/-- The demangled struct `p::msg::T { long x }`. -/
def ex_T_demangled : TypeCode := .struct "p::msg::T".toList (.cons "x".toList ex_long .nil)

/-- The struct `A { B_ m }` over the empty struct `B_`. -/
def ex_A_nesting_B_ : TypeCode :=
  .struct "A".toList (.cons "m".toList (.struct "B_".toList .nil) .nil)

/-- The empty struct `A_`. -/
def ex_A_ : TypeCode := .struct "A_".toList .nil

/-- The empty struct `p::msg::dds::dds::T`. -/
def ex_dds_dds : TypeCode := .struct "p::msg::dds::dds::T".toList .nil

/-- The options of the `--mangle` mode: names are stored mangled. -/
def ex_mangle_options : TypeCacheOptions := { demangle_ros_names := false }

/-- The empty cache with the default options. -/
def ex_empty : TypeCache := TypeCache.empty {}

/-- The cache after `ns::A { long x }` was asserted as a non-ROS type. -/
def ex_cache_A_x : TypeCache := (ex_empty.assert_dds_type ex_A_x false []).1

/-- The cache after `A { N n }` was asserted with the default arguments. -/
def ex_cache_top_A : TypeCache := (ex_empty.assert_dds_type ex_top_A true []).1

/-- The struct `Top { Mid m; sequence<N> s }` with `Mid { N n }`. -/
def ex_deep : TypeCode :=
  .struct "Top".toList
    (.cons "m".toList (.struct "Mid".toList (.cons "n".toList ex_N .nil))
      (.cons "s".toList (.sequence .unbounded ex_N) .nil))

/-- The cache after `A { B_ m }` was asserted as a non-ROS type. -/
def ex_cache_raw : TypeCache := (ex_empty.assert_dds_type ex_A_nesting_B_ false []).1

/-- The cache, in `--mangle` mode, after `p::msg::dds::dds::T` was asserted
as a ROS type the way the monitor does. -/
def ex_cache_dds_dds : TypeCache :=
  ((TypeCache.empty ex_mangle_options).assert_dds_type ex_dds_dds true "p/msg/T".toList).1

/-- The cache `ex_cache_dds_dds` after `p::msg::T { long x }` was asserted
the same way. -/
def ex_cache_two_keys : TypeCache :=
  (ex_cache_dds_dds.assert_dds_type ex_T_demangled true "p/msg/T".toList).1

/-! ## Construction of the cache -/

/-- Embeds `TypeCache::TypeCache(options)` (typecache.cpp): the checks on the
options, in the order of the source; the type code factory and the library
search path of the environment are taken to be available. -/
def TypeCache.create (options : TypeCacheOptions) : Except Err TypeCache :=
  if options.cyclone_compatible ∧ options.legacy_rmw_compatible then
    .error (.invalidConfig "multiple compatibility modes enabled".toList)
  else if options.cyclone_compatible ∧ options.request_reply_mapping ≠ .Basic then
    .error (.invalidConfig "compatibility mode requires basic mapping".toList)
  else if options.legacy_rmw_compatible ∧ options.request_reply_mapping ≠ .Extended then
    .error (.invalidConfig "compatibility mode required extended mapping".toList)
  else
    .ok (TypeCache.empty options)

/-! ## Name normalisation as the specification words it -/

/-- Replaces every occurrence of `pat` by `rep`, as the specification words
it: the text is read from the left, an occurrence found is rewritten and the
reading goes on behind it. -/
def spec_replace_every (pat rep : List Char) (s : List Char) : List Char :=
  if _h : pat ≠ [] ∧ pat.isPrefixOf s = true then
    rep ++ spec_replace_every pat rep (s.drop pat.length)
  else
    match s with
    | [] => []
    | c :: cs => c :: spec_replace_every pat rep cs
termination_by s.length
decreasing_by
  · have hp : 0 < pat.length := List.length_pos.mpr _h.1
    have hs : pat.length ≤ s.length := (List.isPrefixOf_iff_prefix.mp _h.2).length_le
    simp only [List.length_drop]
    omega
  · simp

/-- Removes one trailing `_` if present, as the specification words it. -/
def spec_remove_trailing_underscore (s : List Char) : List Char :=
  match s.reverse with
  | '_' :: rest => rest.reverse
  | _ => s

/-- The four rewriting steps of the specification, in its order: every `__`
becomes `::`, one trailing `_` is removed, every `::dds_::` becomes
`::dds::`, every `::dds::` becomes `::`. -/
def spec_normalise (name : Name) : Name :=
  spec_replace_every "::dds::".toList "::".toList
    (spec_replace_every "::dds_::".toList "::dds::".toList
      (spec_remove_trailing_underscore
        (spec_replace_every "__".toList "::".toList name)))

/-- The rewritten copy `norm_fqname` in which `parse_ros_type_name` looks
for the separators. -/
def ros_norm_fqname (type_fqname : Name) : Name :=
  strip_trailing_underscore (regex_replace_lit type_fqname "__".toList "/".toList)

/-- Whether the text contains `__`. -/
def has_double_underscore : List Char → Bool
  | a :: b :: rest => (a == '_' && b == '_') || has_double_underscore (b :: rest)
  | _ => false

/-! ## Forms of names used by the statements -/

/-- The canonical ROS 2 form `pkg::msg::Type` or `pkg::srv::Type`: two `::`
separators, the first one followed by `msg::` or `srv::`. -/
def CanonicalForm (name : Name) : Prop :=
  ∃ P T : Name, (name = P ++ "::msg::".toList ++ T ∨ name = P ++ "::srv::".toList ++ T) ∧
    ¬ "::".toList <:+: P ∧ ¬ "::".toList <:+: T

/-- The name contains neither `::dds::` nor `::dds_::`. -/
def NoDdsSegment (name : Name) : Prop :=
  ¬ "::dds::".toList <:+: name ∧ ¬ "::dds_::".toList <:+: name

/-- The name contains a further `::` after its rightmost `::dds::` or
`::dds_::` segment: it is `X ++ seg ++ Y` where no such segment starts after
the first character of `seg`, and `Y` contains `::`. -/
def FurtherSeparator (name : Name) : Prop :=
  ∃ X seg Y : Name, name = X ++ seg ++ Y ∧
    (seg = "::dds::".toList ∨ seg = "::dds_::".toList) ∧
    ¬ "::dds::".toList <:+: (seg ++ Y).tail ∧ ¬ "::dds_::".toList <:+: (seg ++ Y).tail ∧
    "::".toList <:+: Y

/-- An example name without any `dds` segment that is not canonical. -/
def ex_name_no_dds : Name := "pkg::other::T".toList

/-- An example name with a `::` after its `dds_` segment. -/
def ex_name_further : Name := "pkg::msg::dds_::a::T_".toList

/-- A package or type identifier as the statements on names use it:
non-empty, without `:` or `/`, and without `__`. -/
def IsSegment (s : Name) : Prop :=
  s ≠ [] ∧ ':' ∉ s ∧ '/' ∉ s ∧ has_double_underscore s = false

/-! ## Request and reply names -/

/-- The value of `std::string::npos` as a `size_t` of 64 bits. -/
def size_t_npos : Nat := 18446744073709551615

/-- A search result as the `size_t` that the source compares. -/
def size_t_of_pos : Option Nat → Nat
  | some p => p
  | none => size_t_npos

/-- The difference `a - b` as it is computed in `size_t`, modulo `2 ^ 64`. -/
def size_t_sub (a b : Nat) : Nat :=
  (a + 18446744073709551616 - b) % 18446744073709551616

/-- Embeds `is_type_requestreply` (typesupport.cpp): `(request_reply, is_request)`.
The position found by `rfind`, which may be `npos`, is compared with
`size() - sfx_len`, a difference of `size_t` values. -/
def is_type_requestreply (type_fqname : Name) : Bool × Bool :=
  let sfx_pos := str_rfind type_fqname "Request_".toList
  let (sfx_len, sfx_pos) :=
    if sfx_pos = none then (7, str_rfind type_fqname "Request".toList) else (8, sfx_pos)
  if size_t_of_pos sfx_pos = size_t_sub type_fqname.length sfx_len then (true, true)
  else
    let sfx_pos := str_rfind type_fqname "Response_".toList
    let (sfx_len, sfx_pos) :=
      if sfx_pos = none then (8, str_rfind type_fqname "Response".toList) else (9, sfx_pos)
    if size_t_of_pos sfx_pos = size_t_sub type_fqname.length sfx_len then (true, false)
    else (false, false)

/-- The classification by the actual ending of the name, as the
specification words it: a request when the name ends with `Request` or
`Request_`, otherwise a reply when it ends with `Response` or `Response_`. -/
def spec_is_requestreply (s : Name) : Bool × Bool :=
  if "Request".toList.isSuffixOf s ∨ "Request_".toList.isSuffixOf s then (true, true)
  else if "Response".toList.isSuffixOf s ∨ "Response_".toList.isSuffixOf s then (true, false)
  else (false, false)

/-! ## The table of primitive type identifiers -/

/-- Modelled from the spec: the field type identifiers `ROS_TYPE_*` of the
introspection library, which is not part of the repository, under the names
that `type_id_ros_to_dds` uses; `other` stands for every value of the
`uint8_t` that is none of them. -/
inductive RosTypeId : Type
  | ROS_TYPE_BOOL | ROS_TYPE_BYTE | ROS_TYPE_UINT8 | ROS_TYPE_INT8 | ROS_TYPE_CHAR
  | ROS_TYPE_FLOAT32 | ROS_TYPE_FLOAT64 | ROS_TYPE_INT16 | ROS_TYPE_UINT16
  | ROS_TYPE_INT32 | ROS_TYPE_UINT32 | ROS_TYPE_INT64 | ROS_TYPE_UINT64
  | ROS_TYPE_STRING | ROS_TYPE_WSTRING | ROS_TYPE_MESSAGE
  | other (value : Nat)
  deriving DecidableEq, Repr

/-- The values of `DDS_TCKind` that `type_id_ros_to_dds` returns
(`DDS_TK_NULL`, `DDS_TK_BOOLEAN`, ...). -/
inductive DDS_TK : Type
  | NULL | BOOLEAN | OCTET | CHAR | FLOAT | DOUBLE | SHORT | USHORT | LONG | ULONG
  | LONGLONG | ULONGLONG | STRING | WSTRING | STRUCT
  deriving DecidableEq, Repr

/-- Embeds `type_id_ros_to_dds` (typecodes.hpp). -/
def type_id_ros_to_dds : RosTypeId → DDS_TK
  | .ROS_TYPE_BOOL => .BOOLEAN
  | .ROS_TYPE_BYTE => .OCTET
  | .ROS_TYPE_UINT8 => .OCTET
  | .ROS_TYPE_INT8 => .OCTET
  | .ROS_TYPE_CHAR => .CHAR
  | .ROS_TYPE_FLOAT32 => .FLOAT
  | .ROS_TYPE_FLOAT64 => .DOUBLE
  | .ROS_TYPE_INT16 => .SHORT
  | .ROS_TYPE_UINT16 => .USHORT
  | .ROS_TYPE_INT32 => .LONG
  | .ROS_TYPE_UINT32 => .ULONG
  | .ROS_TYPE_INT64 => .LONGLONG
  | .ROS_TYPE_UINT64 => .ULONGLONG
  | .ROS_TYPE_STRING => .STRING
  | .ROS_TYPE_WSTRING => .WSTRING
  | .ROS_TYPE_MESSAGE => .STRUCT
  | .other _ => .NULL

/-! ## JSON strings -/

/-- The double quote. -/
def char_quote : Char := Char.ofNat 34

/-- The backslash. -/
def char_backslash : Char := Char.ofNat 92

/-- The line feed. -/
def char_lf : Char := Char.ofNat 10

/-- The carriage return. -/
def char_cr : Char := Char.ofNat 13

set_option linter.unusedVariables false in
/-- Embeds `json_string` (base_output_emitter.cpp): the text appended to the
stream. Each of the three replacements is applied to `value`, as in the
source. -/
def json_string (value : List Char) : List Char :=
  let escaped := regex_replace_lit value [char_quote] [char_backslash, char_quote]
  let escaped := regex_replace_lit value [char_cr, char_lf] [char_backslash, 'n']
  let escaped := regex_replace_lit value [char_lf] [char_backslash, 'n']
  [char_quote] ++ escaped ++ [char_quote]

/-- The JSON string as the specification words it: every double quote is
escaped, then every CR LF pair and then every remaining LF becomes the two
characters backslash and `n`, and the result is enclosed in double quotes. -/
def spec_json_string (value : List Char) : List Char :=
  [char_quote] ++
    spec_replace_every [char_lf] [char_backslash, 'n']
      (spec_replace_every [char_cr, char_lf] [char_backslash, 'n']
        (spec_replace_every [char_quote] [char_backslash, char_quote] value)) ++
    [char_quote]

/-! ## The input emitter -/

/-- A record of the input queue: `(topic_name, type_name, type_tc)`, where
`none` is `nullptr`. -/
abbrev InputRecord := Name × Name × Option TypeCode

/-- A stream of `input_streams_`: an opened file or `std::cin`. -/
inductive InputStream : Type
  | file (path : Name)
  | cin
  deriving DecidableEq, Repr

/-- Embeds `operator<` of `std::string`, the order of the keys of a `std::map`:
lexicographic on the character codes. -/
def str_lt : List Char → List Char → Bool
  | [], [] => false
  | [], _ :: _ => true
  | _ :: _, [] => false
  | a :: as, b :: bs =>
    if a.toNat < b.toNat then true
    else if b.toNat < a.toNat then false
    else str_lt as bs

/-- Embeds `std::map::emplace` on a map that is iterated: the bindings are kept
in the order of their keys, and a key that is bound keeps its binding. -/
def ordered_emplace {V : Type} : List (Name × V) → Name → V → List (Name × V)
  | [], key, v => [(key, v)]
  | (k, w) :: rest, key, v =>
    if str_lt key k then (key, v) :: (k, w) :: rest
    else if str_lt k key then (k, w) :: ordered_emplace rest key v
    else (k, w) :: rest

/-- The data members of `BaseInputEmitter` (base_input_emitter.hpp) that the
reader and the consumer work on. -/
structure BaseInputEmitter where
  input_files : List Name
  input_streams_ : List (Name × InputStream) := []
  active_ : Bool := true
  reader_thread_active_ : Bool := true
  input_queue_ : List InputRecord := []
  deriving DecidableEq

/-- The loop of `BaseInputEmitter::open` over `options_.input_files`. -/
def open_files : List Name → Bool → List (Name × InputStream) →
    Bool × List (Name × InputStream)
  | [], read_stdin, input_streams_ => (read_stdin, input_streams_)
  | input_file :: rest, read_stdin, input_streams_ =>
    let is_stdin := decide (input_file = "-".toList)
    let read_stdin := read_stdin || is_stdin
    if is_stdin then open_files rest read_stdin input_streams_
    else open_files rest read_stdin (ordered_emplace input_streams_ input_file (.file input_file))

/-- Embeds `BaseInputEmitter::open` (base_input_emitter.cpp): the streams are
registered in `input_streams_`; the reader thread is started unless there is
no stream. -/
def BaseInputEmitter.open (self : BaseInputEmitter) : BaseInputEmitter :=
  let (read_stdin, streams) := open_files self.input_files false []
  let streams := if read_stdin then ordered_emplace streams "stdin".toList .cin else streams
  if streams.length = 0 then
    { self with input_streams_ := streams, reader_thread_active_ := false }
  else
    { self with input_streams_ := streams }

/-- Embeds `BaseInputEmitter::is_active`. -/
def BaseInputEmitter.is_active (self : BaseInputEmitter) : Bool :=
  self.active_

/-- Embeds `BaseInputEmitter::queue_input` (base_input_emitter.cpp): a clone of the
type code, when there is one, is queued with the two names at the back of
the queue. -/
def BaseInputEmitter.queue_input (self : BaseInputEmitter) (topic_name type_name : Name)
    (type_tc : Option TypeCode) : BaseInputEmitter :=
  let cloned_tc := type_tc.map DDS_TypeCodeFactory_clone_tc
  { self with input_queue_ := self.input_queue_ ++ [(topic_name, type_name, cloned_tc)] }

/-- The body of the `while` loop of `BaseInputEmitter::reader_thread` for the
line that `std::getline` has read. -/
def BaseInputEmitter.reader_line (self : BaseInputEmitter) (line : Name) : BaseInputEmitter :=
  if line.length = 0 then self
  else
    match str_find line "@".toList 0 with
    | some at_pos =>
      let next_type := substr line 0 at_pos
      let next_topic := line.drop (at_pos + 1)
      self.queue_input next_topic next_type none
    | none => self.queue_input [] line none

/-- The `while` loop of `BaseInputEmitter::reader_thread` over the lines left in
one stream. -/
def BaseInputEmitter.reader_stream (self : BaseInputEmitter) : List Name → BaseInputEmitter
  | [] => self
  | line :: rest =>
    if self.is_active then (self.reader_line line).reader_stream rest else self

/-- The `for` loop of `BaseInputEmitter::reader_thread` over `input_streams_`, in
the order of the map; `content` gives the lines of each stream. -/
def reader_streams (content : InputStream → List Name) :
    BaseInputEmitter → List (Name × InputStream) → BaseInputEmitter
  | self, [] => self
  | self, (_, input_stream) :: rest =>
    if ¬ self.is_active then self
    else reader_streams content (self.reader_stream (content input_stream)) rest

/-- Embeds `BaseInputEmitter::reader_thread` followed by
`reader_thread_complete` (base_input_emitter.cpp). -/
def BaseInputEmitter.reader_thread (self : BaseInputEmitter)
    (content : InputStream → List Name) : BaseInputEmitter :=
  { reader_streams content self self.input_streams_ with reader_thread_active_ := false }

/-- The outcome of a call of `BaseInputEmitter::next` on the sequential state:
the record returned, `NoInputException`, or a wait that only another thread
can end. -/
inductive NextResult : Type
  | record (r : InputRecord)
  | no_input
  | blocked
  deriving DecidableEq

/-- Embeds `BaseInputEmitter::next(timeout, block)` (base_input_emitter.cpp) on the
sequential state. A wait with a timeout ends at the timeout. -/
def BaseInputEmitter.next (self : BaseInputEmitter) (_timeout : Nat) (block : Bool) :
    BaseInputEmitter × NextResult :=
  if self.is_active ∧ self.reader_thread_active_ ∧ self.input_queue_.length = 0 ∧ block then
    (self, .blocked)
  else
    match self.input_queue_ with
    | next :: rest =>
      if self.is_active then ({ self with input_queue_ := rest }, .record next)
      else (self, .no_input)
    | [] => (self, .no_input)

/-- A call on the input queue: `queue_input` by a producer or `next` by the
consumer. -/
inductive QueueOp : Type
  | queue_input (topic_name type_name : Name) (type_tc : Option TypeCode)
  | next (timeout : Nat) (block : Bool)

/-- The records passed to `queue_input` by a sequence of calls, in order. -/
def queued_records : List QueueOp → List InputRecord
  | [] => []
  | .queue_input topic_name type_name type_tc :: rest =>
    (topic_name, type_name, type_tc) :: queued_records rest
  | .next _ _ :: rest => queued_records rest

/-- A sequence of calls on the input queue, run one after the other: the
emitter after the calls and the records that the calls of `next` have
returned, in order. -/
def run_queue_ops : BaseInputEmitter → List QueueOp → BaseInputEmitter × List InputRecord
  | self, [] => (self, [])
  | self, .queue_input topic_name type_name type_tc :: rest =>
    run_queue_ops (self.queue_input topic_name type_name type_tc) rest
  | self, .next timeout block :: rest =>
    match self.next timeout block with
    | (self1, .record r) =>
      let (self2, returned) := run_queue_ops self1 rest
      (self2, r :: returned)
    | (self1, _) => run_queue_ops self1 rest

/-- An emitter reading standard input and the file `zzz.txt`. -/
def ex_emitter_stdin_first : BaseInputEmitter := { input_files := ["-".toList, "zzz.txt".toList] }

/-- The lines of the example streams: `a@t` on standard input, `b` in the file. -/
def ex_content : InputStream → List Name
  | .cin => ["a@t".toList]
  | .file _ => ["b".toList]

/-! ## Valid mangled descriptors -/

/-- A valid mangled type name: `package::middle::dds_::Type_` with middle
`msg` or `srv`, the package and the type being identifiers, the type not
ending in `_`. -/
def ValidMangledName (n : Name) : Prop :=
  ∃ P M T : Name, IsSegment P ∧ IsSegment T ∧ T.getLast? ≠ some '_' ∧
    (M = "msg".toList ∨ M = "srv".toList) ∧
    n = P ++ "::".toList ++ M ++ "::dds_::".toList ++ T ++ "_".toList

/-- The member names that the mangling produces under the option
`legacy_rmw_compatible`: with the option a name ending in exactly one `_`
behind a non-empty name, without it a non-empty name not ending in `_`. -/
def valid_mangled_member_name (legacy_rmw_compatible : Bool) (m : Name) : Bool :=
  if legacy_rmw_compatible then
    m.getLast? == some '_' && !(m.dropLast.getLast? == some '_') && !m.dropLast.isEmpty
  else
    !(m.getLast? == some '_') && !m.isEmpty

/-- Whether the leaf of a type, resolved through nested collections, is a
struct. -/
def struct_leaf : TypeCode → Bool
  | .sequence _ e => struct_leaf e
  | .array _ e => struct_leaf e
  | .struct _ _ => true
  | _ => false

mutual
/-- A valid mangled member type: a struct with a valid mangled name over
valid members, a collection over a valid element, or any other type. -/
def ValidMangled (legacy_rmw_compatible : Bool) : TypeCode → Prop
  | .struct n ms => ValidMangledName n ∧ ValidMangledMembers legacy_rmw_compatible ms
  | .sequence _ e => ValidMangledElement legacy_rmw_compatible e
  | .array _ e => ValidMangledElement legacy_rmw_compatible e
  | _ => True
/-- A valid element of a collection member: a valid mangled struct, or a
type whose leaf is not a struct (a collection over a struct has a single
level, as the members of ROS 2 messages have). -/
def ValidMangledElement (legacy_rmw_compatible : Bool) : TypeCode → Prop
  | .struct n ms => ValidMangledName n ∧ ValidMangledMembers legacy_rmw_compatible ms
  | .sequence _ e => struct_leaf e = false
  | .array _ e => struct_leaf e = false
  | _ => True
/-- A valid mangled member list. -/
def ValidMangledMembers (legacy_rmw_compatible : Bool) : Members → Prop
  | .nil => True
  | .cons m t rest =>
    valid_mangled_member_name legacy_rmw_compatible m = true ∧
      ValidMangled legacy_rmw_compatible t ∧ ValidMangledMembers legacy_rmw_compatible rest
end

/-- The mangled struct `p::msg::dds_::N_ { long v }`. -/
def ex_N_mangled : TypeCode :=
  .struct "p::msg::dds_::N_".toList (.cons "v".toList ex_long .nil)

/-- The mangled struct `p::msg::dds_::T_ { long x; sequence<p::msg::dds_::N_> s;
p::msg::dds_::N_ n; string t }` with the member names of the default options. -/
def ex_T_nesting : TypeCode :=
  .struct "p::msg::dds_::T_".toList
    (.cons "x".toList ex_long
      (.cons "s".toList (.sequence .unbounded ex_N_mangled)
        (.cons "n".toList ex_N_mangled
          (.cons "t".toList (.string .unbounded) .nil))))

/-- The cache options of the legacy mode. -/
def ex_legacy_options : TypeCacheOptions := { legacy_rmw_compatible := true }

/-- The mangled struct `p::msg::dds_::T_ { long x }`. -/
def ex_T_mangled_plain : TypeCode :=
  .struct "p::msg::dds_::T_".toList (.cons "x".toList ex_long .nil)

/-! ## Introspection members -/

mutual
/-- Modelled from the spec: the `MessageMembers` of the introspection library,
which is not part of the repository: the namespace and the name of the
message and its member records (`member_count_` is their number). -/
inductive MessageMembers : Type
  | mk (message_namespace_ message_name_ : Name) (members_ : MessageMemberList)
/-- The array `members_` of a `MessageMembers`. -/
inductive MessageMemberList : Type
  | nil
  | cons (member : MessageMember) (rest : MessageMemberList)
/-- Modelled from the spec: the `MessageMember` record of the introspection
library; `name_` is `none` for a null pointer. -/
inductive MessageMember : Type
  | mk (name_ : Option Name) (type_id_ : RosTypeId) (string_upper_bound_ : Nat)
      (members_ : NestedSupport) (is_array_ : Bool) (array_size_ : Nat)
      (is_upper_bound_ : Bool)
/-- The type support handle `members_` of a member as
`get_nested_introspection_typesupport` sees it: the handle resolves to the
members of the nested message, or the lookup fails. -/
inductive NestedSupport : Type
  | unresolved
  | resolved (members : MessageMembers)
end

/-- The field `name_` of a member record. -/
def MessageMember.name_ : MessageMember → Option Name
  | .mk name_ _ _ _ _ _ _ => name_

/-- The field `type_id_` of a member record. -/
def MessageMember.type_id_ : MessageMember → RosTypeId
  | .mk _ type_id_ _ _ _ _ _ => type_id_

/-- The field `string_upper_bound_` of a member record. -/
def MessageMember.string_upper_bound_ : MessageMember → Nat
  | .mk _ _ string_upper_bound_ _ _ _ _ => string_upper_bound_

/-- The field `members_` of a member record. -/
def MessageMember.members_ : MessageMember → NestedSupport
  | .mk _ _ _ members_ _ _ _ => members_

/-- The field `is_array_` of a member record. -/
def MessageMember.is_array_ : MessageMember → Bool
  | .mk _ _ _ _ is_array_ _ _ => is_array_

/-- The field `array_size_` of a member record. -/
def MessageMember.array_size_ : MessageMember → Nat
  | .mk _ _ _ _ _ array_size_ _ => array_size_

/-- The field `is_upper_bound_` of a member record. -/
def MessageMember.is_upper_bound_ : MessageMember → Bool
  | .mk _ _ _ _ _ _ is_upper_bound_ => is_upper_bound_

/-- The member records of a member array, in order. -/
def MessageMemberList.toList : MessageMemberList → List MessageMember
  | .nil => []
  | .cons member rest => member :: rest.toList

/-- The field `members_` of a `MessageMembers`, as a list. -/
def MessageMembers.members_ : MessageMembers → List MessageMember
  | .mk _ _ members_ => members_.toList

/-- The field `member_count_` of a `MessageMembers`. -/
def MessageMembers.member_count_ (members : MessageMembers) : Nat :=
  members.members_.length

/-- The members of a member list of a type code, in order. -/
def Members.toList : Members → List (Name × TypeCode)
  | .nil => []
  | .cons name type rest => (name, type) :: rest.toList

/-! ## Type names of introspection members -/

/-- Embeds `create_dds_type_name` (typesupport.hpp). -/
def create_dds_type_name (message_namespace message_name message_suffix : Name)
    ( mangle_prefix : Bool) : Name :=
  let prefix_sfx : Name := if mangle_prefix then "_".toList else []
  let msg_namespace := regex_replace_lit message_namespace "__".toList "::".toList
  (if ¬ msg_namespace.isEmpty then msg_namespace ++ "::".toList else []) ++
    "dds".toList ++ prefix_sfx ++ "::".toList ++ message_name ++ message_suffix

/-- Embeds `create_dds_type_name_from_members` (typesupport.hpp). -/
def create_dds_type_name_from_members (members : MessageMembers) (mangle_names : Bool) : Name :=
  match members with
  | .mk message_namespace_ message_name_ _ =>
    let msg_prefix : Name := if mangle_names then "_".toList else []
    let mangle_prefix := mangle_names
    create_dds_type_name message_namespace_ message_name_ msg_prefix mangle_prefix

/-! ## Conversion of introspection members -/

/-- Embeds `LENGTH_UNBOUND` (typecache.hpp), the value `RTIXCdrLong_MAX`. -/
def LENGTH_UNBOUND : Nat := 2147483647

/-- Embeds `INT32_MAX`. -/
def INT32_MAX : Nat := 2147483647

/-- Embeds `static_cast<DDS_UnsignedLong>` of a `size_t`. -/
def static_cast_DDS_UnsignedLong (n : Nat) : Nat := n % 4294967296

/-- Modelled from the spec: the bound of a string or sequence type code
created with the length `n`; the length `LENGTH_UNBOUND` is the unbounded
one. -/
def bound_of_length (n : Nat) : Bound :=
  if n = LENGTH_UNBOUND then .unbounded else .bounded n

/-- Modelled from the spec: `DDS_TypeCodeFactory_get_primitive_tc`; `none` is
`nullptr`, the answer for a kind that is not primitive. -/
def DDS_TypeCodeFactory_get_primitive_tc : DDS_TK → Option TypeCode
  | .BOOLEAN => some (.prim .boolean)
  | .OCTET => some (.prim .octet)
  | .CHAR => some (.prim .char)
  | .FLOAT => some (.prim .float)
  | .DOUBLE => some (.prim .double)
  | .SHORT => some (.prim .short)
  | .USHORT => some (.prim .ushort)
  | .LONG => some (.prim .long)
  | .ULONG => some (.prim .ulong)
  | .LONGLONG => some (.prim .longlong)
  | .ULONGLONG => some (.prim .ulonglong)
  | _ => none

/-- Modelled from the spec: `DDS_TypeCodeFactory_create_string_tc`. -/
def DDS_TypeCodeFactory_create_string_tc (bound : Nat) : TypeCode :=
  .string (bound_of_length bound)

/-- Modelled from the spec: `DDS_TypeCodeFactory_create_wstring_tc`. -/
def DDS_TypeCodeFactory_create_wstring_tc (bound : Nat) : TypeCode :=
  .wstring (bound_of_length bound)

/-- Modelled from the spec: `DDS_TypeCodeFactory_create_sequence_tc`. -/
def DDS_TypeCodeFactory_create_sequence_tc (bound : Nat) (element : TypeCode) : TypeCode :=
  .sequence (bound_of_length bound) element

/-- Modelled from the spec: `DDS_TypeCodeFactory_create_array_tc`. -/
def DDS_TypeCodeFactory_create_array_tc (dimensions : List Nat) (element : TypeCode) :
    TypeCode :=
  .array dimensions element

/-- Modelled from the spec: `DDS_TypeCodeFactory_create_struct_tc`. -/
def DDS_TypeCodeFactory_create_struct_tc (name : Name) (members : Members) : TypeCode :=
  .struct name members

/-- Embeds `TypeCache::insert(typecode)` (typecache.cpp): the type code is
appended to `tc_cache_` only. -/
def TypeCache.insert_typecode (c : TypeCache) (typecode : TypeCode) : TypeCache :=
  { c with tc_cache_ := c.tc_cache_ ++ [typecode] }

/-- Modelled from the spec: the type codes of the synthetic headers
(`typecodes::RequestHeader()` and its siblings), which come from generated
code that is not part of the repository. -/
structure HeaderTypeCodes where
  RequestHeader : TypeCode
  ReplyHeader : TypeCode
  CycloneRequestHeader : TypeCode

/-- The synthetic headers. -/
inductive HeaderKind : Type
  | CycloneRequestHeader
  | RequestHeader
  | ReplyHeader
  deriving DecidableEq, Repr

/-- The type code of a synthetic header. -/
def HeaderTypeCodes.get (typecodes : HeaderTypeCodes) : HeaderKind → TypeCode
  | .CycloneRequestHeader => typecodes.CycloneRequestHeader
  | .RequestHeader => typecodes.RequestHeader
  | .ReplyHeader => typecodes.ReplyHeader

/-- The choice of `tc_header` at the head of `convert_typesupport_members`
(typecache.hpp); `none` is `nullptr`. -/
def select_header (options_ : TypeCacheOptions) (root request_reply is_request : Bool) :
    Option HeaderKind :=
  if root ∧ request_reply then
    let basic_mapping := decide (RequestReplyMapping.Basic = options_.request_reply_mapping)
    if options_.cyclone_compatible then some .CycloneRequestHeader
    else if basic_mapping then
      if is_request then some .RequestHeader else some .ReplyHeader
    else none
  else none

/-- The cache and the two vectors `new_asserted` and `already_asserted` that
the conversion of introspection members works on. A conversion that throws
returns the exception only. -/
structure ConvertState where
  cache : TypeCache
  new_asserted : List TypeCode
  already_asserted : List TypeCode
  deriving DecidableEq

/-- The block `if (root && request_reply)` of `convert_typesupport_members`: the
header chosen is asserted in the cache and `tc_header` becomes the cached
type code. -/
def convert_header (typecodes : HeaderTypeCodes) (st : ConvertState)
    (root request_reply is_request : Bool) : Except Err (ConvertState × Option TypeCode) :=
  match select_header st.cache.options_ root request_reply is_request with
  | none => .ok (st, none)
  | some kind =>
    match st.cache.assert_typecode (typecodes.get kind) true [] with
    | (_, .error e) => .error e
    | (c1, .ok (newly_cached, header_new, header_already)) =>
      match (if newly_cached then header_new.getLast? else header_already.getLast?) with
      | none => .error .badKind
      | some tc_header =>
        .ok ({ cache := c1
               new_asserted := st.new_asserted ++ header_new
               already_asserted := st.already_asserted ++ header_already }, some tc_header)

/-- The tail of `convert_typesupport_member` (typecache.hpp): the element type
`el_tc` is wrapped in an array or a sequence when the member is one. -/
def convert_member_collection (st : ConvertState) (is_array_ : Bool) (array_size_ : Nat)
    (is_upper_bound_ : Bool) (el_tc : TypeCode) : Except Err (ConvertState × TypeCode) :=
  if is_array_ then
    if array_size_ > 0 ∧ ¬ is_upper_bound_ then
      if array_size_ > INT32_MAX then
        .error (.runtimeError "unrepresentable array length".toList)
      else
        let dimensions := [static_cast_DDS_UnsignedLong array_size_]
        let el_tc := DDS_TypeCodeFactory_create_array_tc dimensions el_tc
        .ok ({ st with cache := st.cache.insert_typecode el_tc }, el_tc)
    else
      if is_upper_bound_ ∧ array_size_ > INT32_MAX then
        .error (.runtimeError "unrepresentable sequence length".toList)
      else
        let tc_seq_len := if is_upper_bound_ then array_size_ else LENGTH_UNBOUND
        let el_tc := DDS_TypeCodeFactory_create_sequence_tc tc_seq_len el_tc
        .ok ({ st with cache := st.cache.insert_typecode el_tc }, el_tc)
  else .ok (st, el_tc)

/-- Embeds `TypeCache::assert_typecode(type_fqname, request_reply, is_request, ...)`
(typecache.cpp), the assertion by name, with the call of
`convert_typesupport_members` on the members of the type support as the
argument `convert`: whether the type is new. -/
def assert_typecode_with (convert : ConvertState → Except Err (ConvertState × Members))
    (st : ConvertState) (type_fqname : Name) : Except Err (ConvertState × Bool) :=
  match (if ¬ st.cache.options_.demangle_ros_names then make_typecode_name_mangled type_fqname
         else normalize_dds_type_name type_fqname) with
  | .error e => .error e
  | .ok assert_type_fqname =>
    match st.cache.find assert_type_fqname true with
    | .error e => .error e
    | .ok (some cached) =>
      .ok ({ st with already_asserted := st.already_asserted ++ [cached] }, false)
    | .ok none =>
      match convert st with
      | .error e => .error e
      | .ok (st1, tc_members) =>
        let tc := DDS_TypeCodeFactory_create_struct_tc assert_type_fqname tc_members
        match st1.cache.insert assert_type_fqname tc true with
        | .error e => .error e
        | .ok c2 => .ok ({ st1 with cache := c2, new_asserted := st1.new_asserted ++ [tc] }, true)

mutual
/-- Embeds `TypeCache::convert_typesupport_member` (typecache.hpp): the element type of
the member, wrapped when the member is an array or a sequence. -/
def convert_typesupport_member (typecodes : HeaderTypeCodes) :
    MessageMember → ConvertState → Bool → Bool → Except Err (ConvertState × TypeCode)
  | .mk _ type_id_ string_upper_bound_ members_ is_array_ array_size_ is_upper_bound_, st,
      request_reply, is_request =>
    match convert_member_element typecodes members_ st type_id_ string_upper_bound_
        request_reply is_request with
    | .error e => .error e
    | .ok (st1, el_tc) =>
      convert_member_collection st1 is_array_ array_size_ is_upper_bound_ el_tc
/-- The `switch (member->type_id_)` of `convert_typesupport_member` and the check
that follows it: the element type `el_tc`. -/
def convert_member_element (typecodes : HeaderTypeCodes) :
    NestedSupport → ConvertState → RosTypeId → Nat → Bool → Bool →
      Except Err (ConvertState × TypeCode)
  | members_, st, type_id_, string_upper_bound_, request_reply, is_request =>
    match type_id_ with
    | .ROS_TYPE_BOOL | .ROS_TYPE_BYTE | .ROS_TYPE_UINT8 | .ROS_TYPE_CHAR | .ROS_TYPE_INT8
    | .ROS_TYPE_FLOAT32 | .ROS_TYPE_FLOAT64 | .ROS_TYPE_INT16 | .ROS_TYPE_UINT16
    | .ROS_TYPE_INT32 | .ROS_TYPE_UINT32 | .ROS_TYPE_INT64 | .ROS_TYPE_UINT64 =>
      match DDS_TypeCodeFactory_get_primitive_tc (type_id_ros_to_dds type_id_) with
      | none => .error (.runtimeError "failed to create member type code".toList)
      | some el_tc => .ok (st, el_tc)
    | .ROS_TYPE_STRING =>
      let el_tc := DDS_TypeCodeFactory_create_string_tc
        (if string_upper_bound_ > 0 then static_cast_DDS_UnsignedLong string_upper_bound_
         else LENGTH_UNBOUND)
      .ok ({ st with cache := st.cache.insert_typecode el_tc }, el_tc)
    | .ROS_TYPE_WSTRING =>
      let el_tc := DDS_TypeCodeFactory_create_wstring_tc
        (if string_upper_bound_ > 0 then static_cast_DDS_UnsignedLong string_upper_bound_
         else LENGTH_UNBOUND)
      .ok ({ st with cache := st.cache.insert_typecode el_tc }, el_tc)
    | .ROS_TYPE_MESSAGE =>
      match members_ with
      | .unresolved =>
        .error (.runtimeError "failed to look up introspection type support".toList)
      | .resolved type_support_intro =>
        let type_name := create_dds_type_name_from_members type_support_intro
          (!st.cache.options_.demangle_ros_names)
        match assert_typecode_with
            (fun st0 => convert_typesupport_members typecodes type_support_intro st0
              request_reply is_request false) st type_name with
        | .error e => .error e
        | .ok (st1, new_type) =>
          match (if new_type then st1.new_asserted.getLast?
                 else st1.already_asserted.getLast?) with
          | none => .error .badKind
          | some el_tc => .ok (st1, el_tc)
    | .other _ => .error (.runtimeError "failed to create member type code".toList)
/-- Embeds `TypeCache::convert_typesupport_members` (typecache.hpp): the member sequence
of the struct, with the synthetic header in front when there is one. -/
def convert_typesupport_members (typecodes : HeaderTypeCodes) :
    MessageMembers → ConvertState → Bool → Bool → Bool → Except Err (ConvertState × Members)
  | .mk _ _ members_, st, request_reply, is_request, root =>
    match convert_header typecodes st root request_reply is_request with
    | .error e => .error e
    | .ok (st1, tc_header) =>
      match convert_members_loop typecodes members_ st1 request_reply is_request with
      | .error e => .error e
      | .ok (st2, tc_members) =>
        match tc_header with
        | some tc_header => .ok (st2, .cons "_header".toList tc_header tc_members)
        | none => .ok (st2, tc_members)
/-- The loop of `convert_typesupport_members` over the member records. -/
def convert_members_loop (typecodes : HeaderTypeCodes) :
    MessageMemberList → ConvertState → Bool → Bool → Except Err (ConvertState × Members)
  | .nil, st, _, _ => .ok (st, .nil)
  | .cons member rest, st, request_reply, is_request =>
    match member.name_ with
    | none => .error (.runtimeError "unexpected empty member name".toList)
    | some name_ =>
      if name_.length = 0 ∨ (name_.length = 1 ∧ name_.head? = some '_') then
        .error (.runtimeError "unexpected empty member name".toList)
      else
        let tc_member_name :=
          if st.cache.options_.legacy_rmw_compatible then name_ ++ "_".toList else name_
        match convert_typesupport_member typecodes member st request_reply is_request with
        | .error e => .error e
        | .ok (st1, tc_member_type) =>
          match convert_members_loop typecodes rest st1 request_reply is_request with
          | .error e => .error e
          | .ok (st2, tc_members) => .ok (st2, .cons tc_member_name tc_member_type tc_members)
end

/-- Embeds `TypeCache::assert_typecode(type_fqname, request_reply, is_request, cpp_version,
type_support_intro, new_asserted, already_asserted, root)` (typecache.cpp). -/
def TypeCache.assert_typecode_by_name (typecodes : HeaderTypeCodes) (st : ConvertState)
    (type_fqname : Name) (request_reply is_request : Bool)
    (type_support_intro : MessageMembers) (root : Bool) : Except Err (ConvertState × Bool) :=
  assert_typecode_with
    (fun st0 => convert_typesupport_members typecodes type_support_intro st0
      request_reply is_request root) st type_fqname

/-- Example header type codes: empty structs named after the headers. -/
def ex_headers : HeaderTypeCodes :=
  { RequestHeader := .struct "dds::msg::RequestHeader".toList .nil
    ReplyHeader := .struct "dds::msg::ReplyHeader".toList .nil
    CycloneRequestHeader := .struct "dds::msg::CycloneRequestHeader".toList .nil }

/-- The member record `int64 a`. -/
def ex_member_a : MessageMember := .mk (some "a".toList) .ROS_TYPE_INT64 0 .unresolved false 0 false

/-- The member record `string<=8 names[3]`. -/
def ex_member_names : MessageMember :=
  .mk (some "names".toList) .ROS_TYPE_STRING 8 .unresolved true 3 false

/-- The members of the request `example_interfaces::srv::AddTwoInts_Request`,
with the two members `a` and `names`. -/
def ex_request_members : MessageMembers :=
  .mk "example_interfaces__srv".toList "AddTwoInts_Request".toList
    (.cons ex_member_a (.cons ex_member_names .nil))

/-- The state of a conversion that starts on the empty cache with the basic
mapping. -/
def ex_basic_state : ConvertState :=
  { cache := TypeCache.empty { request_reply_mapping := .Basic }
    new_asserted := [], already_asserted := [] }

/-- The member record `int32 big[2147483648]`, an array longer than
`INT32_MAX`. -/
def ex_member_big : MessageMember :=
  .mk (some "big".toList) .ROS_TYPE_INT32 0 .unresolved true 2147483648 false

/-- The outcome of the conversion of the example request members at the
root, with the flags of a request. -/
def ex_request_result : ConvertState × Members :=
  match convert_typesupport_members ex_headers ex_request_members ex_basic_state true true true with
  | .ok r => r
  | .error _ => (ex_basic_state, .nil)

/-- The state after the element type `string<=8` of the example member
`names` was created. -/
def ex_names_state : ConvertState :=
  { ex_basic_state with
    cache := ex_basic_state.cache.insert_typecode (.string (.bounded 8)) }

/-! ## Loading the introspection type support -/

/-- Modelled from the spec: a loaded `rcpputils::SharedLibrary`: the type support
that the function behind a symbol returns, `none` when the library has no
such symbol. -/
abbrev SharedLibrary := Name → Option MessageMembers

/-- Modelled from the spec: what the process finds around itself when it
loads a type support: the prefix of a package in the package index (`none`
for `PackageNotFoundError`), the shared library at a path (`none` when the
library does not load), and the library search path `lib_path_` read from
the environment when the cache is constructed. -/
structure TypesupportEnvironment where
  get_package_prefix : Name → Option Name
  load_library : Name → Option SharedLibrary
  lib_path_ : List Name

/-- Embeds `lookup_introspection_typesupport` (typesupport.cpp). -/
def lookup_introspection_typesupport (package_name middle_module type_name : Name)
    (typesupport_lib : SharedLibrary) (cpp_version : Bool) : Except Err MessageMembers :=
  let typesupport_identifier :=
    if cpp_version then "rosidl_typesupport_introspection_cpp".toList
    else "rosidl_typesupport_introspection_c".toList
  let symbol_name := typesupport_identifier ++ "__get_message_type_support_handle__".toList ++
    package_name ++ "__".toList ++
    (if middle_module.isEmpty then "msg".toList else middle_module) ++ "__".toList ++ type_name
  match typesupport_lib symbol_name with
  | none => .error (.runtimeError "symbol not found".toList)
  | some type_support => .ok type_support

/-- The text that one round of the loops of
`load_instrospection_typesupport_library` writes to the stream `ss`, with the
constants of the Linux build. -/
def candidate_text (pkg_dir package_name intro_lang : Name) : Name :=
  pkg_dir ++ "/lib/".toList ++ "lib".toList ++ package_name ++ "__".toList ++
    "rosidl_typesupport_introspection".toList ++ "_".toList ++ intro_lang ++ ".so".toList

/-- The rounds of the two nested loops of
`load_instrospection_typesupport_library`, in order: every directory with the
language `c` and then with the language `cpp`. -/
def candidate_rounds : List Name → List (Name × Name)
  | [] => []
  | pkg_dir :: rest =>
    (pkg_dir, "c".toList) :: (pkg_dir, "cpp".toList) :: candidate_rounds rest

/-- The values of `ss.str()` in the successive rounds of the loops of
`load_instrospection_typesupport_library`, from the stream text `ss`:
`ss.clear()` resets the state flags of the stream and leaves its text. -/
def candidate_paths (package_name : Name) : List (Name × Name) → Name → List Name
  | [], _ => []
  | (pkg_dir, intro_lang) :: rest, ss =>
    let ss := ss ++ candidate_text pkg_dir package_name intro_lang
    ss :: candidate_paths package_name rest ss

/-- The two nested loops of `load_instrospection_typesupport_library` over the
rounds that are left, with the text of the stream `ss`: a round whose library
does not load, or does not hold the symbol, is passed over. -/
def load_candidates (env : TypesupportEnvironment) (package_name middle_module type_name : Name) :
    List (Name × Name) → Name → Except Err (Bool × SharedLibrary × MessageMembers)
  | [], _ => .error (.runtimeError "failed to load typesupport".toList)
  | (pkg_dir, intro_lang) :: rest, ss =>
    let ss := ss ++ candidate_text pkg_dir package_name intro_lang
    match env.load_library ss with
    | none => load_candidates env package_name middle_module type_name rest ss
    | some shared_lib =>
      let shared_lib_cpp := decide (intro_lang = "cpp".toList)
      match lookup_introspection_typesupport package_name middle_module type_name shared_lib
          shared_lib_cpp with
      | .error _ => load_candidates env package_name middle_module type_name rest ss
      | .ok type_support => .ok (shared_lib_cpp, shared_lib, type_support)

/-- The directories `package_prefixes` that `load_instrospection_typesupport_library`
searches: the prefix of the package in the package index, when it has one,
and then the library path. -/
def package_dirs (env : TypesupportEnvironment) (package_name : Name)
    (library_path : List Name) : List Name :=
  (match env.get_package_prefix package_name with
   | some dir => [dir]
   | none => []) ++ library_path

/-- Embeds `load_instrospection_typesupport_library` (typesupport.cpp):
`(cpp_version, typesupport_lib, type_support)`. -/
def load_instrospection_typesupport_library (env : TypesupportEnvironment)
    (package_name middle_module type_name : Name) (library_path : List Name) :
    Except Err (Bool × SharedLibrary × MessageMembers) :=
  let package_dirs := package_dirs env package_name library_path
  if package_dirs.length = 0 then
    .error (.runtimeError "no directory in library search path".toList)
  else
    load_candidates env package_name middle_module type_name (candidate_rounds package_dirs) []

/-- The maps `typesupports_c_` and `typesupports_cpp_` of `TypeCache` (typecache.hpp):
the introspection library loaded for a package, by language. -/
structure TypesupportLibs where
  typesupports_c_ : List (Name × SharedLibrary)
  typesupports_cpp_ : List (Name × SharedLibrary)

/-- The maps of the libraries right after construction. -/
def TypesupportLibs.empty : TypesupportLibs :=
  { typesupports_c_ := [], typesupports_cpp_ := [] }

/-- The tail of `TypeCache::load_typesupport` when no library of the package is
cached or the cached one does not hold the symbol: the library is looked for
in the search path and entered in the map of its language. -/
def load_typesupport_uncached (env : TypesupportEnvironment) (libs : TypesupportLibs)
    (package_name middle_module type_name : Name) :
    Except Err (TypesupportLibs × Bool × MessageMembers) :=
  match load_instrospection_typesupport_library env package_name middle_module type_name
      env.lib_path_ with
  | .error e => .error e
  | .ok (cpp_version, typesupport_lib, typesupport) =>
    let typesupport_cache := if cpp_version then libs.typesupports_cpp_ else libs.typesupports_c_
    let duplicate := (typesupport_cache.lookup package_name).isSome
    if duplicate then
      .error (.runtimeError "multiple copies of the same shared library".toList)
    else if cpp_version then
      .ok ({ libs with typesupports_cpp_ :=
              (map_emplace libs.typesupports_cpp_ package_name typesupport_lib) },
            cpp_version, typesupport)
    else
      .ok ({ libs with typesupports_c_ :=
              (map_emplace libs.typesupports_c_ package_name typesupport_lib) },
            cpp_version, typesupport)

/-- Embeds `TypeCache::load_typesupport` (typecache.cpp): the maps of the libraries
after the call with `(cpp_version, typesupport)`. A symbol that is found
gives a type support, so the final null check never fires. -/
def load_typesupport (env : TypesupportEnvironment) (libs : TypesupportLibs)
    (type_fqname : Name) : Except Err (TypesupportLibs × Bool × MessageMembers) :=
  match demangle_dds_type_name type_fqname with
  | .error e => .error e
  | .ok demangled_type_fqname =>
    match parse_ros_type_name demangled_type_fqname with
    | .error e => .error e
    | .ok (package_name, middle_module, type_name) =>
      let cached_c := libs.typesupports_c_.lookup package_name
      let cpp_version := cached_c.isNone
      let cached_lib :=
        match cached_c with
        | some typesupport_lib => some typesupport_lib
        | none => libs.typesupports_cpp_.lookup package_name
      match cached_lib with
      | some typesupport_lib =>
        match lookup_introspection_typesupport package_name middle_module type_name
            typesupport_lib cpp_version with
        | .ok typesupport => .ok (libs, cpp_version, typesupport)
        | .error _ =>
          load_typesupport_uncached env libs package_name middle_module type_name
      | none => load_typesupport_uncached env libs package_name middle_module type_name

/-- Embeds `TypeCache::assert_ros_type` (typecache.cpp): the cache and the maps of
the libraries after the call with `(new_type, new_asserted, already_asserted)`,
or the exception. -/
def TypeCache.assert_ros_type (typecodes : HeaderTypeCodes) (env : TypesupportEnvironment)
    (c : TypeCache) (libs : TypesupportLibs) (type_fqname : Name) :
    Except Err (TypeCache × TypesupportLibs × Bool × List TypeCode × List TypeCode) :=
  let (request_reply, is_request) := is_type_requestreply type_fqname
  match load_typesupport env libs type_fqname with
  | .error e => .error e
  | .ok (libs1, _, intro_typesupport) =>
    match TypeCache.assert_typecode_by_name typecodes
        { cache := c, new_asserted := [], already_asserted := [] }
        type_fqname request_reply is_request intro_typesupport true with
    | .error e => .error e
    | .ok (st, new_type) =>
      .ok (st.cache, libs1, new_type, st.new_asserted, st.already_asserted)

/-! ## The monitor -/

/-- The block of `BaseTypeMonitor::on_type_detected(topic_name, type_fqname, type_tc)`
(base_type_monitor.cpp) that computes `(ros_type, demangled_ros_type)` for a
type code: the name is normalised and demangled, and an
`InvalidTopicNameException` makes the type a non-ROS one. -/
def demangled_hint (type_fqname : Name) : Except Err (Bool × Name) :=
  match normalize_dds_type_name type_fqname with
  | .error e => .error e
  | .ok norm =>
    match demangle_dds_type_name norm with
    | .ok demangled_ros_type => .ok (true, demangled_ros_type)
    | .error _ => .ok (false, [])

/-- Embeds `BaseTypeMonitor::on_type_detected(tc)` (base_type_monitor.cpp) for a type
code without topic: what the call does to the cache `type_cache_`, with the
result of `assert_dds_type`. The name filters are taken to let the name
through, and the emission of the new types is left out. -/
def BaseTypeMonitor.on_type_detected (type_cache_ : TypeCache) (tc : TypeCode) :
    TypeCache × Except Err (Bool × List TypeCode × List TypeCode) :=
  match DDS_TypeCode_name tc with
  | .error e => (type_cache_, .error e)
  | .ok type_fqname =>
    if type_fqname.length = 0 then
      (type_cache_, .error (.invalidName "empty type name".toList))
    else
      match demangled_hint type_fqname with
      | .error e => (type_cache_, .error e)
      | .ok (ros_type, demangled_ros_type) =>
        type_cache_.assert_dds_type tc ros_type demangled_ros_type

/-! ## Formatted records -/

/-- Embeds `json_begin` (base_output_emitter.cpp): the stream after the call. -/
def json_begin (ss : List Char) : List Char :=
  ss ++ "\x7b ".toList

/-- Embeds `json_end` (base_output_emitter.cpp): the text returned. -/
def json_end (ss : List Char) : List Char :=
  ss ++ " \x7d".toList

/-- Embeds `json_field` (base_output_emitter.cpp): the stream after the call. -/
def json_field (ss : List Char) (key value : List Char) (last : Bool) : List Char :=
  let ss := ss ++ json_string key
  let ss := ss ++ ": ".toList
  let ss := ss ++ json_string value
  if ¬ last then ss ++ ", ".toList else ss

/-- Embeds `BaseOutputEmitter::format_type` (base_output_emitter.cpp); `idl` is the
text that `print_idl` returns for the type. -/
def format_type (type_fqname idl : List Char) : List Char :=
  let ss := json_begin []
  let ss := json_field ss "fqname".toList type_fqname false
  let ss := json_field ss "idl".toList idl true
  json_end ss

/-- Embeds `BaseOutputEmitter::format_topic` (base_output_emitter.cpp); `idl` is the
text that `print_idl` returns for the type of the topic. -/
def format_topic (topic_name topic_type_name idl : List Char) : List Char :=
  let ss := json_begin []
  let ss := json_field ss "name".toList topic_name false
  let ss := json_field ss "type_name".toList topic_type_name false
  let ss := json_field ss "idl".toList idl true
  json_end ss

/-! ## Further examples -/

/-- The members of `std_msgs::msg::String`: the one member `string data`. -/
def ex_String_members : MessageMembers :=
  .mk "std_msgs__msg".toList "String".toList
    (.cons (.mk (some "data".toList) .ROS_TYPE_STRING 0 .unresolved false 0 false) .nil)

/-- The struct `std_msgs::msg::String { string data }`. -/
def ex_String : TypeCode :=
  .struct "std_msgs::msg::String".toList (.cons "data".toList (.string .unbounded) .nil)

/-- The introspection library of `std_msgs` for C, holding the type support of
`String`. -/
def ex_std_msgs_lib : SharedLibrary := fun symbol_name =>
  if symbol_name =
      "rosidl_typesupport_introspection_c__get_message_type_support_handle__std_msgs__msg__String".toList
  then some ex_String_members else none

/-- An environment with `std_msgs` installed under `/opt/ros`: the package index
knows the package and its C introspection library loads. -/
def ex_env : TypesupportEnvironment :=
  { get_package_prefix := fun package_name =>
      if package_name = "std_msgs".toList then some "/opt/ros".toList else none
    load_library := fun path =>
      if path = "/opt/ros/lib/libstd_msgs__rosidl_typesupport_introspection_c.so".toList
      then some ex_std_msgs_lib else none
    lib_path_ := [] }

/-- An environment in which only the C++ introspection library of `std_msgs`
exists, at the path of the Linux convention. -/
def ex_env_cpp_only : TypesupportEnvironment :=
  { get_package_prefix := fun _ => none
    load_library := fun path =>
      if path = "/opt/ros/lib/libstd_msgs__rosidl_typesupport_introspection_cpp.so".toList
      then some (fun _ => some ex_String_members) else none
    lib_path_ := ["/opt/ros".toList] }

/-- The struct `Top { N a; N b }` over two different structs named `N`. -/
def ex_two_N : TypeCode :=
  .struct "Top".toList (.cons "a".toList ex_N (.cons "b".toList ex_N_other .nil))

/-- The struct `p::msg::N { long v }`. -/
def ex_N_demangled : TypeCode :=
  .struct "p::msg::N".toList (.cons "v".toList ex_long .nil)

/-- The struct `p::msg::T { sequence<p::msg::N[2], 5> m; long x; sequence<p::msg::N> s }`:
the member `m` is a sequence of arrays of a struct. -/
def ex_T_nested_collection : TypeCode :=
  .struct "p::msg::T".toList
    (.cons "m".toList (.sequence (.bounded 5) (.array [2] ex_N_demangled))
      (.cons "x".toList ex_long
        (.cons "s".toList (.sequence .unbounded ex_N_demangled) .nil)))

/-- Embeds `TypeCache::cache` (typecache.hpp): the vector `tc_cache_`, iterated from
its first element. -/
def TypeCache.cache (c : TypeCache) : List TypeCode :=
  c.tc_cache_

/-- The mangled struct `p::msg::dds_::N_ { long v }`. -/
def ex_N_dds : TypeCode :=
  .struct "p::msg::dds_::N_".toList (.cons "v".toList ex_long .nil)

/-- The mangled struct `std_msgs::msg::dds_::String_ { string data_ }`. -/
def ex_String_dds : TypeCode :=
  .struct "std_msgs::msg::dds_::String_".toList (.cons "data_".toList (.string .unbounded) .nil)

/-- The cache with the default options after `std_msgs::msg::String` was asserted
by name: the map holds the struct, the vector holds the string type code
created for the member `data` and the struct. -/
def ex_cache_String : TypeCache :=
  { options_ := {}
    tc_cache_ := [.string .unbounded, ex_String]
    tc_named_cache_ := [("std_msgs::msg::String".toList, ex_String)]
    topics_cache_ := [] }

/-- The cache with the default options that holds `N { long v }` and nothing else. -/
def ex_cache_N : TypeCache :=
  { options_ := {}
    tc_cache_ := [ex_N]
    tc_named_cache_ := [("N".toList, ex_N)]
    topics_cache_ := [] }

/-! ## Mangling and demangling as member functions of the cache -/

mutual
/-- The body of the member loop of `TypeCache::mangle_typecode_recur` (typecache.cpp) as
a step on the cache: the cache after the step with the member type or the
exception. The calls of the member function hand the cache on; the name
functions and the type code factory are given no cache. -/
def mangle_member_type_call (make_name_fn : Name → Except Err Name)
    (make_member_name_fn : Name → Name) : TypeCode → TypeCache → TypeCache × Except Err TypeCode
  | .struct n ms, c =>
    match make_name_fn n with
    | .error e => (c, .error e)
    | .ok mangled_tc_name =>
      match mangle_members_call make_name_fn make_member_name_fn ms c with
      | (c1, .error e) => (c1, .error e)
      | (c1, .ok tc_members) => (c1, .ok (.struct mangled_tc_name tc_members))
  | .sequence seq_bound e, c =>
    match mangle_leaf_call make_name_fn make_member_name_fn e c with
    | (c1, .error err) => (c1, .error err)
    | (c1, .ok (some nested_tc)) => (c1, .ok (.sequence seq_bound nested_tc))
    | (c1, .ok none) => (c1, .ok (DDS_TypeCodeFactory_clone_tc (.sequence seq_bound e)))
  | .array array_dimensions e, c =>
    match mangle_leaf_call make_name_fn make_member_name_fn e c with
    | (c1, .error err) => (c1, .error err)
    | (c1, .ok (some nested_tc)) => (c1, .ok (.array array_dimensions nested_tc))
    | (c1, .ok none) => (c1, .ok (DDS_TypeCodeFactory_clone_tc (.array array_dimensions e)))
  | t, c => (c, .ok t)
/-- The leaf of a collection member in `TypeCache::mangle_typecode_recur`, as a step on
the cache: `resolve_collection_typecode` walks to the content type, and a
struct leaf is transformed by a call of the member function. -/
def mangle_leaf_call (make_name_fn : Name → Except Err Name)
    (make_member_name_fn : Name → Name) :
    TypeCode → TypeCache → TypeCache × Except Err (Option TypeCode)
  | .sequence _ e, c => mangle_leaf_call make_name_fn make_member_name_fn e c
  | .array _ e, c => mangle_leaf_call make_name_fn make_member_name_fn e c
  | .struct n ms, c =>
    match make_name_fn n with
    | .error e => (c, .error e)
    | .ok mangled_tc_name =>
      match mangle_members_call make_name_fn make_member_name_fn ms c with
      | (c1, .error e) => (c1, .error e)
      | (c1, .ok tc_members) => (c1, .ok (some (.struct mangled_tc_name tc_members)))
  | _, c => (c, .ok none)
/-- The member loop of `TypeCache::mangle_typecode_recur` as steps on the cache, one
member after the other. -/
def mangle_members_call (make_name_fn : Name → Except Err Name)
    (make_member_name_fn : Name → Name) : Members → TypeCache → TypeCache × Except Err Members
  | .nil, c => (c, .ok .nil)
  | .cons tc_mem_name member_tc rest, c =>
    match mangle_member_type_call make_name_fn make_member_name_fn member_tc c with
    | (c1, .error e) => (c1, .error e)
    | (c1, .ok member_tc2) =>
      match mangle_members_call make_name_fn make_member_name_fn rest c1 with
      | (c2, .error e) => (c2, .error e)
      | (c2, .ok rest2) => (c2, .ok (.cons (make_member_name_fn tc_mem_name) member_tc2 rest2))
end

/-- Embeds `TypeCache::mangle_typecode_recur` (typecache.cpp) as a member function acting
on the cache: the cache after the call, with the type code returned or the
exception thrown. -/
def TypeCache.mangle_typecode_recur_call (c : TypeCache) (tc : TypeCode)
    (make_name_fn : Name → Except Err Name) (make_member_name_fn : Name → Name) :
    TypeCache × Except Err TypeCode :=
  match DDS_TypeCode_name tc with
  | .error e => (c, .error e)
  | .ok tc_name =>
    match make_name_fn tc_name with
    | .error e => (c, .error e)
    | .ok mangled_tc_name =>
      let members : Members :=
        match tc with
        | .struct _ ms => ms
        | .union _ ms => ms
        | .value _ _ ms => ms
        | _ => .nil
      match mangle_members_call make_name_fn make_member_name_fn members c with
      | (c1, .error e) => (c1, .error e)
      | (c1, .ok tc_members) => (c1, .ok (.struct mangled_tc_name tc_members))

/-- Embeds `TypeCache::mangle_typecode` (typecache.cpp) as a member function acting on
the cache: the cache after the call, with the type code returned or the
exception thrown. -/
def TypeCache.mangle_typecode_call (c : TypeCache) (tc : TypeCode) :
    TypeCache × Except Err TypeCode :=
  c.mangle_typecode_recur_call tc make_typecode_name_mangled
    (fun member_name =>
      make_typecode_member_name_mangled member_name c.options_.legacy_rmw_compatible)

/-- Embeds `TypeCache::demangle_typecode` (typecache.cpp) as a member function acting on
the cache: the cache after the call, with the type code returned or the
exception thrown. -/
def TypeCache.demangle_typecode_call (c : TypeCache) (tc : TypeCode) :
    TypeCache × Except Err TypeCode :=
  c.mangle_typecode_recur_call tc make_typecode_name_demangled
    make_typecode_member_name_demangled

/-! ## Collected type codes -/

theorem collect_round_eq (c : TypeCache) (ros : Bool) (t : TypeCode) (nested R : List TypeCode)
    (h : collect_round c ros t nested = .ok R) :
    R = nested ++ [t].filter (uncached c ros) := by
  unfold collect_round at h
  simp only [List.filter, uncached]
  cases hn : DDS_TypeCode_name t with
  | error e => simp [hn] at h
  | ok nm =>
    simp only [hn] at h
    cases hf : c.find nm ros with
    | error e => simp [hf] at h
    | ok o =>
      cases o with
      | none => simp only [hf] at h ⊢; cases h; rfl
      | some v => simp only [hf] at h ⊢; cases h; simp

theorem collect_round_key (c : TypeCache) (ros : Bool) (t : TypeCode) (nested R : List TypeCode)
    (h : collect_round c ros t nested = .ok R) : ∃ k, key_of t ros = .ok k := by
  unfold collect_round at h
  unfold key_of
  cases hn : DDS_TypeCode_name t with
  | error e => simp [hn] at h
  | ok nm =>
    simp only [hn] at h ⊢
    unfold TypeCache.find at h
    cases hk : cache_key nm ros with
    | error e => simp [hk] at h
    | ok k => exact ⟨k, rfl⟩

mutual
theorem collect_inspect_eq (c : TypeCache) (ros : Bool) :
    ∀ (t : TypeCode) (R : List TypeCode), collect_inspect c ros t = .ok R →
      R = (nc_inspect t).filter (uncached c ros) ∧
        ∀ d ∈ nc_inspect t, ∃ k, key_of d ros = .ok k
  | .sequence _ e, R, h => by
    simp only [collect_inspect] at h
    simpa [nc_inspect] using collect_inspect_eq c ros e R h
  | .array _ e, R, h => by
    simp only [collect_inspect] at h
    simpa [nc_inspect] using collect_inspect_eq c ros e R h
  | .struct n ms, R, h => by
    simp only [collect_inspect] at h
    split at h
    · cases h
    · rename_i nested hm
      have h1 := collect_members_eq c ros ms nested hm
      have h2 := collect_round_eq c ros _ _ _ h
      have h3 := collect_round_key c ros _ _ _ h
      refine ⟨?_, ?_⟩
      · simp only [nc_inspect, List.filter_append, ← h1.1, h2]
      · intro d hd
        simp only [nc_inspect, List.mem_append, List.mem_singleton] at hd
        rcases hd with hd | hd
        · exact h1.2 d hd
        · subst hd; exact h3
  | .union n ms, R, h => by
    simp only [collect_inspect] at h
    split at h
    · cases h
    · rename_i nested hm
      have h1 := collect_members_eq c ros ms nested hm
      have h2 := collect_round_eq c ros _ _ _ h
      have h3 := collect_round_key c ros _ _ _ h
      refine ⟨?_, ?_⟩
      · simp only [nc_inspect, List.filter_append, ← h1.1, h2]
      · intro d hd
        simp only [nc_inspect, List.mem_append, List.mem_singleton] at hd
        rcases hd with hd | hd
        · exact h1.2 d hd
        · subst hd; exact h3
  | .value n b ms, R, h => by
    simp only [collect_inspect] at h
    split at h
    · cases h
    · rename_i fb hb
      split at h
      · cases h
      · rename_i fm hm
        have h0 := collect_base_eq c ros b fb hb
        have h1 := collect_members_eq c ros ms fm hm
        have h2 := collect_round_eq c ros _ _ _ h
        have h3 := collect_round_key c ros _ _ _ h
        refine ⟨?_, ?_⟩
        · simp only [nc_inspect, List.filter_append, ← h1.1, ← h0.1, h2]
        · intro d hd
          simp only [nc_inspect, List.mem_append, List.mem_singleton] at hd
          rcases hd with (hd | hd) | hd
          · exact h0.2 d hd
          · exact h1.2 d hd
          · subst hd; exact h3
  | .enum n ls, R, h => by
    simp only [collect_inspect] at h
    have h2 := collect_round_eq c ros _ _ _ h
    have h3 := collect_round_key c ros _ _ _ h
    refine ⟨by simpa [nc_inspect] using h2, ?_⟩
    intro d hd
    simp only [nc_inspect, List.mem_singleton] at hd
    subst hd; exact h3
  | .prim _, R, h => by
    simp only [collect_inspect] at h
    cases h; simp [nc_inspect]
  | .string _, R, h => by
    simp only [collect_inspect] at h
    cases h; simp [nc_inspect]
  | .wstring _, R, h => by
    simp only [collect_inspect] at h
    cases h; simp [nc_inspect]
theorem collect_members_eq (c : TypeCache) (ros : Bool) :
    ∀ (ms : Members) (R : List TypeCode), collect_members c ros ms = .ok R →
      R = (nc_members ms).filter (uncached c ros) ∧
        ∀ d ∈ nc_members ms, ∃ k, key_of d ros = .ok k
  | .nil, R, h => by
    simp only [collect_members] at h
    cases h; simp [nc_members]
  | .cons _ t rest, R, h => by
    simp only [collect_members] at h
    split at h
    · cases h
    · rename_i first hf
      split at h
      · cases h
      · rename_i others ho
        have h1 := collect_inspect_eq c ros t first hf
        have h2 := collect_members_eq c ros rest others ho
        cases h
        refine ⟨?_, ?_⟩
        · simp only [nc_members, List.filter_append, ← h1.1, ← h2.1]
        · intro d hd
          simp only [nc_members, List.mem_append] at hd
          rcases hd with hd | hd
          · exact h1.2 d hd
          · exact h2.2 d hd
theorem collect_base_eq (c : TypeCache) (ros : Bool) :
    ∀ (b : Base) (R : List TypeCode), collect_base c ros b = .ok R →
      R = (nc_base b).filter (uncached c ros) ∧
        ∀ d ∈ nc_base b, ∃ k, key_of d ros = .ok k
  | .none, R, h => by
    simp only [collect_base] at h
    cases h; simp [nc_base]
  | .some t, R, h => by
    simp only [collect_base] at h
    simpa [nc_base] using collect_inspect_eq c ros t R h
end

/-- What `collect_nested_typecodes` returns: the nested complex descriptors
whose names are not found in the cache, in the order of `nested_complex`;
and every nested complex descriptor has a cache key. -/
theorem collect_nested_typecodes_eq (c : TypeCache) (ros : Bool) (tc : TypeCode)
    (R : List TypeCode) (h : c.collect_nested_typecodes tc ros = .ok R) :
    R = (nested_complex tc).filter (uncached c ros) ∧
      ∀ d ∈ nested_complex tc, ∃ k, key_of d ros = .ok k := by
  unfold TypeCache.collect_nested_typecodes at h
  cases tc with
  | struct n ms => simpa [nested_complex] using collect_members_eq c ros ms R h
  | union n ms => simpa [nested_complex] using collect_members_eq c ros ms R h
  | value n b ms =>
    simp only at h
    split at h
    · cases h
    · rename_i fb hb
      split at h
      · cases h
      · rename_i fm hm
        have h0 := collect_base_eq c ros b fb hb
        have h1 := collect_members_eq c ros ms fm hm
        cases h
        refine ⟨?_, ?_⟩
        · simp only [nested_complex, List.filter_append, ← h1.1, ← h0.1]
        · intro d hd
          simp only [nested_complex, List.mem_append] at hd
          rcases hd with hd | hd
          · exact h0.2 d hd
          · exact h1.2 d hd
  | enum n ls => simp only at h; cases h; simp [nested_complex]
  | prim k => simp at h
  | string b => simp at h
  | wstring b => simp at h
  | sequence b e => simp at h
  | array ds e => simp at h

/-! ## Dependency order of the nested descriptors -/

theorem depOrdered_nil : DepOrdered [] := by
  intro before x after h
  simp at h

theorem depOrdered_append {a b : List TypeCode} (ha : DepOrdered a) (hb : DepOrdered b) :
    DepOrdered (a ++ b) := by
  intro before x after h d hd
  rcases List.append_eq_append_iff.mp h with ⟨a', h1, h2⟩ | ⟨c', h1, h2⟩
  · -- before = a ++ a', b = a' ++ x :: after
    have := hb a' x after h2 d hd
    rw [h1]; exact List.mem_append_right _ this
  · -- a = before ++ c', x :: after = c' ++ b
    cases c' with
    | nil =>
      simp only [List.nil_append] at h2
      simp only [List.append_nil] at h1
      have := hb [] x after h2.symm d hd
      simp at this
    | cons y c'' =>
      simp only [List.cons_append, List.cons.injEq] at h2
      obtain ⟨rfl, _⟩ := h2
      exact ha before x c'' h1 d hd

theorem depOrdered_snoc {a : List TypeCode} {x : TypeCode} (ha : DepOrdered a)
    (hx : ∀ d ∈ nested_complex x, d ∈ a) : DepOrdered (a ++ [x]) := by
  intro before y after h d hd
  rcases List.append_eq_append_iff.mp h with ⟨a', h1, h2⟩ | ⟨c', h1, h2⟩
  · cases a' with
    | nil =>
      simp only [List.nil_append, List.cons.injEq] at h2
      obtain ⟨rfl, _⟩ := h2
      simp only [List.append_nil] at h1
      rw [h1]; exact hx d hd
    | cons z a'' =>
      simp only [List.cons_append, List.cons.injEq] at h2
      have := h2.2
      simp at this
  · cases c' with
    | nil =>
      simp only [List.nil_append, List.cons.injEq] at h2
      obtain ⟨rfl, _⟩ := h2
      simp only [List.append_nil] at h1
      rw [← h1]; exact hx d hd
    | cons z c'' =>
      simp only [List.cons_append, List.cons.injEq] at h2
      obtain ⟨rfl, _⟩ := h2
      exact ha before y c'' h1 d hd

mutual
theorem nc_inspect_depOrdered : ∀ t : TypeCode, DepOrdered (nc_inspect t)
  | .sequence _ e => by simpa [nc_inspect] using nc_inspect_depOrdered e
  | .array _ e => by simpa [nc_inspect] using nc_inspect_depOrdered e
  | .struct n ms => by
    simp only [nc_inspect]
    exact depOrdered_snoc (nc_members_depOrdered ms) (by simp [nested_complex])
  | .union n ms => by
    simp only [nc_inspect]
    exact depOrdered_snoc (nc_members_depOrdered ms) (by simp [nested_complex])
  | .value n b ms => by
    simp only [nc_inspect]
    exact depOrdered_snoc (depOrdered_append (nc_base_depOrdered b) (nc_members_depOrdered ms))
      (by simp [nested_complex])
  | .enum n ls => by
    simp only [nc_inspect]
    exact @depOrdered_snoc [] _ depOrdered_nil (by simp [nested_complex])
  | .prim _ => by simpa [nc_inspect] using depOrdered_nil
  | .string _ => by simpa [nc_inspect] using depOrdered_nil
  | .wstring _ => by simpa [nc_inspect] using depOrdered_nil
theorem nc_members_depOrdered : ∀ ms : Members, DepOrdered (nc_members ms)
  | .nil => by simpa [nc_members] using depOrdered_nil
  | .cons _ t rest => by
    simp only [nc_members]
    exact depOrdered_append (nc_inspect_depOrdered t) (nc_members_depOrdered rest)
theorem nc_base_depOrdered : ∀ b : Base, DepOrdered (nc_base b)
  | .none => by simpa [nc_base] using depOrdered_nil
  | .some t => by simpa [nc_base] using nc_inspect_depOrdered t
end

theorem nested_complex_depOrdered (tc : TypeCode) : DepOrdered (nested_complex tc) := by
  cases tc with
  | struct n ms => simpa [nested_complex] using nc_members_depOrdered ms
  | union n ms => simpa [nested_complex] using nc_members_depOrdered ms
  | value n b ms =>
    simpa [nested_complex] using
      depOrdered_append (nc_base_depOrdered b) (nc_members_depOrdered ms)
  | enum n ls => simpa [nested_complex] using depOrdered_nil
  | prim k => simpa [nested_complex] using depOrdered_nil
  | string b => simpa [nested_complex] using depOrdered_nil
  | wstring b => simpa [nested_complex] using depOrdered_nil
  | sequence b e => simpa [nested_complex] using depOrdered_nil
  | array ds e => simpa [nested_complex] using depOrdered_nil

/-- Nesting is transitive: what is nested in a nested descriptor is nested
in the descriptor. -/
theorem nested_complex_trans {tc x d : TypeCode} (hx : x ∈ nested_complex tc)
    (hd : d ∈ nested_complex x) : d ∈ nested_complex tc := by
  obtain ⟨before, after, h⟩ := List.append_of_mem hx
  have := nested_complex_depOrdered tc before x after h d hd
  rw [h]; exact List.mem_append_left _ this

/-! ## `find`, `insert` and the loop over the collected type codes -/

theorem find_ok_iff (c : TypeCache) (nm : Name) (ros : Bool) (o : Option TypeCode) :
    c.find nm ros = .ok o ↔
      ∃ k, cache_key nm ros = .ok k ∧ c.tc_named_cache_.lookup k = o := by
  unfold TypeCache.find
  cases hk : cache_key nm ros with
  | error e => simp
  | ok k => simp

theorem insert_ok_fields {c c1 : TypeCache} {nm : Name} {tc : TypeCode} {ros : Bool}
    (h : c.insert nm tc ros = .ok c1) :
    ∃ k, cache_key nm ros = .ok k ∧
      c1.tc_named_cache_ = map_emplace c.tc_named_cache_ k tc ∧
      c1.tc_cache_ = c.tc_cache_ ++ [tc] ∧
      c1.options_ = c.options_ ∧ c1.topics_cache_ = c.topics_cache_ := by
  unfold TypeCache.insert at h
  cases hk : cache_key nm ros with
  | error e => simp [hk] at h
  | ok k =>
    simp only [hk, Except.ok.injEq] at h
    subst h
    exact ⟨k, rfl, rfl, rfl, rfl, rfl⟩

theorem key_of_eq {tc : TypeCode} {nm : Name} (ros : Bool) (h : DDS_TypeCode_name tc = .ok nm) :
    key_of tc ros = cache_key nm ros := by
  simp [key_of, h]

theorem uncached_eq_true_iff (c : TypeCache) (ros : Bool) (tc : TypeCode) :
    uncached c ros tc = true ↔
      ∃ k, key_of tc ros = .ok k ∧ c.tc_named_cache_.lookup k = none := by
  unfold uncached key_of
  cases hn : DDS_TypeCode_name tc with
  | error e => simp
  | ok nm =>
    simp only
    unfold TypeCache.find
    cases hk : cache_key nm ros with
    | error e => simp
    | ok k =>
      simp only [Except.ok.injEq, exists_eq_left']
      cases hl : c.tc_named_cache_.lookup k <;> simp

/-- The loop over the collected type codes, when it ends without throwing:
the bindings `added` are appended to the map and their type codes to the
vector and to `new_asserted`; each added type code is one of `nested`, bound
under its own key, which was unbound before; every element of `nested` is,
after the loop, bound to itself; and each added type code sits at a place of
`nested` before which everything was added earlier or bound already. -/
theorem assert_nested_ok (ros : Bool) :
    ∀ (nested : List TypeCode) (c : TypeCache) (new al : List TypeCode) (c1 : TypeCache)
      (new1 al1 : List TypeCode),
      c.assert_nested ros nested new al = (c1, .ok (new1, al1)) →
      ∃ added : List (Name × TypeCode),
        c1.tc_named_cache_ = c.tc_named_cache_ ++ added ∧
        c1.tc_cache_ = c.tc_cache_ ++ added.map Prod.snd ∧
        c1.options_ = c.options_ ∧ c1.topics_cache_ = c.topics_cache_ ∧
        new1 = new ++ added.map Prod.snd ∧
        (∀ p ∈ added, p.2 ∈ nested ∧ key_of p.2 ros = .ok p.1 ∧
          c.tc_named_cache_.lookup p.1 = none) ∧
        (∀ n ∈ nested, ∃ k, key_of n ros = .ok k ∧
          (c.tc_named_cache_ ++ added).lookup k = some n) ∧
        (added.map Prod.snd).Nodup ∧
        (added.map Prod.fst).Nodup ∧
        (∀ A x B, added.map Prod.snd = A ++ x :: B →
          ∃ S1 S2, nested = S1 ++ x :: S2 ∧
            ∀ m ∈ S1, m ∈ A ∨
              ∃ k, key_of m ros = .ok k ∧ c.tc_named_cache_.lookup k = some m)
  | [], c, new, al, c1, new1, al1, h => by
    simp only [TypeCache.assert_nested, Prod.mk.injEq, Except.ok.injEq] at h
    obtain ⟨rfl, rfl, rfl⟩ := h
    refine ⟨[], by simp, by simp, rfl, rfl, by simp, by simp, by simp, by simp, by simp, ?_⟩
    intro A x B hsplit
    simp at hsplit
  | n :: rest, c, new, al, c1, new1, al1, h => by
    simp only [TypeCache.assert_nested] at h
    cases hn : DDS_TypeCode_name n with
    | error e => simp [hn] at h
    | ok nm =>
      simp only [hn] at h
      cases hf : c.find nm ros with
      | error e => simp [hf] at h
      | ok o =>
        obtain ⟨k, hk, hl⟩ := (find_ok_iff c nm ros o).mp hf
        have hkey : key_of n ros = .ok k := by rw [key_of_eq ros hn, hk]
        cases o with
        | none =>
          simp only [hf] at h
          cases hi : c.insert nm n ros with
          | error e => simp [hi] at h
          | ok c' =>
            simp only [hi] at h
            obtain ⟨k', hk', hmap, hvec, hopt, htop⟩ := insert_ok_fields hi
            have hkk : k' = k := by
              rw [hk] at hk'; exact (Except.ok.inj hk').symm
            subst hkk
            have hmap' : c'.tc_named_cache_ = c.tc_named_cache_ ++ [(k', n)] := by
              rw [hmap]; simp [map_emplace, hl]
            obtain ⟨added', h1, h2, h3, h4, h5, h6, h7, h8, h8', h9⟩ :=
              assert_nested_ok ros rest c' (new ++ [n]) al c1 new1 al1 h
            refine ⟨(k', n) :: added', ?_, ?_, ?_, ?_, ?_, ?_, ?_, ?_, ?_, ?_⟩
            · rw [h1, hmap']; simp
            · rw [h2, hvec]; simp
            · rw [h3, hopt]
            · rw [h4, htop]
            · rw [h5]; simp
            · intro p hp
              rcases List.mem_cons.mp hp with rfl | hp
              · exact ⟨by simp, hkey, hl⟩
              · obtain ⟨a, b, c0⟩ := h6 p hp
                refine ⟨List.mem_cons_of_mem _ a, b, ?_⟩
                rw [hmap', List.lookup_append] at c0
                cases hc : c.tc_named_cache_.lookup p.1 with
                | none => rfl
                | some v => simp [hc] at c0
            · intro m hm
              rcases List.mem_cons.mp hm with rfl | hm
              · refine ⟨k', hkey, ?_⟩
                rw [List.lookup_append, hl]
                simp
              · obtain ⟨km, hkm, hlm⟩ := h7 m hm
                refine ⟨km, hkm, ?_⟩
                rw [hmap'] at hlm
                simpa using hlm
            · simp only [List.map_cons, List.nodup_cons]
              refine ⟨?_, h8⟩
              intro hmem
              obtain ⟨p, hp, hpn⟩ := List.mem_map.mp hmem
              obtain ⟨_, b, c0⟩ := h6 p hp
              rw [hpn, hkey] at b
              have hpk : p.1 = k' := (Except.ok.inj b).symm
              rw [hpk, hmap', List.lookup_append, hl] at c0
              simp at c0
            · simp only [List.map_cons, List.nodup_cons]
              refine ⟨?_, h8'⟩
              intro hmem
              obtain ⟨p, hp, hpn⟩ := List.mem_map.mp hmem
              obtain ⟨_, _, c0⟩ := h6 p hp
              rw [hpn, hmap', List.lookup_append, hl] at c0
              simp at c0
            · intro A x B hsplit
              cases A with
              | nil =>
                simp only [List.map_cons, List.nil_append, List.cons.injEq] at hsplit
                obtain ⟨rfl, _⟩ := hsplit
                exact ⟨[], rest, by simp, by simp⟩
              | cons a A' =>
                simp only [List.map_cons, List.cons_append, List.cons.injEq] at hsplit
                obtain ⟨rfl, hsplit⟩ := hsplit
                obtain ⟨S1, S2, hS, hall⟩ := h9 A' x B hsplit
                refine ⟨n :: S1, S2, by simp [hS], ?_⟩
                intro m hm
                rcases List.mem_cons.mp hm with rfl | hm
                · left; simp
                · rcases hall m hm with hA | ⟨km, hkm, hlm⟩
                  · left; exact List.mem_cons_of_mem _ hA
                  · rw [hmap', List.lookup_append] at hlm
                    cases hc : c.tc_named_cache_.lookup km with
                    | some v =>
                      right
                      refine ⟨km, hkm, ?_⟩
                      simpa [hc] using hlm
                    | none =>
                      left
                      simp only [hc, Option.none_or] at hlm
                      have hmem := (List.lookup_eq_some_iff.mp hlm)
                      obtain ⟨l1, l2, hl12, _⟩ := hmem
                      have : (km, m) ∈ [(k', n)] := by rw [hl12]; simp
                      simp only [List.mem_singleton, Prod.mk.injEq] at this
                      rw [this.2]; simp
        | some cached =>
          simp only [hf] at h
          by_cases heq : DDS_TypeCode_equal cached n = true
          · simp only [heq, not_true_eq_false, if_false] at h
            have hcn : cached = n := by simpa [DDS_TypeCode_equal] using heq
            subst hcn
            obtain ⟨added, h1, h2, h3, h4, h5, h6, h7, h8, h8', h9⟩ :=
              assert_nested_ok ros rest c new (al ++ [cached]) c1 new1 al1 h
            refine ⟨added, h1, h2, h3, h4, h5, ?_, ?_, h8, h8', ?_⟩
            · intro p hp
              obtain ⟨a, b, c0⟩ := h6 p hp
              exact ⟨List.mem_cons_of_mem _ a, b, c0⟩
            · intro m hm
              rcases List.mem_cons.mp hm with rfl | hm
              · refine ⟨k, hkey, ?_⟩
                rw [List.lookup_append, hl]; simp
              · exact h7 m hm
            · intro A x B hsplit
              obtain ⟨S1, S2, hS, hall⟩ := h9 A x B hsplit
              refine ⟨cached :: S1, S2, by simp [hS], ?_⟩
              intro m hm
              rcases List.mem_cons.mp hm with rfl | hm
              · right; exact ⟨k, hkey, hl⟩
              · exact hall m hm
          · simp [heq] at h

/-! ## What a successful assertion does -/

theorem mangle_typecode_recur_name {tc a : TypeCode} {f : Name → Except Err Name}
    {g : Name → Name} (h : mangle_typecode_recur tc f g = .ok a) :
    ∃ nm k, DDS_TypeCode_name tc = .ok nm ∧ f nm = .ok k ∧ DDS_TypeCode_name a = .ok k := by
  unfold mangle_typecode_recur at h
  cases hn : DDS_TypeCode_name tc with
  | error e => simp [hn] at h
  | ok nm =>
    simp only [hn] at h
    cases hf : f nm with
    | error e => simp [hf] at h
    | ok k =>
      simp only [hf] at h
      split at h
      · cases h
      · cases h
        exact ⟨nm, k, rfl, hf, rfl⟩

/-- The name returned by `assert_form` is the name of the type code it
returns. -/
theorem assert_form_name {c : TypeCache} {tc a : TypeCode} {ros : Bool} {hint n : Name}
    (h : c.assert_form tc ros hint = .ok (a, n)) : DDS_TypeCode_name a = .ok n := by
  unfold TypeCache.assert_form at h
  cases hn : DDS_TypeCode_name tc with
  | error e => simp [hn] at h
  | ok nm =>
    simp only [hn] at h
    split at h
    · cases hm : c.mangle_typecode tc with
      | error e => simp [hm] at h
      | ok a' =>
        simp only [hm] at h
        cases hn' : DDS_TypeCode_name a' with
        | error e => simp [hn'] at h
        | ok n' =>
          simp only [hn', Except.ok.injEq, Prod.mk.injEq] at h
          obtain ⟨rfl, rfl⟩ := h
          exact hn'
    · split at h
      · cases hm : c.demangle_typecode tc with
        | error e => simp [hm] at h
        | ok a' =>
          simp only [hm] at h
          cases hn' : DDS_TypeCode_name a' with
          | error e => simp [hn'] at h
          | ok n' =>
            simp only [hn', Except.ok.injEq, Prod.mk.injEq] at h
            obtain ⟨rfl, rfl⟩ := h
            exact hn'
      · simp only [Except.ok.injEq, Prod.mk.injEq] at h
        obtain ⟨rfl, rfl⟩ := h
        exact hn

/-- The form asserted depends on the cache through its options only. -/
theorem assert_form_congr {c c1 : TypeCache} (h : c1.options_ = c.options_) (tc : TypeCode)
    (ros : Bool) (hint : Name) : c1.assert_form tc ros hint = c.assert_form tc ros hint := by
  unfold TypeCache.assert_form TypeCache.mangle_typecode TypeCache.demangle_typecode
  rw [h]

/-- The fused walk of `collect_inspect` through a collection is the
resolution of the collection to its leaf. -/
theorem collect_inspect_leaf (c : TypeCache) (ros : Bool) :
    ∀ t : TypeCode, collect_inspect c ros t = collect_inspect c ros (collection_leaf t)
  | .sequence _ e => by
    simp only [collect_inspect, collection_leaf]
    exact collect_inspect_leaf c ros e
  | .array _ e => by
    simp only [collect_inspect, collection_leaf]
    exact collect_inspect_leaf c ros e
  | .struct _ _ => rfl
  | .union _ _ => rfl
  | .value _ _ _ => rfl
  | .enum _ _ => rfl
  | .prim _ => rfl
  | .string _ => rfl
  | .wstring _ => rfl

/-- One round of the inspection loop on a type that is not a collection, as
the source writes it: a complex type is collected recursively with
`collect_nested_typecodes` and handed to `collect_round`, any other type is
skipped. -/
theorem collect_inspect_round (c : TypeCache) (ros : Bool) (t : TypeCode)
    (ht : is_typecode_collection (DDS_TypeCode_kind t) = false) :
    collect_inspect c ros t =
      if is_typecode_complex (DDS_TypeCode_kind t) then
        match c.collect_nested_typecodes t ros with
        | .error e => .error e
        | .ok nested => collect_round c ros t nested
      else .ok [] := by
  cases t with
  | sequence b e => simp [is_typecode_collection, DDS_TypeCode_kind] at ht
  | array ds e => simp [is_typecode_collection, DDS_TypeCode_kind] at ht
  | struct n ms =>
    simp [collect_inspect, TypeCache.collect_nested_typecodes, is_typecode_complex,
      DDS_TypeCode_kind]
  | union n ms =>
    simp [collect_inspect, TypeCache.collect_nested_typecodes, is_typecode_complex,
      DDS_TypeCode_kind]
  | value n b ms =>
    simp only [collect_inspect, TypeCache.collect_nested_typecodes, is_typecode_complex,
      DDS_TypeCode_kind]
    cases collect_base c ros b with
    | error e => simp
    | ok fb =>
      cases collect_members c ros ms with
      | error e => simp
      | ok fm => simp
  | enum n ls =>
    simp [collect_inspect, TypeCache.collect_nested_typecodes, is_typecode_complex,
      DDS_TypeCode_kind]
  | prim k => simp [collect_inspect, is_typecode_complex, DDS_TypeCode_kind]
  | string b => simp [collect_inspect, is_typecode_complex, DDS_TypeCode_kind]
  | wstring b => simp [collect_inspect, is_typecode_complex, DDS_TypeCode_kind]

/-- A successful `assert_typecode`, taken apart: either the name was bound
to an equal type code and nothing changes, or it was unbound, the collected
type codes are processed by the loop and the root is inserted. -/
theorem assert_typecode_ok {c c1 : TypeCache} {tc : TypeCode} {ros : Bool} {hint : Name}
    {r : Bool × List TypeCode × List TypeCode}
    (h : c.assert_typecode tc ros hint = (c1, .ok r)) :
    ∃ a n k, c.assert_form tc ros hint = .ok (a, n) ∧ cache_key n ros = .ok k ∧
      ((c.tc_named_cache_.lookup k = some a ∧ c1 = c ∧ r = (false, [], [a])) ∨
       (c.tc_named_cache_.lookup k = none ∧
        ∃ (added : List (Name × TypeCode)) (al : List TypeCode),
          c1.tc_named_cache_ = map_emplace (c.tc_named_cache_ ++ added) k a ∧
          c1.tc_cache_ = c.tc_cache_ ++ (added.map Prod.snd ++ [a]) ∧
          c1.options_ = c.options_ ∧ c1.topics_cache_ = c.topics_cache_ ∧
          r = (true, added.map Prod.snd ++ [a], al) ∧
          (∀ d ∈ nested_complex a, ∃ kd, key_of d ros = .ok kd) ∧
          (∀ p ∈ added, p.2 ∈ (nested_complex a).filter (uncached c ros) ∧
            key_of p.2 ros = .ok p.1 ∧ c.tc_named_cache_.lookup p.1 = none) ∧
          (∀ d ∈ (nested_complex a).filter (uncached c ros), ∃ kd, key_of d ros = .ok kd ∧
            (c.tc_named_cache_ ++ added).lookup kd = some d) ∧
          (added.map Prod.snd).Nodup ∧ (added.map Prod.fst).Nodup ∧
          (∀ A x B, added.map Prod.snd = A ++ x :: B →
            ∃ S1 S2, (nested_complex a).filter (uncached c ros) = S1 ++ x :: S2 ∧
              ∀ m ∈ S1, m ∈ A ∨
                ∃ km, key_of m ros = .ok km ∧ c.tc_named_cache_.lookup km = some m))) := by
  unfold TypeCache.assert_typecode at h
  cases hform : c.assert_form tc ros hint with
  | error e => simp [hform] at h
  | ok an =>
    obtain ⟨a, n⟩ := an
    simp only [hform] at h
    cases hf : c.find n ros with
    | error e => simp [hf] at h
    | ok o =>
      obtain ⟨k, hk, hl⟩ := (find_ok_iff c n ros o).mp hf
      refine ⟨a, n, k, rfl, hk, ?_⟩
      cases o with
      | some cached =>
        simp only [hf] at h
        by_cases heq : DDS_TypeCode_equal cached a = true
        · simp only [heq, not_true_eq_false, if_false, Prod.mk.injEq, Except.ok.injEq] at h
          have hca : cached = a := by simpa [DDS_TypeCode_equal] using heq
          subst hca
          left
          exact ⟨hl, h.1.symm, h.2.symm⟩
        · simp [heq] at h
      | none =>
        simp only [hf] at h
        right
        refine ⟨hl, ?_⟩
        cases hc : c.collect_nested_typecodes a ros with
        | error e => simp [hc] at h
        | ok nested =>
          simp only [hc] at h
          obtain ⟨hnested, hkeys⟩ := collect_nested_typecodes_eq c ros a nested hc
          cases hloop : c.assert_nested ros nested [] [] with
          | mk c' res =>
            cases res with
            | error e => simp [hloop] at h
            | ok na =>
              obtain ⟨new1, al1⟩ := na
              simp only [hloop] at h
              obtain ⟨added, h1, h2, h3, h4, h5, h6, h7, h8, h8', h9⟩ :=
                assert_nested_ok ros nested c [] [] c' new1 al1 hloop
              cases hi : c'.insert n a ros with
              | error e => simp [hi] at h
              | ok c2 =>
                simp only [hi, Prod.mk.injEq, Except.ok.injEq] at h
                obtain ⟨rfl, rfl⟩ := h
                obtain ⟨k', hk', hmap, hvec, hopt, htop⟩ := insert_ok_fields hi
                have hkk : k' = k := by
                  rw [hk] at hk'; exact (Except.ok.inj hk').symm
                subst hkk
                simp only [List.nil_append] at h5
                subst h5
                rw [hnested] at h6 h7 h9
                refine ⟨added, al1, ?_, ?_, ?_, ?_, rfl, hkeys, h6, h7, h8, h8', h9⟩
                · rw [hmap, h1]
                · rw [hvec, h2]; simp
                · rw [hopt, h3]
                · rw [htop, h4]

/-- A successful `assert_dds_topic`, taken apart: the type assertion
succeeded and the topic binding changed nothing but the topics map. -/
theorem assert_dds_topic_ok {c c2 : TypeCache} {topic : Name} {tc : TypeCode} {ros : Bool}
    {hint : Name} {r : Bool × Bool × List TypeCode × List TypeCode}
    (h : c.assert_dds_topic topic tc ros hint = (c2, .ok r)) :
    ∃ c1 r1, c.assert_typecode tc ros hint = (c1, .ok r1) ∧
      c2.tc_named_cache_ = c1.tc_named_cache_ ∧ c2.tc_cache_ = c1.tc_cache_ ∧
      c2.options_ = c1.options_ := by
  unfold TypeCache.assert_dds_topic at h
  cases ha : c.assert_typecode tc ros hint with
  | mk c1 res =>
    cases res with
    | error e => simp [ha] at h
    | ok r1 =>
      obtain ⟨nt, new, al⟩ := r1
      simp only [ha] at h
      refine ⟨c1, _, rfl, ?_⟩
      split at h
      · simp at h
      · split at h
        · simp at h
        · rename_i tcn hname
          cases hit : c1.insert_topic topic tcn with
          | error e => simp [hit] at h
          | ok cn =>
            obtain ⟨c3, b⟩ := cn
            simp only [hit, Prod.mk.injEq, Except.ok.injEq] at h
            obtain ⟨rfl, _⟩ := h
            unfold TypeCache.insert_topic at hit
            split at hit
            · cases hit
            · split at hit
              · split at hit
                · cases hit
                · simp only [Except.ok.injEq, Prod.mk.injEq] at hit
                  obtain ⟨rfl, _⟩ := hit
                  exact ⟨rfl, rfl, rfl⟩
              · simp only [Except.ok.injEq, Prod.mk.injEq] at hit
                obtain ⟨rfl, _⟩ := hit
                exact ⟨rfl, rfl, rfl⟩

/-! ## Sizes: a descriptor is not nested in itself -/

mutual
theorem nc_inspect_sizeOf : ∀ (t d : TypeCode), d ∈ nc_inspect t → sizeOf d ≤ sizeOf t
  | .sequence _ e, d, h => by
    simp only [nc_inspect] at h
    have := nc_inspect_sizeOf e d h
    simp only [TypeCode.sequence.sizeOf_spec]; omega
  | .array _ e, d, h => by
    simp only [nc_inspect] at h
    have := nc_inspect_sizeOf e d h
    simp only [TypeCode.array.sizeOf_spec]; omega
  | .struct n ms, d, h => by
    simp only [nc_inspect, List.mem_append, List.mem_singleton] at h
    rcases h with h | h
    · have := nc_members_sizeOf ms d h
      simp only [TypeCode.struct.sizeOf_spec]; omega
    · subst h; exact Nat.le_refl _
  | .union n ms, d, h => by
    simp only [nc_inspect, List.mem_append, List.mem_singleton] at h
    rcases h with h | h
    · have := nc_members_sizeOf ms d h
      simp only [TypeCode.union.sizeOf_spec]; omega
    · subst h; exact Nat.le_refl _
  | .value n b ms, d, h => by
    simp only [nc_inspect, List.mem_append, List.mem_singleton] at h
    rcases h with (h | h) | h
    · have := nc_base_sizeOf b d h
      simp only [TypeCode.value.sizeOf_spec]; omega
    · have := nc_members_sizeOf ms d h
      simp only [TypeCode.value.sizeOf_spec]; omega
    · subst h; exact Nat.le_refl _
  | .enum n ls, d, h => by
    simp only [nc_inspect, List.mem_singleton] at h
    subst h; exact Nat.le_refl _
  | .prim _, d, h => by simp [nc_inspect] at h
  | .string _, d, h => by simp [nc_inspect] at h
  | .wstring _, d, h => by simp [nc_inspect] at h
theorem nc_members_sizeOf : ∀ (ms : Members) (d : TypeCode), d ∈ nc_members ms →
    sizeOf d < sizeOf ms
  | .nil, d, h => by simp [nc_members] at h
  | .cons _ t rest, d, h => by
    simp only [nc_members, List.mem_append] at h
    rcases h with h | h
    · have := nc_inspect_sizeOf t d h
      simp only [Members.cons.sizeOf_spec]; omega
    · have := nc_members_sizeOf rest d h
      simp only [Members.cons.sizeOf_spec]; omega
theorem nc_base_sizeOf : ∀ (b : Base) (d : TypeCode), d ∈ nc_base b → sizeOf d < sizeOf b
  | .none, d, h => by simp [nc_base] at h
  | .some t, d, h => by
    simp only [nc_base] at h
    have := nc_inspect_sizeOf t d h
    simp only [Base.some.sizeOf_spec]; omega
end

theorem nested_complex_sizeOf {x d : TypeCode} (h : d ∈ nested_complex x) :
    sizeOf d < sizeOf x := by
  cases x with
  | struct n ms =>
    have := nc_members_sizeOf ms d (by simpa [nested_complex] using h)
    simp only [TypeCode.struct.sizeOf_spec]; omega
  | union n ms =>
    have := nc_members_sizeOf ms d (by simpa [nested_complex] using h)
    simp only [TypeCode.union.sizeOf_spec]; omega
  | value n b ms =>
    simp only [nested_complex, List.mem_append] at h
    rcases h with h | h
    · have := nc_base_sizeOf b d h
      simp only [TypeCode.value.sizeOf_spec]; omega
    · have := nc_members_sizeOf ms d h
      simp only [TypeCode.value.sizeOf_spec]; omega
  | enum n ls => simp [nested_complex] at h
  | prim k => simp [nested_complex] at h
  | string b => simp [nested_complex] at h
  | wstring b => simp [nested_complex] at h
  | sequence b e => simp [nested_complex] at h
  | array ds e => simp [nested_complex] at h

/-- In a filtered dependency-ordered list, what is nested in an element and
passes the filter comes before that element. -/
theorem depOrdered_filter {l : List TypeCode} (u : TypeCode → Bool) (hl : DepOrdered l)
    {before after : List TypeCode} {x d : TypeCode}
    (hsplit : l.filter u = before ++ x :: after) (hd : d ∈ nested_complex x)
    (hu : u d = true) : d ∈ before := by
  obtain ⟨l1, l2, h12, hf1, hf2⟩ := List.filter_eq_append_iff.mp hsplit
  obtain ⟨m1, m2, hm, hnot, _, _⟩ := List.filter_eq_cons_iff.mp hf2
  have hsplit2 : l = (l1 ++ m1) ++ x :: m2 := by rw [h12, hm]; simp
  have hmem := hl _ x _ hsplit2 d hd
  rcases List.mem_append.mp hmem with h | h
  · rw [← hf1]; exact List.mem_filter.mpr ⟨h, hu⟩
  · exact absurd hu (hnot d h)

/-- After a successful assertion the asserted form is bound under its key,
provided no descriptor nested in it has the same key. -/
theorem assert_typecode_stores_root {c c1 : TypeCache} {tc a : TypeCode} {ros : Bool}
    {hint n : Name} {r : Bool × List TypeCode × List TypeCode}
    (hform : c.assert_form tc ros hint = .ok (a, n))
    (hvalid : ∀ d ∈ nested_complex a, key_of d ros ≠ key_of a ros)
    (h : c.assert_typecode tc ros hint = (c1, .ok r)) :
    c1.find n ros = .ok (some a) ∧ c1.options_ = c.options_ := by
  obtain ⟨a', n', k, hform', hk, hcase⟩ := assert_typecode_ok h
  rw [hform] at hform'
  simp only [Except.ok.injEq, Prod.mk.injEq] at hform'
  obtain ⟨rfl, rfl⟩ := hform'
  have hka : key_of a ros = .ok k := by rw [key_of_eq ros (assert_form_name hform), hk]
  rcases hcase with ⟨hl, rfl, _⟩ | ⟨hl, added, al, hmap, _, hopt, _, _, _, hadded, _⟩
  · exact ⟨(find_ok_iff _ _ _ _).mpr ⟨k, hk, hl⟩, rfl⟩
  · refine ⟨(find_ok_iff _ _ _ _).mpr ⟨k, hk, ?_⟩, hopt⟩
    have hnone : (c.tc_named_cache_ ++ added).lookup k = none := by
      rw [List.lookup_append, hl, Option.none_or, List.lookup_eq_none_iff]
      intro p hp
      obtain ⟨hmem, hkp, _⟩ := hadded p hp
      have hne := hvalid p.2 (List.mem_filter.mp hmem).1
      rw [hkp, hka] at hne
      simp only [bne_iff_ne, ne_eq]
      intro hkeq
      exact hne (by rw [hkeq])
    rw [hmap]
    unfold map_emplace
    rw [hnone]
    simp only [Option.isSome_none, Bool.false_eq_true, if_false]
    rw [List.lookup_append, hnone]
    simp

/-! ## The claims -/

/-- C1: when the name of the asserted form of `tc` is bound in the cache to
a type code structurally equal to that form, `assert_dds_type` returns
`is_new = false`, no newly added type code and exactly the cached node as
already present, and the cache (types_by_name, all_types, topics) is
unchanged. -/
theorem assert_dds_type_cached_equal (c : TypeCache) (tc : TypeCode) (ros_type : Bool)
    (demangled_ros_type : Name) (assert_tc : TypeCode) (type_fqname : Name) (cached : TypeCode)
    (hform : c.assert_form tc ros_type demangled_ros_type = .ok (assert_tc, type_fqname))
    (hfind : c.find type_fqname ros_type = .ok (some cached))
    (hequal : DDS_TypeCode_equal cached assert_tc = true) :
    c.assert_dds_type tc ros_type demangled_ros_type = (c, .ok (false, [], [cached])) := by
  unfold TypeCache.assert_dds_type TypeCache.assert_typecode
  simp only [hform, hfind, hequal, not_true_eq_false, if_false]

theorem assert_dds_type_cached_equal_witness :
    ex_cache_A_x.assert_form ex_A_x false [] = .ok (ex_A_x, "ns::A".toList) ∧
    ex_cache_A_x.find "ns::A".toList false = .ok (some ex_A_x) ∧
    DDS_TypeCode_equal ex_A_x ex_A_x = true ∧
    ex_cache_A_x.assert_dds_type ex_A_x false [] = (ex_cache_A_x, .ok (false, [], [ex_A_x])) :=
  ⟨by decide, by decide, by decide,
    assert_dds_type_cached_equal ex_cache_A_x ex_A_x false [] ex_A_x "ns::A".toList ex_A_x
      (by decide) (by decide) (by decide)⟩

/-- C2, as stated, fails: `p::msg::dds_::T_ { long x_ }` and
`p::msg::T { long x }` are structurally different and share the canonical
name `p::msg::T`, yet with the default options and `ros_type = true` the
second assertion succeeds with `is_new = false`. -/
theorem assert_dds_type_same_canonical_name_accepted :
    ex_T_mangled ≠ ex_T_demangled ∧
    normalize_dds_type_name "p::msg::dds_::T_".toList =
      normalize_dds_type_name "p::msg::T".toList ∧
    (ex_empty.assert_dds_type ex_T_mangled true "p/msg/T".toList).2 =
      .ok (true, [ex_T_demangled], []) ∧
    ((ex_empty.assert_dds_type ex_T_mangled true "p/msg/T".toList).1.assert_dds_type
        ex_T_demangled true "p/msg/T".toList).2 = .ok (false, [], [ex_T_demangled]) := by
  decide

/-- C2, amended: when the asserted forms of `d1` and `d2` are structurally
different and have the same cache key, and no descriptor nested in the form
of `d1` has that key, then after a successful assertion of `d1` the
assertion of `d2` throws the type conflict naming the asserted form of `d2`
and leaves the cache as it was, whatever the options and `ros_type`. -/
theorem assert_dds_type_conflict (c c1 : TypeCache) (d1 d2 : TypeCode) (ros_type : Bool)
    (hint1 hint2 : Name) (a1 a2 : TypeCode) (n1 n2 : Name)
    (r1 : Bool × List TypeCode × List TypeCode)
    (hform1 : c.assert_form d1 ros_type hint1 = .ok (a1, n1))
    (hform2 : c.assert_form d2 ros_type hint2 = .ok (a2, n2))
    (hdiff : a1 ≠ a2)
    (hkey : cache_key n1 ros_type = cache_key n2 ros_type)
    (hvalid : ∀ d ∈ nested_complex a1, key_of d ros_type ≠ key_of a1 ros_type)
    (hfirst : c.assert_dds_type d1 ros_type hint1 = (c1, .ok r1)) :
    c1.assert_dds_type d2 ros_type hint2 = (c1, .error (.typeConflict n2)) := by
  obtain ⟨hfind, hopt⟩ := assert_typecode_stores_root hform1 hvalid hfirst
  obtain ⟨k, hk, hl⟩ := (find_ok_iff _ _ _ _).mp hfind
  have hfind2 : c1.find n2 ros_type = .ok (some a1) :=
    (find_ok_iff _ _ _ _).mpr ⟨k, by rw [← hkey]; exact hk, hl⟩
  have hform2' := assert_form_congr hopt d2 ros_type hint2
  rw [hform2] at hform2'
  have hne : DDS_TypeCode_equal a1 a2 = false := by simpa [DDS_TypeCode_equal] using hdiff
  unfold TypeCache.assert_dds_type TypeCache.assert_typecode
  simp only [hform2', hfind2, hne]
  simp

theorem assert_dds_type_conflict_witness :
    ex_empty.assert_form ex_A_x true [] = .ok (ex_A_x, "ns::A".toList) ∧
    ex_empty.assert_form ex_A_y true [] = .ok (ex_A_y, "ns::A".toList) ∧
    ex_A_x ≠ ex_A_y ∧
    (ex_empty.assert_dds_type ex_A_x true []).1.assert_dds_type ex_A_y true [] =
      ((ex_empty.assert_dds_type ex_A_x true []).1, .error (.typeConflict "ns::A".toList)) :=
  ⟨by decide, by decide, by decide,
    assert_dds_type_conflict ex_empty (ex_empty.assert_dds_type ex_A_x true []).1 ex_A_x ex_A_y
      true [] [] ex_A_x ex_A_y "ns::A".toList "ns::A".toList (true, [ex_A_x], [])
      (by decide) (by decide) (by decide) (by decide) (by decide) (by decide)⟩

/-- C3: for a valid descriptor (no descriptor nested in its asserted form is
stored under the key of the form itself) whose first assertion succeeds, the
second assertion with the same arguments succeeds with `is_new = false` and
leaves the cache exactly as the first call left it. -/
theorem assert_dds_type_idempotent (c c1 : TypeCache) (d : TypeCode) (ros_type : Bool)
    (demangled_ros_type : Name) (a : TypeCode) (n : Name)
    (r : Bool × List TypeCode × List TypeCode)
    (hform : c.assert_form d ros_type demangled_ros_type = .ok (a, n))
    (hvalid : ∀ x ∈ nested_complex a, key_of x ros_type ≠ key_of a ros_type)
    (hfirst : c.assert_dds_type d ros_type demangled_ros_type = (c1, .ok r)) :
    c1.assert_dds_type d ros_type demangled_ros_type = (c1, .ok (false, [], [a])) := by
  obtain ⟨hfind, hopt⟩ := assert_typecode_stores_root hform hvalid hfirst
  have hform' := assert_form_congr hopt d ros_type demangled_ros_type
  rw [hform] at hform'
  unfold TypeCache.assert_dds_type TypeCache.assert_typecode
  simp only [hform', hfind, DDS_TypeCode_equal]
  simp

theorem assert_dds_type_idempotent_witness :
    ex_empty.assert_form ex_top_A true [] = .ok (ex_top_A, "A".toList) ∧
    ex_empty.assert_dds_type ex_top_A true [] = (ex_cache_top_A, .ok (true, [ex_N, ex_top_A], [])) ∧
    ex_cache_top_A.assert_dds_type ex_top_A true [] =
      (ex_cache_top_A, .ok (false, [], [ex_top_A])) :=
  ⟨by decide, by decide,
    assert_dds_type_idempotent ex_empty ex_cache_top_A ex_top_A true [] ex_top_A "A".toList
      (true, [ex_N, ex_top_A], []) (by decide) (by decide) (by decide)⟩

theorem getElem_snoc_cases {α : Type} (l : List α) (a : α) (i : Nat)
    (hi : i < (l ++ [a]).length) :
    (∃ h : i < l.length, (l ++ [a])[i] = l[i]) ∨ (i = l.length ∧ (l ++ [a])[i] = a) := by
  by_cases h : i < l.length
  · left; exact ⟨h, List.getElem_append_left h⟩
  · right
    have hlen : (l ++ [a]).length = l.length + 1 := by simp
    have hil : i = l.length := by omega
    subst hil
    exact ⟨rfl, by simp⟩

/-- C4: a successful assertion of a descriptor whose name was not cached
returns its newly added type codes in dependency order: the asserted root
form is the last element, and a type code of the list that is nested in
another type code of the list stands before it. -/
theorem assert_dds_type_dependency_order (c c1 : TypeCache) (tc : TypeCode) (ros_type : Bool)
    (demangled_ros_type : Name) (new_asserted already_asserted : List TypeCode)
    (h : c.assert_dds_type tc ros_type demangled_ros_type =
      (c1, .ok (true, new_asserted, already_asserted))) :
    ∃ assert_tc type_fqname,
      c.assert_form tc ros_type demangled_ros_type = .ok (assert_tc, type_fqname) ∧
      new_asserted.getLast? = some assert_tc ∧
      ∀ (i j : Nat) (hi : i < new_asserted.length) (hj : j < new_asserted.length),
        new_asserted[j] ∈ nested_complex new_asserted[i] → j < i := by
  obtain ⟨a, n, k, hform, hk, hcase⟩ := assert_typecode_ok h
  refine ⟨a, n, hform, ?_⟩
  rcases hcase with ⟨_, _, hr⟩ | ⟨hl, added, al, _, _, _, _, hr, _, hadded, _, hnodup, _, hord⟩
  · simp at hr
  · simp only [Prod.mk.injEq, true_and] at hr
    obtain ⟨rfl, _⟩ := hr
    refine ⟨by simp, ?_⟩
    intro i j hi hj hmem
    have hin : ∀ x ∈ added.map Prod.snd, x ∈ nested_complex a ∧ uncached c ros_type x = true ∧
        ∃ kx, key_of x ros_type = .ok kx ∧ c.tc_named_cache_.lookup kx = none := by
      intro x hx
      obtain ⟨p, hp, rfl⟩ := List.mem_map.mp hx
      obtain ⟨h1, h2, h3⟩ := hadded p hp
      exact ⟨(List.mem_filter.mp h1).1, (List.mem_filter.mp h1).2, p.1, h2, h3⟩
    rcases getElem_snoc_cases _ a i hi with ⟨hi', hxi⟩ | ⟨hi', hxi⟩
    · rcases getElem_snoc_cases _ a j hj with ⟨hj', hxj⟩ | ⟨hj', hxj⟩
      · rw [hxi, hxj] at hmem
        -- both are collected type codes
        have hsplit : added.map Prod.snd =
            (added.map Prod.snd).take i ++
              (added.map Prod.snd)[i] :: (added.map Prod.snd).drop (i + 1) := by
          rw [← List.drop_eq_getElem_cons hi', List.take_append_drop]
        obtain ⟨S1, S2, hS, hall⟩ := hord _ _ _ hsplit
        obtain ⟨_, hunc, kd, hkd, hnone⟩ := hin _ (List.getElem_mem hj')
        have hbefore := depOrdered_filter (uncached c ros_type) (nested_complex_depOrdered a)
          hS hmem hunc
        rcases hall _ hbefore with htake | ⟨km, hkm, hlm⟩
        · obtain ⟨j', hm, hj'eq⟩ := List.mem_take_iff_getElem.mp htake
          have hjlt : j' < i := by omega
          have : j' = j := (List.Nodup.getElem_inj_iff hnodup).mp hj'eq
          omega
        · rw [hkd] at hkm
          have : kd = km := Except.ok.inj hkm
          rw [← this, hnone] at hlm
          cases hlm
      · -- the root is not nested in a collected type code
        rw [hxi, hxj] at hmem
        obtain ⟨hroot, _⟩ := hin _ (List.getElem_mem hi')
        have s1 := nested_complex_sizeOf hmem
        have s2 := nested_complex_sizeOf hroot
        omega
    · rcases getElem_snoc_cases _ a j hj with ⟨hj', _⟩ | ⟨hj', hxj⟩
      · omega
      · rw [hxi, hxj] at hmem
        have s1 := nested_complex_sizeOf hmem
        omega

theorem assert_dds_type_dependency_order_witness :
    ex_empty.assert_dds_type ex_deep true [] =
      ((ex_empty.assert_dds_type ex_deep true []).1,
        .ok (true, [ex_N, .struct "Mid".toList (.cons "n".toList ex_N .nil), ex_deep], [ex_N])) ∧
    ∃ assert_tc type_fqname,
      ex_empty.assert_form ex_deep true [] = .ok (assert_tc, type_fqname) ∧
      [ex_N, .struct "Mid".toList (.cons "n".toList ex_N .nil), ex_deep].getLast? =
        some assert_tc ∧
      ∀ (i j : Nat)
        (hi : i < [ex_N, .struct "Mid".toList (.cons "n".toList ex_N .nil), ex_deep].length)
        (hj : j < [ex_N, .struct "Mid".toList (.cons "n".toList ex_N .nil), ex_deep].length),
        [ex_N, .struct "Mid".toList (.cons "n".toList ex_N .nil), ex_deep][j] ∈
          nested_complex [ex_N, .struct "Mid".toList (.cons "n".toList ex_N .nil), ex_deep][i] →
        j < i :=
  ⟨by decide,
    assert_dds_type_dependency_order ex_empty (ex_empty.assert_dds_type ex_deep true []).1
      ex_deep true [] [ex_N, .struct "Mid".toList (.cons "n".toList ex_N .nil), ex_deep] [ex_N]
      (by decide)⟩

/-- C5, the code at the failing input: from the empty cache, `A { N n }` and
then `B { sequence<N> n }` are asserted; `N` has one entry in the map, but the
second assertion returns an empty list of already asserted type codes. -/
theorem assert_dds_type_shared_nested_not_reported :
    (ex_cache_top_A.assert_dds_type ex_top_B true []).2 = .ok (true, [ex_top_B], []) ∧
    (ex_cache_top_A.assert_dds_type ex_top_B true []).1.keys =
      ["N".toList, "A".toList, "B".toList] := by
  decide

/-- C6, the code at the failing input: with `N { long v }` cached, a
descriptor `B` that embeds the different struct `N { long w }` is asserted
without any exception, and the cached `N` stays as it was. -/
theorem assert_dds_type_nested_conflict_missed :
    ex_cache_top_A.find "N".toList true = .ok (some ex_N) ∧
    ex_N_other ≠ ex_N ∧
    (ex_cache_top_A.assert_dds_type ex_top_B_other true []).2 =
      .ok (true, [ex_top_B_other], []) ∧
    (ex_cache_top_A.assert_dds_type ex_top_B_other true []).1.find "N".toList true =
      .ok (some ex_N) := by
  decide

/-! ## Invariants of the reachable caches -/

theorem lookup_some_mem {V : Type} {m : List (Name × V)} {k : Name} {v : V}
    (h : m.lookup k = some v) : (k, v) ∈ m := by
  obtain ⟨l1, l2, hl, _⟩ := List.lookup_eq_some_iff.mp h
  rw [hl]; simp

theorem lookup_none_not_mem_keys {V : Type} {m : List (Name × V)} {k : Name}
    (h : m.lookup k = none) : k ∉ m.map Prod.fst := by
  intro hk
  obtain ⟨p, hp, rfl⟩ := List.mem_map.mp hk
  have := List.lookup_eq_none_iff.mp h p hp
  simp at this

theorem mem_map_emplace {V : Type} {m : List (Name × V)} {k : Name} {v : V} {p : Name × V}
    (h : p ∈ map_emplace m k v) : p ∈ m ∨ p = (k, v) := by
  unfold map_emplace at h
  split at h
  · left; exact h
  · simpa using h

theorem mem_map_emplace_of_mem {V : Type} {m : List (Name × V)} (k : Name) (v : V)
    {p : Name × V} (h : p ∈ m) : p ∈ map_emplace m k v := by
  unfold map_emplace
  split
  · exact h
  · exact List.mem_append_left _ h

theorem map_emplace_keys_nodup {V : Type} {m : List (Name × V)} (k : Name) (v : V)
    (h : (m.map Prod.fst).Nodup) : ((map_emplace m k v).map Prod.fst).Nodup := by
  unfold map_emplace
  split
  · exact h
  · rename_i hnone
    have hn : m.lookup k = none := by
      cases hl : m.lookup k with
      | none => rfl
      | some x => simp [hl] at hnone
    have := lookup_none_not_mem_keys hn
    rw [List.map_append, List.nodup_append]
    refine ⟨h, by simp, ?_⟩
    intro x hx1 hx2
    simp only [List.map_cons, List.map_nil, List.mem_singleton] at hx2
    subst hx2
    exact this hx1

/-- One successful `assert_typecode` keeps the descriptors nested in the
stored type codes bound under their keys. -/
theorem assert_typecode_nested_keys {c c1 : TypeCache} {tc : TypeCode} {ros : Bool}
    {hint : Name} {r : Bool × List TypeCode × List TypeCode} (allowed : Bool → Prop)
    (hros : allowed ros)
    (hinv : ∀ p ∈ c.tc_named_cache_, ∀ d ∈ nested_complex p.2,
      ∃ ros' k, allowed ros' ∧ key_of d ros' = .ok k ∧ k ∈ c.keys)
    (h : c.assert_typecode tc ros hint = (c1, .ok r)) :
    ∀ p ∈ c1.tc_named_cache_, ∀ d ∈ nested_complex p.2,
      ∃ ros' k, allowed ros' ∧ key_of d ros' = .ok k ∧ k ∈ c1.keys := by
  obtain ⟨a, n, k, hform, hk, hcase⟩ := assert_typecode_ok h
  rcases hcase with ⟨_, rfl, _⟩ | ⟨hl, added, al, hmap, _, _, _, _, hkeys, hadded, hbound, _⟩
  · exact hinv
  · have hsub : ∀ q ∈ c.tc_named_cache_ ++ added, q ∈ c1.tc_named_cache_ := by
      intro q hq; rw [hmap]; exact mem_map_emplace_of_mem k a hq
    have hksub : ∀ x ∈ (c.tc_named_cache_ ++ added).map Prod.fst, x ∈ c1.keys := by
      intro x hx
      obtain ⟨q, hq, rfl⟩ := List.mem_map.mp hx
      exact List.mem_map.mpr ⟨q, hsub q hq, rfl⟩
    have hroot : ∀ d ∈ nested_complex a,
        ∃ ros' kd, allowed ros' ∧ key_of d ros' = .ok kd ∧ kd ∈ c1.keys := by
      intro d hd
      obtain ⟨kd, hkd⟩ := hkeys d hd
      refine ⟨ros, kd, hros, hkd, ?_⟩
      by_cases hu : uncached c ros d = true
      · obtain ⟨kd', hkd', hlook⟩ := hbound d (List.mem_filter.mpr ⟨hd, hu⟩)
        rw [hkd] at hkd'
        have : kd = kd' := Except.ok.inj hkd'
        subst this
        exact hksub _ (List.mem_map.mpr ⟨_, lookup_some_mem hlook, rfl⟩)
      · have hsome : ∃ v, c.tc_named_cache_.lookup kd = some v := by
          cases hlk : c.tc_named_cache_.lookup kd with
          | some v => exact ⟨v, rfl⟩
          | none => exact absurd ((uncached_eq_true_iff c ros d).mpr ⟨kd, hkd, hlk⟩) hu
        obtain ⟨v, hv⟩ := hsome
        exact hksub _ (List.mem_map.mpr
          ⟨_, List.mem_append_left _ (lookup_some_mem hv), rfl⟩)
    intro p hp d hd
    rw [hmap] at hp
    rcases mem_map_emplace hp with hp | rfl
    · rcases List.mem_append.mp hp with hp | hp
      · obtain ⟨ros', kd, h1, h2, h3⟩ := hinv p hp d hd
        refine ⟨ros', kd, h1, h2, ?_⟩
        obtain ⟨q, hq, rfl⟩ := List.mem_map.mp h3
        exact hksub _ (List.mem_map.mpr ⟨q, List.mem_append_left _ hq, rfl⟩)
      · obtain ⟨hmem, _, _⟩ := hadded p hp
        exact hroot d (nested_complex_trans (List.mem_filter.mp hmem).1 hd)
    · exact hroot d hd

/-- One successful `assert_typecode` keeps the keys pairwise distinct and
every key the cache key of the type code bound to it. -/
theorem assert_typecode_keys {c c1 : TypeCache} {tc : TypeCode} {ros : Bool}
    {hint : Name} {r : Bool × List TypeCode × List TypeCode} (allowed : Bool → Prop)
    (hros : allowed ros)
    (hinv : c.keys.Nodup ∧
      ∀ p ∈ c.tc_named_cache_, ∃ ros', allowed ros' ∧ key_of p.2 ros' = .ok p.1)
    (h : c.assert_typecode tc ros hint = (c1, .ok r)) :
    c1.keys.Nodup ∧
      ∀ p ∈ c1.tc_named_cache_, ∃ ros', allowed ros' ∧ key_of p.2 ros' = .ok p.1 := by
  obtain ⟨a, n, k, hform, hk, hcase⟩ := assert_typecode_ok h
  rcases hcase with ⟨_, rfl, _⟩ | ⟨hl, added, al, hmap, _, _, _, _, _, hadded, _, _, hknodup, _⟩
  · exact hinv
  · have hka : key_of a ros = .ok k := by rw [key_of_eq ros (assert_form_name hform), hk]
    refine ⟨?_, ?_⟩
    · unfold TypeCache.keys
      rw [hmap]
      apply map_emplace_keys_nodup
      rw [List.map_append, List.nodup_append]
      refine ⟨hinv.1, hknodup, ?_⟩
      intro x hx1 hx2
      obtain ⟨p, hp, rfl⟩ := List.mem_map.mp hx2
      exact lookup_none_not_mem_keys (hadded p hp).2.2 hx1
    · intro p hp
      rw [hmap] at hp
      rcases mem_map_emplace hp with hp | rfl
      · rcases List.mem_append.mp hp with hp | hp
        · exact hinv.2 p hp
        · exact ⟨ros, hros, (hadded p hp).2.1⟩
      · exact ⟨ros, hros, hka⟩

/-- In a reachable cache the keys are pairwise distinct and every key is
the cache key of the type code bound to it. -/
theorem reachable_keys {options : TypeCacheOptions} {allowed : Bool → Prop} {c : TypeCache}
    (hr : Reachable options allowed c) :
    c.keys.Nodup ∧
      ∀ p ∈ c.tc_named_cache_, ∃ ros', allowed ros' ∧ key_of p.2 ros' = .ok p.1 := by
  induction hr with
  | empty => simp [TypeCache.empty, TypeCache.keys]
  | assert_dds_type c c1 tc ros hint r _ hros h ih =>
    exact assert_typecode_keys allowed hros ih h
  | assert_dds_topic c c2 topic tc ros hint r _ hros h ih =>
    obtain ⟨c1, r1, h1, hmap, _, _⟩ := assert_dds_topic_ok h
    have := assert_typecode_keys allowed hros ih h1
    unfold TypeCache.keys at this ⊢
    rw [hmap]; exact this

/-- C7, as stated, fails: after the successful assertion of `A { B_ m }` as
a non-ROS type, the nested struct `B_` of the stored node `A` has the
canonical name `B`, which is not a key of the map (its key is `B_`). -/
theorem nested_canonical_name_not_a_key :
    ex_empty.assert_dds_type ex_A_nesting_B_ false [] =
      (ex_cache_raw, .ok (true, [.struct "B_".toList .nil, ex_A_nesting_B_], [])) ∧
    ("A".toList, ex_A_nesting_B_) ∈ ex_cache_raw.tc_named_cache_ ∧
    TypeCode.struct "B_".toList .nil ∈ nested_complex ex_A_nesting_B_ ∧
    normalize_dds_type_name "B_".toList = .ok "B".toList ∧
    "B".toList ∉ ex_cache_raw.keys ∧
    ex_cache_raw.keys = ["B_".toList, "A".toList] := by
  decide

/-- C7, amended: in every cache reached from the empty cache by successful
`assert_dds_type` and `assert_dds_topic` calls, every complex descriptor
nested in a node of the map is a key of the map under the key that `find`
and `insert` derive from its name for a `ros_type` value in use: its
canonical (normalised) name for `ros_type = true`, its raw name for
`ros_type = false`. -/
theorem reachable_nested_keys (options : TypeCacheOptions) (allowed : Bool → Prop)
    (c : TypeCache) (hr : Reachable options allowed c) :
    ∀ p ∈ c.tc_named_cache_, ∀ d ∈ nested_complex p.2,
      ∃ ros_type k, allowed ros_type ∧ key_of d ros_type = .ok k ∧ k ∈ c.keys := by
  induction hr with
  | empty => simp [TypeCache.empty]
  | assert_dds_type c c1 tc ros hint r _ hros h ih =>
    exact assert_typecode_nested_keys allowed hros ih h
  | assert_dds_topic c c2 topic tc ros hint r _ hros h ih =>
    obtain ⟨c1, r1, h1, hmap, _, _⟩ := assert_dds_topic_ok h
    have := assert_typecode_nested_keys allowed hros ih h1
    unfold TypeCache.keys at this ⊢
    rw [hmap]; exact this

theorem reachable_nested_keys_witness :
    Reachable {} (fun ros_type => ros_type = true) ex_cache_top_A ∧
    ∀ p ∈ ex_cache_top_A.tc_named_cache_, ∀ d ∈ nested_complex p.2,
      ∃ ros_type k, ros_type = true ∧ key_of d ros_type = .ok k ∧ k ∈ ex_cache_top_A.keys :=
  have hr : Reachable {} (fun ros_type => ros_type = true) ex_cache_top_A :=
    Reachable.assert_dds_type ex_empty ex_cache_top_A ex_top_A true []
      (true, [ex_N, ex_top_A], []) Reachable.empty rfl (by decide)
  ⟨hr, reachable_nested_keys {} (fun ros_type => ros_type = true) ex_cache_top_A hr⟩

/-- C8, the code at the failing input: `assert_dds_topic` of the non-ROS
struct `A_` on the empty cache succeeds, stores the type under the key `A_`
and binds the topic to `A`, which is not a key of the map. -/
theorem assert_dds_topic_type_not_a_key :
    (ex_empty.assert_dds_topic "t".toList ex_A_ false []).2 = .ok (true, true, [ex_A_], []) ∧
    (ex_empty.assert_dds_topic "t".toList ex_A_ false []).1.topics_cache_ =
      [("t".toList, "A".toList)] ∧
    (ex_empty.assert_dds_topic "t".toList ex_A_ false []).1.keys = ["A_".toList] ∧
    "A".toList ∉ (ex_empty.assert_dds_topic "t".toList ex_A_ false []).1.keys := by
  decide

/-- C9, as stated, fails also with `ros_type = true` throughout: in
`--mangle` mode, after `p::msg::dds::dds::T` and `p::msg::T` were asserted,
the keys `p::msg::dds::T` and `p::msg::T` are distinct and both normalise to
`p::msg::T`. The hint `p/msg/T` is the one the monitor computes for both
names. -/
theorem two_keys_same_canonical_name :
    demangle_dds_type_name "p::msg::dds::T".toList = .ok "p/msg/T".toList ∧
    (TypeCache.empty ex_mangle_options).assert_dds_type ex_dds_dds true "p/msg/T".toList =
      (ex_cache_dds_dds, .ok (true, [ex_dds_dds], [])) ∧
    ex_cache_dds_dds.assert_dds_type ex_T_demangled true "p/msg/T".toList =
      (ex_cache_two_keys, .ok (true, [ex_T_demangled], [])) ∧
    ex_cache_two_keys.keys = ["p::msg::dds::T".toList, "p::msg::T".toList] ∧
    "p::msg::dds::T".toList ≠ "p::msg::T".toList ∧
    normalize_dds_type_name "p::msg::dds::T".toList =
      normalize_dds_type_name "p::msg::T".toList := by
  decide

/-- C9, amended: in every cache reached from the empty cache by successful
assertions with `ros_type = true`, the keys are pairwise distinct and no two
entries of the map hold nodes whose names normalise to the same canonical
name. -/
theorem reachable_names_normalise_apart (options : TypeCacheOptions) (c : TypeCache)
    (hr : Reachable options (fun ros_type => ros_type = true) c) :
    c.keys.Nodup ∧
    ∀ (i j : Nat) (hi : i < c.tc_named_cache_.length) (hj : j < c.tc_named_cache_.length),
      i ≠ j → key_of c.tc_named_cache_[i].2 true ≠ key_of c.tc_named_cache_[j].2 true := by
  obtain ⟨hnodup, hkey⟩ := reachable_keys hr
  refine ⟨hnodup, ?_⟩
  intro i j hi hj hij heq
  obtain ⟨ri, hri, hki⟩ := hkey _ (List.getElem_mem hi)
  obtain ⟨rj, hrj, hkj⟩ := hkey _ (List.getElem_mem hj)
  subst hri hrj
  rw [hki, hkj] at heq
  have hfst : c.tc_named_cache_[i].1 = c.tc_named_cache_[j].1 := Except.ok.inj heq
  unfold TypeCache.keys at hnodup
  have hi' : i < (c.tc_named_cache_.map Prod.fst).length := by simpa using hi
  have hj' : j < (c.tc_named_cache_.map Prod.fst).length := by simpa using hj
  have : (c.tc_named_cache_.map Prod.fst)[i] = (c.tc_named_cache_.map Prod.fst)[j] := by
    simpa using hfst
  exact hij ((List.Nodup.getElem_inj_iff hnodup).mp this)

theorem reachable_names_normalise_apart_witness :
    Reachable ex_mangle_options (fun ros_type => ros_type = true) ex_cache_two_keys ∧
    ex_cache_two_keys.keys.Nodup ∧
    ∀ (i j : Nat) (hi : i < ex_cache_two_keys.tc_named_cache_.length)
      (hj : j < ex_cache_two_keys.tc_named_cache_.length),
      i ≠ j → key_of ex_cache_two_keys.tc_named_cache_[i].2 true ≠
        key_of ex_cache_two_keys.tc_named_cache_[j].2 true :=
  have hr : Reachable ex_mangle_options (fun ros_type => ros_type = true) ex_cache_two_keys :=
    Reachable.assert_dds_type ex_cache_dds_dds ex_cache_two_keys ex_T_demangled true
      "p/msg/T".toList (true, [ex_T_demangled], [])
      (Reachable.assert_dds_type (TypeCache.empty ex_mangle_options) ex_cache_dds_dds
        ex_dds_dds true "p/msg/T".toList (true, [ex_dds_dds], []) Reachable.empty rfl
        (by decide))
      rfl (by decide)
  ⟨hr, reachable_names_normalise_apart ex_mangle_options ex_cache_two_keys hr⟩

/-- C10, as stated, fails in its per-key form: in `--mangle` mode the
struct `p::msg::dds::dds::T` is stored under the key `p::msg::dds::T`; the
name of the node normalises to `p::msg::dds::T`, the key normalises to
`p::msg::T`. -/
theorem key_normalises_further_than_name :
    ("p::msg::dds::T".toList, ex_dds_dds) ∈ ex_cache_dds_dds.tc_named_cache_ ∧
    DDS_TypeCode_name ex_dds_dds = .ok "p::msg::dds::dds::T".toList ∧
    normalize_dds_type_name "p::msg::dds::dds::T".toList = .ok "p::msg::dds::T".toList ∧
    normalize_dds_type_name "p::msg::dds::T".toList = .ok "p::msg::T".toList ∧
    normalize_dds_type_name "p::msg::dds::dds::T".toList ≠
      normalize_dds_type_name "p::msg::dds::T".toList := by
  decide

/-- C10, amended: in every reachable cache every key of the map is the
cache key of its value (the normalised name of the node for an entry stored
with `ros_type = true`, its raw name for `ros_type = false`), and after a
successful assertion under the name `type_fqname` the lookup of that name
with the same `ros_type` returns a node whose name normalises to the
normalisation of `type_fqname`. -/
theorem reachable_key_is_name_key (options : TypeCacheOptions) (allowed : Bool → Prop)
    (c : TypeCache) (hr : Reachable options allowed c) :
    (∀ p ∈ c.tc_named_cache_, ∃ ros_type, allowed ros_type ∧ key_of p.2 ros_type = .ok p.1) ∧
    ∀ (tc : TypeCode) (ros_type : Bool) (demangled_ros_type : Name) (assert_tc : TypeCode)
      (type_fqname : Name) (c1 : TypeCache) (r : Bool × List TypeCode × List TypeCode),
      c.assert_form tc ros_type demangled_ros_type = .ok (assert_tc, type_fqname) →
      c.assert_dds_type tc ros_type demangled_ros_type = (c1, .ok r) →
      ∃ node node_name, c1.find type_fqname ros_type = .ok (some node) ∧
        DDS_TypeCode_name node = .ok node_name ∧
        normalize_dds_type_name node_name = normalize_dds_type_name type_fqname := by
  refine ⟨(reachable_keys hr).2, ?_⟩
  intro tc ros hint a n c1 r hform h
  obtain ⟨a', n', k, hform', hk, hcase⟩ := assert_typecode_ok h
  rw [hform] at hform'
  simp only [Except.ok.injEq, Prod.mk.injEq] at hform'
  obtain ⟨rfl, rfl⟩ := hform'
  have hname := assert_form_name hform
  rcases hcase with ⟨hl, rfl, _⟩ | ⟨hl, added, al, hmap, _, _, _, _, _, hadded, _⟩
  · exact ⟨a, n, (find_ok_iff _ _ _ _).mpr ⟨k, hk, hl⟩, hname, rfl⟩
  · cases hla : (c.tc_named_cache_ ++ added).lookup k with
    | none =>
      refine ⟨a, n, (find_ok_iff _ _ _ _).mpr ⟨k, hk, ?_⟩, hname, rfl⟩
      rw [hmap]
      unfold map_emplace
      rw [hla]
      simp only [Option.isSome_none, Bool.false_eq_true, if_false]
      rw [List.lookup_append, hla]
      simp
    | some v =>
      have hin : (k, v) ∈ added := by
        rw [List.lookup_append, hl, Option.none_or] at hla
        exact lookup_some_mem hla
      obtain ⟨_, hkv, _⟩ := hadded _ hin
      simp only at hkv
      unfold key_of at hkv
      cases hnv : DDS_TypeCode_name v with
      | error e => simp [hnv] at hkv
      | ok m =>
        simp only [hnv] at hkv
        refine ⟨v, m, (find_ok_iff _ _ _ _).mpr ⟨k, hk, ?_⟩, hnv, ?_⟩
        · rw [hmap]
          unfold map_emplace
          rw [hla]
          simp only [Option.isSome_some, if_true]
          exact hla
        · unfold cache_key at hkv hk
          cases ros with
          | true =>
            simp only [if_true] at hkv hk
            rw [hkv, hk]
          | false =>
            simp only [Bool.false_eq_true, if_false, Except.ok.injEq] at hkv hk
            rw [hkv, hk]

theorem reachable_key_is_name_key_witness :
    Reachable ex_mangle_options (fun ros_type => ros_type = true) ex_cache_dds_dds ∧
    (∀ p ∈ ex_cache_dds_dds.tc_named_cache_,
      ∃ ros_type, ros_type = true ∧ key_of p.2 ros_type = .ok p.1) ∧
    ∀ (tc : TypeCode) (ros_type : Bool) (demangled_ros_type : Name) (assert_tc : TypeCode)
      (type_fqname : Name) (c1 : TypeCache) (r : Bool × List TypeCode × List TypeCode),
      ex_cache_dds_dds.assert_form tc ros_type demangled_ros_type =
        .ok (assert_tc, type_fqname) →
      ex_cache_dds_dds.assert_dds_type tc ros_type demangled_ros_type = (c1, .ok r) →
      ∃ node node_name, c1.find type_fqname ros_type = .ok (some node) ∧
        DDS_TypeCode_name node = .ok node_name ∧
        normalize_dds_type_name node_name = normalize_dds_type_name type_fqname :=
  have hr : Reachable ex_mangle_options (fun ros_type => ros_type = true) ex_cache_dds_dds :=
    Reachable.assert_dds_type (TypeCache.empty ex_mangle_options) ex_cache_dds_dds
      ex_dds_dds true "p/msg/T".toList (true, [ex_dds_dds], []) Reachable.empty rfl
      (by decide)
  ⟨hr, reachable_key_is_name_key ex_mangle_options (fun ros_type => ros_type = true)
    ex_cache_dds_dds hr⟩

/-! ## Topic bindings and construction -/

/-- C11: topic binding is a partial function. With `X` normalising to `nx`:
on an unbound topic `insert_topic` returns `true` and binds the topic to
`nx`, changing nothing else; on a topic bound to `nx` it returns `false` and
leaves the cache unchanged; on a topic bound to another name it throws the
topic conflict (a throwing call leaves the cache as it was). -/
theorem insert_topic_binds_once (c : TypeCache) (topic X nx : Name)
    (hX : normalize_dds_type_name X = .ok nx) :
    (c.topics_cache_.lookup topic = none →
      c.insert_topic topic X =
          .ok ({ c with topics_cache_ := c.topics_cache_ ++ [(topic, nx)] }, true) ∧
        (c.topics_cache_ ++ [(topic, nx)]).lookup topic = some nx) ∧
    (c.topics_cache_.lookup topic = some nx → c.insert_topic topic X = .ok (c, false)) ∧
    (∀ bound, c.topics_cache_.lookup topic = some bound → bound ≠ nx →
      c.insert_topic topic X = .error (.topicConflict topic)) := by
  refine ⟨?_, ?_, ?_⟩
  · intro h
    refine ⟨by simp [TypeCache.insert_topic, hX, h], ?_⟩
    rw [List.lookup_append, h]
    simp
  · intro h
    simp [TypeCache.insert_topic, hX, h]
  · intro bound h hne
    simp only [TypeCache.insert_topic, hX, h]
    rw [if_pos (fun e => hne e.symm)]

theorem insert_topic_binds_once_witness :
    normalize_dds_type_name "ns::A_".toList = .ok "ns::A".toList ∧
    (ex_empty.topics_cache_.lookup "t".toList = none →
      ex_empty.insert_topic "t".toList "ns::A_".toList =
          .ok ({ ex_empty with
            topics_cache_ := ex_empty.topics_cache_ ++ [("t".toList, "ns::A".toList)] }, true) ∧
        (ex_empty.topics_cache_ ++ [("t".toList, "ns::A".toList)]).lookup "t".toList =
          some "ns::A".toList) ∧
    (ex_empty.topics_cache_.lookup "t".toList = some "ns::A".toList →
      ex_empty.insert_topic "t".toList "ns::A_".toList = .ok (ex_empty, false)) ∧
    (∀ bound, ex_empty.topics_cache_.lookup "t".toList = some bound → bound ≠ "ns::A".toList →
      ex_empty.insert_topic "t".toList "ns::A_".toList = .error (.topicConflict "t".toList)) :=
  ⟨by decide, insert_topic_binds_once ex_empty "t".toList "ns::A_".toList "ns::A".toList
    (by decide)⟩

/-- C12: the construction of a cache fails exactly when both compatibility
modes are set, or the cyclone mode is set without the basic mapping, or the
legacy mode is set without the extended mapping; a construction that does
not fail gives the empty cache with these options; the default options and
the basic mapping without compatibility mode are accepted. -/
theorem create_fails_iff (options : TypeCacheOptions) :
    ((∃ e, TypeCache.create options = .error e) ↔
      (options.cyclone_compatible = true ∧ options.legacy_rmw_compatible = true) ∨
      (options.cyclone_compatible = true ∧ options.request_reply_mapping ≠ .Basic) ∨
      (options.legacy_rmw_compatible = true ∧ options.request_reply_mapping ≠ .Extended)) ∧
    ((¬ ∃ e, TypeCache.create options = .error e) →
      TypeCache.create options = .ok (TypeCache.empty options)) ∧
    TypeCache.create {} = .ok (TypeCache.empty {}) ∧
    TypeCache.create { request_reply_mapping := .Basic } =
      .ok (TypeCache.empty { request_reply_mapping := .Basic }) := by
  obtain ⟨d, cy, le, m⟩ := options
  refine ⟨?_, ?_, by decide, by decide⟩
  · cases cy <;> cases le <;> cases m <;> simp [TypeCache.create]
  · cases cy <;> cases le <;> cases m <;> simp [TypeCache.create]

theorem create_fails_iff_witness :
    ∃ e, TypeCache.create { cyclone_compatible := true, legacy_rmw_compatible := true } =
      .error e :=
  (create_fails_iff { cyclone_compatible := true, legacy_rmw_compatible := true }).1.2
    (Or.inl ⟨rfl, rfl⟩)

/-! ## Text utilities: rewriting and searching through blocks -/

theorem regex_replace_aux_nil (pat rep : List Char) (k : Nat) :
    regex_replace_aux pat rep k [] = [] := by
  cases k <;> rfl

theorem regex_replace_aux_cons_zero (pat rep : List Char) (c : Char) (cs : List Char) :
    regex_replace_aux pat rep 0 (c :: cs) =
      if pat.isPrefixOf (c :: cs) then rep ++ regex_replace_aux pat rep (pat.length - 1) cs
      else c :: regex_replace_aux pat rep 0 cs := rfl

theorem regex_replace_aux_cons_succ (pat rep : List Char) (k : Nat) (c : Char)
    (cs : List Char) :
    regex_replace_aux pat rep (k + 1) (c :: cs) = regex_replace_aux pat rep k cs := rfl

theorem str_find_aux_cons (pat : List Char) (c : Char) (cs : List Char) (off : Nat) :
    str_find_aux pat (c :: cs) off =
      if pat.isPrefixOf (c :: cs) then some off else str_find_aux pat cs (off + 1) := rfl

theorem str_rfind_aux_cons (pat : List Char) (c : Char) (cs : List Char) (off : Nat) :
    str_rfind_aux pat (c :: cs) off =
      match str_rfind_aux pat cs (off + 1) with
      | some i => some i
      | none => if pat.isPrefixOf (c :: cs) then some off else none := rfl

theorem regex_replace_aux_skip (pat rep : List Char) :
    ∀ (A R : List Char),
      regex_replace_aux pat rep A.length (A ++ R) = regex_replace_aux pat rep 0 R
  | [], R => rfl
  | a :: A, R => by
    rw [List.length_cons, List.cons_append, regex_replace_aux_cons_succ]
    exact regex_replace_aux_skip pat rep A R

theorem regex_replace_aux_match (pat rep R : List Char) (hp : pat ≠ []) :
    regex_replace_aux pat rep 0 (pat ++ R) = rep ++ regex_replace_aux pat rep 0 R := by
  cases pat with
  | nil => exact absurd rfl hp
  | cons p ps =>
    have hpre : (p :: ps).isPrefixOf (p :: (ps ++ R)) = true := by
      rw [List.isPrefixOf_iff_prefix]
      exact List.prefix_append (p :: ps) R
    rw [List.cons_append, regex_replace_aux_cons_zero, if_pos hpre, List.length_cons,
      Nat.add_sub_cancel, regex_replace_aux_skip]

theorem regex_replace_aux_cons_nomatch (pat rep : List Char) (c : Char) (cs : List Char)
    (h : pat.isPrefixOf (c :: cs) = false) :
    regex_replace_aux pat rep 0 (c :: cs) = c :: regex_replace_aux pat rep 0 cs := by
  rw [regex_replace_aux_cons_zero, h]
  rfl

/-- No occurrence of `pat` starts inside the block `L` when `L` is followed
by `R`: the rewriting copies the block. -/
theorem regex_replace_aux_block (pat rep : List Char) :
    ∀ (L R : List Char), (∀ i, i < L.length → pat.isPrefixOf (L.drop i ++ R) = false) →
      regex_replace_aux pat rep 0 (L ++ R) = L ++ regex_replace_aux pat rep 0 R
  | [], R, _ => rfl
  | a :: L, R, h => by
    have h0 := h 0 (by simp)
    rw [List.drop_zero, List.cons_append] at h0
    rw [List.cons_append, regex_replace_aux_cons_nomatch pat rep a (L ++ R) h0,
      regex_replace_aux_block pat rep L R (fun i hi => by
        have := h (i + 1) (by simp; omega)
        simpa using this)]
    rfl

theorem str_find_aux_block (pat : List Char) :
    ∀ (L R : List Char) (off : Nat),
      (∀ i, i < L.length → pat.isPrefixOf (L.drop i ++ R) = false) →
      str_find_aux pat (L ++ R) off = str_find_aux pat R (off + L.length)
  | [], R, off, _ => rfl
  | a :: L, R, off, h => by
    have h0 := h 0 (by simp)
    rw [List.drop_zero, List.cons_append] at h0
    rw [List.cons_append, str_find_aux_cons, h0,
      str_find_aux_block pat L R (off + 1) (fun i hi => by
        have := h (i + 1) (by simp; omega)
        simpa using this)]
    simp only [Bool.false_eq_true, if_false, List.length_cons]
    congr 1; omega

theorem str_rfind_aux_block (pat : List Char) :
    ∀ (L R : List Char) (off : Nat),
      (∀ i, i < L.length → pat.isPrefixOf (L.drop i ++ R) = false) →
      str_rfind_aux pat (L ++ R) off = str_rfind_aux pat R (off + L.length)
  | [], R, off, _ => rfl
  | a :: L, R, off, h => by
    have h0 := h 0 (by simp)
    rw [List.drop_zero, List.cons_append] at h0
    have ih := str_rfind_aux_block pat L R (off + 1) (fun i hi => by
        have := h (i + 1) (by simp; omega)
        simpa using this)
    have e : off + 1 + L.length = off + (a :: L).length := by simp; omega
    rw [List.cons_append, str_rfind_aux_cons, h0, ih, e]
    cases str_rfind_aux pat R (off + (a :: L).length) <;> rfl

/-- A block free of the first character of the pattern holds no start of an
occurrence. -/
theorem no_start_of_not_mem (p : Char) (ps L R : List Char) (hL : p ∉ L) :
    ∀ i, i < L.length → (p :: ps).isPrefixOf (L.drop i ++ R) = false := by
  intro i hi
  have hd : L.drop i = L[i] :: L.drop (i + 1) := List.drop_eq_getElem_cons hi
  rw [hd, List.cons_append]
  have hne : p ≠ L[i] := fun e => hL (e ▸ List.getElem_mem hi)
  simp [List.isPrefixOf, hne]
/-! ## Text utilities: what the searches find -/

theorem str_find_aux_some (pat : List Char) :
    ∀ (s : List Char) (off i : Nat), str_find_aux pat s off = some i →
      ∃ k, i = off + k ∧ k < s.length ∧ pat.isPrefixOf (s.drop k) = true ∧
        ∀ j, j < k → pat.isPrefixOf (s.drop j) = false
  | [], off, i, h => by simp [str_find_aux] at h
  | c :: cs, off, i, h => by
    rw [str_find_aux_cons] at h
    by_cases hp : pat.isPrefixOf (c :: cs) = true
    · rw [if_pos hp] at h
      cases h
      exact ⟨0, rfl, by simp, by simpa using hp, by intro j hj; omega⟩
    · rw [if_neg hp] at h
      obtain ⟨k, hk, hlt, hpre, hmin⟩ := str_find_aux_some pat cs (off + 1) i h
      refine ⟨k + 1, by omega, by simp; omega, by simpa using hpre, ?_⟩
      intro j hj
      cases j with
      | zero => exact (Bool.not_eq_true _).mp hp
      | succ j => simpa using hmin j (by omega)

theorem str_find_aux_none (pat : List Char) :
    ∀ (s : List Char) (off : Nat), str_find_aux pat s off = none →
      ∀ j, j < s.length → pat.isPrefixOf (s.drop j) = false
  | [], off, _, j, hj => by simp at hj
  | c :: cs, off, h, j, hj => by
    rw [str_find_aux_cons] at h
    by_cases hp : pat.isPrefixOf (c :: cs) = true
    · rw [if_pos hp] at h; cases h
    · rw [if_neg hp] at h
      cases j with
      | zero => exact (Bool.not_eq_true _).mp hp
      | succ j =>
        simpa using str_find_aux_none pat cs (off + 1) h j (by simpa using hj)

theorem str_rfind_aux_none (pat : List Char) :
    ∀ (s : List Char) (off : Nat), str_rfind_aux pat s off = none →
      ∀ j, j < s.length → pat.isPrefixOf (s.drop j) = false
  | [], off, _, j, hj => by simp at hj
  | c :: cs, off, h, j, hj => by
    rw [str_rfind_aux_cons] at h
    cases hr : str_rfind_aux pat cs (off + 1) with
    | some i => rw [hr] at h; cases h
    | none =>
      rw [hr] at h
      by_cases hp : pat.isPrefixOf (c :: cs) = true
      · simp [hp] at h
      · cases j with
        | zero => exact (Bool.not_eq_true _).mp hp
        | succ j =>
          simpa using str_rfind_aux_none pat cs (off + 1) hr j (by simpa using hj)

theorem str_rfind_aux_some (pat : List Char) :
    ∀ (s : List Char) (off i : Nat), str_rfind_aux pat s off = some i →
      ∃ k, i = off + k ∧ k < s.length ∧ pat.isPrefixOf (s.drop k) = true ∧
        ∀ j, k < j → j < s.length → pat.isPrefixOf (s.drop j) = false
  | [], off, i, h => by simp [str_rfind_aux] at h
  | c :: cs, off, i, h => by
    rw [str_rfind_aux_cons] at h
    cases hr : str_rfind_aux pat cs (off + 1) with
    | some i' =>
      rw [hr] at h
      cases h
      obtain ⟨k, hk, hlt, hpre, hmax⟩ := str_rfind_aux_some pat cs (off + 1) _ hr
      refine ⟨k + 1, by omega, by simp; omega, by simpa using hpre, ?_⟩
      intro j hj hjl
      cases j with
      | zero => omega
      | succ j => simpa using hmax j (by omega) (by simpa using hjl)
    | none =>
      rw [hr] at h
      by_cases hp : pat.isPrefixOf (c :: cs) = true
      · simp only [hp, if_true, Option.some.injEq] at h
        subst h
        refine ⟨0, rfl, by simp, by simpa using hp, ?_⟩
        intro j hj hjl
        cases j with
        | zero => omega
        | succ j =>
          simpa using str_rfind_aux_none pat cs (off + 1) hr j (by simpa using hjl)
      · simp [hp] at h

/-- An occurrence at `j` makes the backward search succeed at `j` or
further right. -/
theorem str_rfind_aux_of_occurrence (pat s : List Char) (off j : Nat) (hj : j < s.length)
    (hpre : pat.isPrefixOf (s.drop j) = true) :
    ∃ k, str_rfind_aux pat s off = some (off + k) ∧ j ≤ k ∧ k < s.length ∧
      pat.isPrefixOf (s.drop k) = true := by
  cases hr : str_rfind_aux pat s off with
  | none =>
    have := str_rfind_aux_none pat s off hr j hj
    rw [this] at hpre; cases hpre
  | some i =>
    obtain ⟨k, hk, hlt, hp, hmax⟩ := str_rfind_aux_some pat s off i hr
    refine ⟨k, by rw [hk], ?_, hlt, hp⟩
    by_contra hlt'
    have := hmax j (by omega) hj
    rw [this] at hpre; cases hpre

theorem isPrefixOf_drop_of_eq {pat s A B : List Char} (h : s = A ++ pat ++ B) :
    pat.isPrefixOf (s.drop A.length) = true := by
  rw [h, List.append_assoc, List.drop_left, List.isPrefixOf_iff_prefix]
  exact List.prefix_append pat B

theorem eq_of_isPrefixOf_drop {pat s : List Char} {j : Nat}
    (h : pat.isPrefixOf (s.drop j) = true) :
    ∃ B, s = s.take j ++ pat ++ B := by
  obtain ⟨B, hB⟩ := List.isPrefixOf_iff_prefix.mp h
  refine ⟨B, ?_⟩
  rw [List.append_assoc, hB, List.take_append_drop]

theorem lt_length_of_isPrefixOf_drop {pat s : List Char} {j : Nat} (hp : pat ≠ [])
    (h : pat.isPrefixOf (s.drop j) = true) : j < s.length := by
  by_contra hge
  have : s.drop j = [] := List.drop_eq_nil_of_le (by omega)
  rw [this] at h
  cases pat with
  | nil => exact hp rfl
  | cons p ps => simp [List.isPrefixOf] at h
/-! ## Normalisation -/

theorem regex_replace_aux_eq_spec (pat rep : List Char) (hp : pat ≠ []) :
    ∀ (n : Nat) (s : List Char), s.length = n →
      regex_replace_aux pat rep 0 s = spec_replace_every pat rep s := by
  intro n
  induction n using Nat.strong_induction_on with
  | _ n ih =>
    intro s hs
    rw [spec_replace_every]
    by_cases hpre : pat.isPrefixOf s = true
    · rw [dif_pos ⟨hp, hpre⟩]
      obtain ⟨R, hR⟩ := List.isPrefixOf_iff_prefix.mp hpre
      have hdrop : s.drop pat.length = R := by rw [← hR, List.drop_left]
      have hlen : R.length < n := by
        have : 0 < pat.length := List.length_pos.mpr hp
        rw [← hs, ← hR, List.length_append]; omega
      rw [hdrop, ← ih R.length hlen R rfl, ← hR, regex_replace_aux_match pat rep R hp]
    · rw [dif_neg (fun h => hpre h.2)]
      cases s with
      | nil => rfl
      | cons c cs =>
        have hlen : cs.length < n := by rw [← hs]; simp
        rw [regex_replace_aux_cons_nomatch pat rep c cs ((Bool.not_eq_true _).mp hpre),
          ih cs.length hlen cs rfl]

theorem strip_trailing_underscore_eq_spec (s : List Char) :
    strip_trailing_underscore s = spec_remove_trailing_underscore s := by
  unfold strip_trailing_underscore spec_remove_trailing_underscore
  rcases List.eq_nil_or_concat s with rfl | ⟨L, a, rfl⟩
  · rfl
  · by_cases ha : a = '_'
    · subst ha
      simp
    · have hne : ¬ (some a = some '_') := fun h => ha (Option.some.inj h)
      simp only [List.concat_eq_append]
      rw [List.getLast?_concat, if_neg hne]
      simp only [List.reverse_append, List.reverse_cons, List.reverse_nil, List.nil_append,
        List.singleton_append]
      split
      · rename_i rest heq
        simp only [List.cons.injEq] at heq
        exact absurd heq.1 ha
      · rfl

/-- C13: for every non-empty name `normalize_dds_type_name` returns what the
four steps of the specification give when applied in its order (every `__`
becomes `::`, one trailing `_` is removed, every `::dds_::` becomes
`::dds::`, every `::dds::` becomes `::`); e.g. `std_msgs::msg::dds_::String_`
normalises to `std_msgs::msg::String`. -/
theorem normalize_dds_type_name_eq_spec (name : Name) (hne : name ≠ []) :
    normalize_dds_type_name name = .ok (spec_normalise name) ∧
    normalize_dds_type_name "std_msgs::msg::dds_::String_".toList =
      .ok "std_msgs::msg::String".toList := by
  refine ⟨?_, by decide⟩
  have hlen : ¬ (name.length = 0) := fun h => hne (List.length_eq_zero.mp h)
  unfold normalize_dds_type_name spec_normalise regex_replace_lit
  rw [if_neg hlen]
  rw [regex_replace_aux_eq_spec _ _ (by decide) _ _ rfl,
    regex_replace_aux_eq_spec _ _ (by decide) _ _ rfl,
    regex_replace_aux_eq_spec _ _ (by decide) _ _ rfl,
    strip_trailing_underscore_eq_spec]

theorem normalize_dds_type_name_eq_spec_witness :
    "a__b::dds_::C_".toList ≠ [] ∧
    (normalize_dds_type_name "a__b::dds_::C_".toList =
        .ok (spec_normalise "a__b::dds_::C_".toList) ∧
      normalize_dds_type_name "std_msgs::msg::dds_::String_".toList =
        .ok "std_msgs::msg::String".toList) :=
  ⟨by decide, normalize_dds_type_name_eq_spec "a__b::dds_::C_".toList (by decide)⟩

theorem regex_replace_aux_ne_nil (pat rep s : List Char) (hs : s ≠ []) (hr : rep ≠ []) :
    regex_replace_aux pat rep 0 s ≠ [] := by
  cases s with
  | nil => exact absurd rfl hs
  | cons c cs =>
    rw [regex_replace_aux_cons_zero]
    split
    · intro h
      exact hr (List.append_eq_nil.mp h).1
    · simp

theorem strip_trailing_underscore_eq_nil (s : List Char)
    (h : strip_trailing_underscore s = []) : s = [] ∨ s = ['_'] := by
  unfold strip_trailing_underscore at h
  rcases List.eq_nil_or_concat s with rfl | ⟨L, a, rfl⟩
  · left; rfl
  · right
    by_cases ha : a = '_'
    · subst ha
      simp at h
      subst h; rfl
    · have hne : ¬ (some a = some '_') := fun h => ha (Option.some.inj h)
      simp [hne] at h

theorem regex_replace_dunder_eq_single (rep n : List Char) (hrep : rep.head? ≠ some '_')
    (hr : rep ≠ [])
    (h : regex_replace_aux "__".toList rep 0 n = ['_']) : n = ['_'] := by
  cases n with
  | nil => simp [regex_replace_aux] at h
  | cons c cs =>
    rw [regex_replace_aux_cons_zero] at h
    split at h
    · exfalso
      cases rep with
      | nil => exact hr rfl
      | cons r rs =>
        simp only [List.cons_append, List.cons.injEq] at h
        exact hrep (by simp [h.1])
    · simp only [List.cons.injEq] at h
      obtain ⟨rfl, h2⟩ := h
      cases cs with
      | nil => rfl
      | cons d ds => exact absurd h2 (regex_replace_aux_ne_nil _ _ _ (by simp) hr)

/-- C14, as stated, fails: the non-empty name `_` normalises to the empty
string. -/
theorem normalize_underscore_is_empty :
    "_".toList ≠ [] ∧ normalize_dds_type_name "_".toList = .ok [] := by
  decide

/-- C14, amended: `normalize_dds_type_name` throws exactly when its input is
the empty string; for every non-empty input other than `_` it returns a
non-empty string, and `_` normalises to the empty string. -/
theorem normalize_dds_type_name_fails_iff (name : Name) :
    ((∃ e, normalize_dds_type_name name = .error e) ↔ name = []) ∧
    (name ≠ [] → name ≠ ['_'] →
      ∃ r, normalize_dds_type_name name = .ok r ∧ r ≠ []) ∧
    normalize_dds_type_name ['_'] = .ok [] := by
  refine ⟨?_, ?_, by decide⟩
  · unfold normalize_dds_type_name
    constructor
    · rintro ⟨e, he⟩
      by_cases hl : name.length = 0
      · exact List.length_eq_zero.mp hl
      · rw [if_neg hl] at he; cases he
    · rintro rfl
      exact ⟨_, rfl⟩
  · intro hne hnu
    have hlen : ¬ (name.length = 0) := fun h => hne (List.length_eq_zero.mp h)
    unfold normalize_dds_type_name regex_replace_lit
    rw [if_neg hlen]
    refine ⟨_, rfl, ?_⟩
    apply regex_replace_aux_ne_nil _ _ _ _ (by decide)
    apply regex_replace_aux_ne_nil _ _ _ _ (by decide)
    intro hstrip
    rcases strip_trailing_underscore_eq_nil _ hstrip with h | h
    · exact regex_replace_aux_ne_nil _ _ _ hne (by decide) h
    · exact hnu (regex_replace_dunder_eq_single _ _ (by decide) (by decide) h)

theorem normalize_dds_type_name_fails_iff_witness :
    "a_".toList ≠ [] ∧ "a_".toList ≠ ['_'] ∧
    ∃ r, normalize_dds_type_name "a_".toList = .ok r ∧ r ≠ [] :=
  ⟨by decide, by decide,
    (normalize_dds_type_name_fails_iff "a_".toList).2.1 (by decide) (by decide)⟩
/-! ## Text utilities: more on searching and on `__` -/

theorem str_rfind_aux_append_some (pat : List Char) :
    ∀ (L R : List Char) (off i : Nat), str_rfind_aux pat R (off + L.length) = some i →
      str_rfind_aux pat (L ++ R) off = some i
  | [], R, off, i, h => by simpa using h
  | a :: L, R, off, i, h => by
    have e : off + (a :: L).length = off + 1 + L.length := by simp; omega
    rw [e] at h
    rw [List.cons_append, str_rfind_aux_cons, str_rfind_aux_append_some pat L R (off + 1) i h]

theorem str_rfind_aux_not_mem (p : Char) (ps s : List Char) (off : Nat) (h : p ∉ s) :
    str_rfind_aux (p :: ps) s off = none := by
  have := str_rfind_aux_block (p :: ps) s [] off (no_start_of_not_mem p ps s [] h)
  rw [List.append_nil] at this
  rw [this]; rfl

theorem str_find_aux_not_mem (p : Char) (ps s : List Char) (off : Nat) (h : p ∉ s) :
    str_find_aux (p :: ps) s off = none := by
  have := str_find_aux_block (p :: ps) s [] off (no_start_of_not_mem p ps s [] h)
  rw [List.append_nil] at this
  rw [this]; rfl

theorem regex_replace_aux_not_mem (p : Char) (ps rep s : List Char) (h : p ∉ s) :
    regex_replace_aux (p :: ps) rep 0 s = s := by
  have := regex_replace_aux_block (p :: ps) rep s [] (no_start_of_not_mem p ps s [] h)
  rw [List.append_nil] at this
  rw [this, regex_replace_aux_nil, List.append_nil]

/-- The search for a pattern at the head of the text it is run on. -/
theorem str_find_aux_head (pat R : List Char) (off : Nat) (hp : pat ≠ []) :
    str_find_aux pat (pat ++ R) off = some off := by
  cases pat with
  | nil => exact absurd rfl hp
  | cons p ps =>
    have hpre : (p :: ps).isPrefixOf (p :: (ps ++ R)) = true := by
      rw [List.isPrefixOf_iff_prefix]
      exact List.prefix_append (p :: ps) R
    rw [List.cons_append, str_find_aux_cons, if_pos hpre]

/-- The backward search on a text that starts with the pattern and holds no
later occurrence. -/
theorem str_rfind_aux_head (pat R : List Char) (off : Nat) (hp : pat ≠ [])
    (hlater : str_rfind_aux pat (pat ++ R).tail (off + 1) = none) :
    str_rfind_aux pat (pat ++ R) off = some off := by
  cases pat with
  | nil => exact absurd rfl hp
  | cons p ps =>
    have hpre : (p :: ps).isPrefixOf (p :: (ps ++ R)) = true := by
      rw [List.isPrefixOf_iff_prefix]
      exact List.prefix_append (p :: ps) R
    rw [List.cons_append] at hlater ⊢
    rw [List.tail_cons] at hlater
    rw [str_rfind_aux_cons, hlater, if_pos hpre]

theorem has_double_underscore_no_start :
    ∀ (s : List Char), has_double_underscore s = false →
      ∀ i, i < s.length → ['_', '_'].isPrefixOf (s.drop i ++ []) = false
  | [], _, i, hi => by simp at hi
  | [a], _, i, hi => by
    have : i = 0 := by simpa using hi
    subst this
    simp [List.isPrefixOf]
  | a :: b :: rest, h, i, hi => by
    simp only [has_double_underscore, Bool.or_eq_false_iff, Bool.and_eq_false_iff] at h
    cases i with
    | zero =>
      simp only [List.drop_zero, List.append_nil, List.isPrefixOf, Bool.and_true,
        Bool.and_eq_false_iff]
      rcases h.1 with h1 | h1
      · left; exact beq_false_of_ne (fun e => (ne_of_beq_false h1) e.symm)
      · right; exact beq_false_of_ne (fun e => (ne_of_beq_false h1) e.symm)
    | succ i =>
      have := has_double_underscore_no_start (b :: rest) h.2 i (by simpa using hi)
      simpa using this

theorem regex_replace_dunder_id (rep s : List Char) (h : has_double_underscore s = false) :
    regex_replace_aux ['_', '_'] rep 0 s = s := by
  have := regex_replace_aux_block ['_', '_'] rep s [] (has_double_underscore_no_start s h)
  rw [List.append_nil] at this
  rw [this, regex_replace_aux_nil, List.append_nil]

theorem has_double_underscore_append_sep (c : Char) (hc : c ≠ '_') :
    ∀ (A B : List Char),
      has_double_underscore (A ++ c :: B) =
        (has_double_underscore A || has_double_underscore B)
  | [], B => by
    cases B with
    | nil => rfl
    | cons b B => simp [has_double_underscore, hc]
  | [a], B => by
    simp only [List.singleton_append, has_double_underscore, Bool.false_or]
    have := has_double_underscore_append_sep c hc [] B
    simp only [List.nil_append] at this
    rw [this]
    simp [has_double_underscore, hc]
  | a :: b :: A, B => by
    have := has_double_underscore_append_sep c hc (b :: A) B
    simp only [List.cons_append] at this ⊢
    simp only [has_double_underscore, this, Bool.or_assoc]

theorem has_double_underscore_snoc :
    ∀ (T : List Char),
      has_double_underscore (T ++ ['_']) =
        (has_double_underscore T || (T.getLast? == some '_'))
  | [] => rfl
  | [a] => by
    by_cases h : a = '_'
    · subst h; rfl
    · simp [has_double_underscore, h]
  | a :: b :: T => by
    have := has_double_underscore_snoc (b :: T)
    simp only [List.cons_append] at this ⊢
    simp only [has_double_underscore, this, List.getLast?_cons_cons, Bool.or_assoc]

theorem strip_trailing_underscore_snoc (T : List Char) :
    strip_trailing_underscore (T ++ ['_']) = T := by
  simp [strip_trailing_underscore]

theorem strip_trailing_underscore_id (s : List Char) (h : s.getLast? ≠ some '_') :
    strip_trailing_underscore s = s := by
  simp [strip_trailing_underscore, h]
/-! ## Parsing ROS type names -/

theorem ros_norm_fqname_plain (name : Name) (hdu : has_double_underscore name = false)
    (hlast : name.getLast? ≠ some '_') : ros_norm_fqname name = name := by
  unfold ros_norm_fqname regex_replace_lit
  have e : "__".toList = ['_', '_'] := rfl
  rw [e, regex_replace_dunder_id _ _ hdu, strip_trailing_underscore_id _ hlast]

theorem parse_ros_type_name_unfold (name : Name) :
    parse_ros_type_name name =
      match str_rfind (ros_norm_fqname name) ['/'], str_find (ros_norm_fqname name) ['/'] 0 with
      | some sep_position_back, some sep_position_front =>
        if sep_position_back = 0 ∨ sep_position_back = (ros_norm_fqname name).length - 1 then
          .error (.invalidName name)
        else
          .ok (substr name 0 sep_position_front,
            if sep_position_back - sep_position_front > 0 then
              substr name (sep_position_front + 1) (sep_position_back - sep_position_front - 1)
            else [],
            name.drop (sep_position_back + 1))
      | _, _ => .error (.invalidName name) := rfl

/-- A name `P/Mid/T` that the rewriting leaves alone is parsed into its
parts: the package is the first segment, the type the last one, the middle
everything between the first and the last separator. -/
theorem parse_ros_type_name_plain (P Mid T : Name) (hP : '/' ∉ P) (hT : '/' ∉ T)
    (hTne : T ≠ [])
    (hdu : has_double_underscore (P ++ '/' :: (Mid ++ '/' :: T)) = false)
    (hlast : (P ++ '/' :: (Mid ++ '/' :: T)).getLast? ≠ some '_') :
    parse_ros_type_name (P ++ '/' :: (Mid ++ '/' :: T)) = .ok (P, Mid, T) := by
  have hr : str_rfind (P ++ '/' :: (Mid ++ '/' :: T)) ['/'] = some (P.length + 1 + Mid.length) := by
    unfold str_rfind
    have hsplit : P ++ '/' :: (Mid ++ '/' :: T) = (P ++ '/' :: Mid) ++ (['/'] ++ T) := by simp
    rw [hsplit]
    apply str_rfind_aux_append_some
    have hl : 0 + (P ++ '/' :: Mid).length = P.length + 1 + Mid.length := by simp; omega
    rw [hl]
    apply str_rfind_aux_head _ _ _ (by simp)
    simpa using str_rfind_aux_not_mem '/' [] T _ hT
  have hf : str_find (P ++ '/' :: (Mid ++ '/' :: T)) ['/'] 0 = some P.length := by
    unfold str_find
    rw [List.drop_zero, str_find_aux_block ['/'] P _ 0 (no_start_of_not_mem '/' [] P _ hP)]
    have := str_find_aux_head ['/'] (Mid ++ '/' :: T) (0 + P.length) (by simp)
    simpa using this
  have hTlen : 0 < T.length := List.length_pos.mpr hTne
  rw [parse_ros_type_name_unfold, ros_norm_fqname_plain _ hdu hlast, hr, hf]
  simp only []
  have hcond : ¬ (P.length + 1 + Mid.length = 0 ∨
      P.length + 1 + Mid.length = (P ++ '/' :: (Mid ++ '/' :: T)).length - 1) := by
    simp only [List.length_append, List.length_cons]
    omega
  rw [if_neg hcond]
  have hpos : P.length + 1 + Mid.length - P.length > 0 := by omega
  rw [if_pos hpos]
  have h1 : substr (P ++ '/' :: (Mid ++ '/' :: T)) 0 P.length = P := by
    simp [substr]
  have h2 : substr (P ++ '/' :: (Mid ++ '/' :: T)) (P.length + 1)
      (P.length + 1 + Mid.length - P.length - 1) = Mid := by
    have e : P.length + 1 + Mid.length - P.length - 1 = Mid.length := by omega
    rw [e]
    unfold substr
    rw [List.drop_append]
    simp
  have h3 : (P ++ '/' :: (Mid ++ '/' :: T)).drop (P.length + 1 + Mid.length + 1) = T := by
    have e : P.length + 1 + Mid.length + 1 = P.length + (1 + (Mid.length + 1)) := by omega
    rw [e, List.drop_append]
    have e2 : 1 + (Mid.length + 1) = (Mid.length + 1) + 1 := by omega
    rw [e2, List.drop_succ_cons]
    have : Mid ++ '/' :: T = (Mid ++ ['/']) ++ T := by simp
    rw [this]
    have e3 : Mid.length + 1 = (Mid ++ ['/']).length := by simp
    rw [e3, List.drop_left]
  rw [h1, h2, h3]

/-- A name `P/T` with a single separator that the rewriting leaves alone is
accepted with an empty middle. -/
theorem parse_ros_type_name_single (P T : Name) (hP : '/' ∉ P) (hT : '/' ∉ T)
    (hPne : P ≠ []) (hTne : T ≠ [])
    (hdu : has_double_underscore (P ++ '/' :: T) = false)
    (hlast : (P ++ '/' :: T).getLast? ≠ some '_') :
    parse_ros_type_name (P ++ '/' :: T) = .ok (P, [], T) := by
  have hr : str_rfind (P ++ '/' :: T) ['/'] = some P.length := by
    unfold str_rfind
    have hsplit : P ++ '/' :: T = P ++ (['/'] ++ T) := by simp
    rw [hsplit]
    apply str_rfind_aux_append_some
    have hl : 0 + P.length = P.length := by omega
    rw [hl]
    apply str_rfind_aux_head _ _ _ (by simp)
    simpa using str_rfind_aux_not_mem '/' [] T _ hT
  have hf : str_find (P ++ '/' :: T) ['/'] 0 = some P.length := by
    unfold str_find
    rw [List.drop_zero, str_find_aux_block ['/'] P _ 0 (no_start_of_not_mem '/' [] P _ hP)]
    have := str_find_aux_head ['/'] T (0 + P.length) (by simp)
    simpa using this
  have hPlen : 0 < P.length := List.length_pos.mpr hPne
  have hTlen : 0 < T.length := List.length_pos.mpr hTne
  rw [parse_ros_type_name_unfold, ros_norm_fqname_plain _ hdu hlast, hr, hf]
  simp only []
  have hcond : ¬ (P.length = 0 ∨ P.length = (P ++ '/' :: T).length - 1) := by
    simp only [List.length_append, List.length_cons]
    omega
  rw [if_neg hcond]
  have hpos : ¬ (P.length - P.length > 0) := by omega
  rw [if_neg hpos]
  have h1 : substr (P ++ '/' :: T) 0 P.length = P := by simp [substr]
  have h3 : (P ++ '/' :: T).drop (P.length + 1) = T := by
    rw [List.drop_append]; rfl
  rw [h1, h3]

/-- C15, the code at the failing inputs: the separators are located in the
rewritten copy of the name and the parts are cut out of the name itself, so
`pkg__msg__T` (rewritten to `pkg/msg/T`) is parsed into `pkg`, `_ms`, `__T`,
and `pkg/msg/T_` (rewritten to `pkg/msg/T`) keeps the type `T_`. -/
theorem parse_ros_type_name_cuts_original :
    ros_norm_fqname "pkg__msg__T".toList = "pkg/msg/T".toList ∧
    parse_ros_type_name "pkg__msg__T".toList =
      .ok ("pkg".toList, "_ms".toList, "__T".toList) ∧
    ros_norm_fqname "pkg/msg/T_".toList = "pkg/msg/T".toList ∧
    parse_ros_type_name "pkg/msg/T_".toList =
      .ok ("pkg".toList, "msg".toList, "T_".toList) ∧
    parse_ros_type_name "pkg/msg/T".toList = .ok ("pkg".toList, "msg".toList, "T".toList) := by
  decide

/-- C16, as stated, fails: `pkg/Type` holds a single separator and is
accepted, with an empty middle. -/
theorem parse_ros_type_name_single_separator_accepted :
    parse_ros_type_name "pkg/Type".toList = .ok ("pkg".toList, [], "Type".toList) := by
  decide

/-- C16, amended: `parse_ros_type_name` throws the invalid-name error for
every name whose rewritten form (every `__` replaced by `/`, one trailing `_`
dropped) holds no `/`, for every name whose rewritten form ends in `/` (empty
last segment) and for every name whose rewritten form has its only `/` as
first character; a name `P/T` with a single separator and non-empty
segments, which the rewriting leaves alone, is accepted with an empty
middle. -/
theorem parse_ros_type_name_fails (name : Name) :
    ('/' ∉ ros_norm_fqname name → parse_ros_type_name name = .error (.invalidName name)) ∧
    ((ros_norm_fqname name).getLast? = some '/' →
      parse_ros_type_name name = .error (.invalidName name)) ∧
    (∀ rest, ros_norm_fqname name = '/' :: rest → '/' ∉ rest →
      parse_ros_type_name name = .error (.invalidName name)) ∧
    (∀ P T : Name, name = P ++ '/' :: T → '/' ∉ P → '/' ∉ T → P ≠ [] → T ≠ [] →
      has_double_underscore name = false → name.getLast? ≠ some '_' →
      parse_ros_type_name name = .ok (P, [], T)) := by
  refine ⟨?_, ?_, ?_, ?_⟩
  · intro h
    rw [parse_ros_type_name_unfold]
    have : str_rfind (ros_norm_fqname name) ['/'] = none :=
      str_rfind_aux_not_mem '/' [] _ 0 h
    rw [this]
  · intro h
    rw [parse_ros_type_name_unfold]
    obtain ⟨L, hL⟩ : ∃ L, ros_norm_fqname name = L ++ ['/'] := by
      rcases List.eq_nil_or_concat (ros_norm_fqname name) with h0 | ⟨L, a, h1⟩
      · rw [h0] at h; simp at h
      · rw [h1, List.concat_eq_append, List.getLast?_concat] at h
        cases h
        exact ⟨L, by rw [h1, List.concat_eq_append]⟩
    have hr : str_rfind (ros_norm_fqname name) ['/'] = some L.length := by
      unfold str_rfind
      rw [hL]
      apply str_rfind_aux_append_some
      have hl : 0 + L.length = L.length := by omega
      rw [hl]
      rfl
    rw [hr]
    cases str_find (ros_norm_fqname name) ['/'] 0 with
    | none => rfl
    | some f =>
      simp only []
      rw [if_pos]
      right
      rw [hL]; simp
  · intro rest hrest hnot
    rw [parse_ros_type_name_unfold]
    have hr : str_rfind (ros_norm_fqname name) ['/'] = some 0 := by
      unfold str_rfind
      rw [hrest]
      have := str_rfind_aux_head ['/'] rest 0 (by simp)
        (by simpa using str_rfind_aux_not_mem '/' [] rest _ hnot)
      simpa using this
    rw [hr]
    cases str_find (ros_norm_fqname name) ['/'] 0 with
    | none => rfl
    | some f =>
      simp only []
      rw [if_pos (Or.inl trivial)]
  · intro P T hname hP hT hPne hTne hdu hlast
    subst hname
    exact parse_ros_type_name_single P T hP hT hPne hTne hdu hlast

theorem parse_ros_type_name_fails_witness :
    '/' ∉ ros_norm_fqname "Type".toList ∧
    parse_ros_type_name "Type".toList = .error (.invalidName "Type".toList) :=
  ⟨by decide, (parse_ros_type_name_fails "Type".toList).1 (by decide)⟩
/-! ## Demangling: the names that are refused -/

theorem occurs_of_isPrefixOf_drop {pat s : List Char} {j : Nat}
    (h : pat.isPrefixOf (s.drop j) = true) : pat <:+: s := by
  obtain ⟨B, hB⟩ := eq_of_isPrefixOf_drop h
  exact ⟨s.take j, B, hB.symm⟩

theorem count_ns_seps_ge (s : Name) :
    ∀ (fuel : Nat) (o : Option Nat) (c : Nat), c ≤ count_ns_seps s fuel o c
  | 0, _, c => by simp [count_ns_seps]
  | _ + 1, none, c => by simp [count_ns_seps]
  | fuel + 1, some p, c => by
    have := count_ns_seps_ge s fuel (str_find s "::".toList (p + 2)) (c + 1)
    simp only [count_ns_seps]
    omega

theorem str_find_drop (s pat A R : List Char) (pos : Nat) (hs : s = A ++ R)
    (hpos : pos = A.length) : str_find s pat pos = str_find_aux pat R pos := by
  unfold str_find
  rw [hs, hpos, List.drop_left]

/-- The test at the head of `demangle_dds_type_name` succeeds on names of the
canonical form only. -/
theorem canonical_of_test (name : Name)
    (hcount : count_ns_seps name (name.length + 1) (str_find name "::".toList 0) 0 = 2)
    (hpre : "::msg::".toList.isPrefixOf (name.drop ((str_find name "::".toList 0).getD 0)) = true ∨
      "::srv::".toList.isPrefixOf (name.drop ((str_find name "::".toList 0).getD 0)) = true) :
    CanonicalForm name := by
  cases hf : str_find name "::".toList 0 with
  | none =>
    rw [hf] at hcount
    simp [count_ns_seps] at hcount
  | some p =>
    rw [hf] at hcount hpre
    simp only [Option.getD_some] at hpre
    obtain ⟨k, hk, hklt, _, hmin⟩ := str_find_aux_some _ _ _ _ hf
    simp only [List.drop_zero, Nat.zero_add] at hk hklt hmin
    subst hk
    -- the text behind the first separator
    have hshape : ∃ mid : List Char, (mid = "msg".toList ∨ mid = "srv".toList) ∧
        ∃ T, name = name.take p ++ (':' :: ':' :: (mid ++ ':' :: ':' :: T)) := by
      rcases hpre with h | h
      · obtain ⟨B, hB⟩ := eq_of_isPrefixOf_drop h
        exact ⟨"msg".toList, Or.inl rfl, B, by
          conv_lhs => rw [hB]
          simp [List.append_assoc]⟩
      · obtain ⟨B, hB⟩ := eq_of_isPrefixOf_drop h
        exact ⟨"srv".toList, Or.inr rfl, B, by
          conv_lhs => rw [hB]
          simp [List.append_assoc]⟩
    obtain ⟨mid, hmid, T, hname⟩ := hshape
    have hplen : (name.take p).length = p := by
      rw [List.length_take]; omega
    have hlen : name.length = p + 7 + T.length := by
      conv_lhs => rw [hname]
      rcases hmid with rfl | rfl <;> simp [hplen] <;> omega
    -- the second and the third search
    have hfind2 : str_find name "::".toList (p + 2) = some (p + 5) := by
      have hs : name = (name.take p ++ [':', ':']) ++ (mid ++ ':' :: ':' :: T) := by
        conv_lhs => rw [hname]
        simp
      rw [str_find_drop name _ _ _ (p + 2) hs (by simp [hplen])]
      rcases hmid with rfl | rfl <;>
        simp [str_find_aux_cons, List.isPrefixOf]
    have hfind3 : str_find name "::".toList (p + 5 + 2) = str_find_aux "::".toList T (p + 7) := by
      have hs : name = (name.take p ++ (':' :: ':' :: (mid ++ [':', ':']))) ++ T := by
        conv_lhs => rw [hname]
        simp
      rw [str_find_drop name _ _ _ (p + 5 + 2) hs (by
        rcases hmid with rfl | rfl <;> simp [hplen])]
    obtain ⟨f, hfuel⟩ : ∃ f, name.length + 1 = f + 3 := ⟨name.length - 2, by omega⟩
    rw [hfuel] at hcount
    simp only [count_ns_seps, hfind2, hfind3] at hcount
    have hT : ¬ "::".toList <:+: T := by
      cases h3 : str_find_aux "::".toList T (p + 7) with
      | some q =>
        rw [h3] at hcount
        have h4 := count_ns_seps_ge name f (str_find name "::".toList (q + 2)) (0 + 1 + 1 + 1)
        simp only [count_ns_seps] at hcount
        omega
      | none =>
        rintro ⟨A, B, hAB⟩
        have hocc : "::".toList.isPrefixOf (T.drop A.length) = true :=
          isPrefixOf_drop_of_eq hAB.symm
        have hlt : A.length < T.length := lt_length_of_isPrefixOf_drop (by decide) hocc
        have := str_find_aux_none _ _ _ h3 A.length hlt
        rw [this] at hocc
        cases hocc
    have hP : ¬ "::".toList <:+: name.take p := by
      rintro ⟨A, B, hAB⟩
      have hAlt : A.length < p := by
        have : (A ++ "::".toList ++ B).length = p := by rw [hAB, hplen]
        simp at this
        omega
      have hocc : "::".toList.isPrefixOf (name.drop A.length) = true := by
        have hn : name = A ++ "::".toList ++ (B ++ name.drop p) := by
          conv_lhs => rw [← List.take_append_drop p name, ← hAB]
          simp [List.append_assoc]
        exact isPrefixOf_drop_of_eq hn
      have := hmin A.length hAlt
      rw [this] at hocc
      cases hocc
    refine ⟨name.take p, T, ?_, hP, hT⟩
    rcases hmid with rfl | rfl
    · left
      conv_lhs => rw [hname]
      simp [List.append_assoc]
    · right
      conv_lhs => rw [hname]
      simp [List.append_assoc]

theorem demangle_after_dds_refused (name : Name) (pos len k : Nat)
    (hr : str_rfind name "::".toList = some k) (hk : pos + len - 2 < k) :
    demangle_after_dds name pos len = .error (.invalidName name) := by
  unfold demangle_after_dds
  rw [if_pos]
  rw [hr]
  intro h
  injection h with h
  omega

theorem demangle_after_dds_further (name seg : Name) (pos len : Nat)
    (hF : FurtherSeparator name) (hpos : str_rfind name seg = some pos)
    (hseg : seg = "::dds::".toList ∨ seg = "::dds_::".toList) (hlen : len ≤ 8) :
    demangle_after_dds name pos len = .error (.invalidName name) := by
  obtain ⟨X, sg, Y, hname, hsg, hn1, hn2, A, B, hAB⟩ := hF
  obtain ⟨k, hk, _, hpre, _⟩ := str_rfind_aux_some _ _ _ _ hpos
  simp only [Nat.zero_add] at hk
  subst hk
  have hsglen : 7 ≤ sg.length := by
    rcases hsg with rfl | rfl <;> simp
  have hposle : pos ≤ X.length := by
    by_contra hgt
    obtain ⟨m, hm⟩ : ∃ m, pos = X.length + 1 + m := ⟨pos - X.length - 1, by omega⟩
    have hdrop : name.drop pos = (sg ++ Y).tail.drop m := by
      rw [hname, hm, List.append_assoc, Nat.add_assoc, ← List.drop_drop, List.drop_left,
        ← List.drop_drop, List.drop_one]
    rw [hdrop] at hpre
    have hin := occurs_of_isPrefixOf_drop hpre
    rcases hseg with rfl | rfl
    · exact hn1 hin
    · exact hn2 hin
  have hocc : "::".toList.isPrefixOf (name.drop (X ++ sg ++ A).length) = true := by
    apply @isPrefixOf_drop_of_eq _ _ _ B
    rw [hname, ← hAB]
    simp [List.append_assoc]
  have hlt := lt_length_of_isPrefixOf_drop (by decide) hocc
  obtain ⟨k, hk, hge, _, _⟩ := str_rfind_aux_of_occurrence _ name 0 _ hlt hocc
  simp only [Nat.zero_add] at hk
  apply demangle_after_dds_refused name pos len k hk
  simp only [List.length_append] at hge
  omega

/-- C18: `demangle_dds_type_name` returns the invalid-name error, and no
value, for every name that is not of the canonical form `pkg::msg::Type` or
`pkg::srv::Type` and that either contains neither `::dds::` nor `::dds_::`,
or contains a further `::` after its rightmost `::dds::` or `::dds_::`
segment. -/
theorem demangle_dds_type_name_refuses (name : Name) (hcanon : ¬ CanonicalForm name)
    (h : NoDdsSegment name ∨ FurtherSeparator name) :
    demangle_dds_type_name name = .error (.invalidName name) := by
  unfold demangle_dds_type_name
  simp only []
  rw [if_neg (fun hc => hcanon (canonical_of_test name hc.1 hc.2))]
  cases h1 : str_rfind name "::dds_::".toList with
  | some pos =>
    simp only []
    rcases h with hno | hF
    · obtain ⟨k, _, _, hpre, _⟩ := str_rfind_aux_some _ _ _ _ h1
      exact absurd (occurs_of_isPrefixOf_drop hpre) hno.2
    · exact demangle_after_dds_further name _ pos 8 hF h1 (Or.inr rfl) (by omega)
  | none =>
    simp only []
    cases h2 : str_rfind name "::dds::".toList with
    | some pos =>
      simp only []
      rcases h with hno | hF
      · obtain ⟨k, _, _, hpre, _⟩ := str_rfind_aux_some _ _ _ _ h2
        exact absurd (occurs_of_isPrefixOf_drop hpre) hno.1
      · exact demangle_after_dds_further name _ pos 7 hF h2 (Or.inl rfl) (by omega)
    | none => rfl

theorem demangle_dds_type_name_refuses_witness :
    demangle_dds_type_name ex_name_no_dds = .error (.invalidName ex_name_no_dds) ∧
    demangle_dds_type_name ex_name_further = .error (.invalidName ex_name_further) :=
  ⟨demangle_dds_type_name_refuses ex_name_no_dds
      (by
        rintro ⟨P, T, h | h, _, _⟩
        · have : "::msg::".toList <:+: ex_name_no_dds := ⟨P, T, h.symm⟩
          revert this; decide
        · have : "::srv::".toList <:+: ex_name_no_dds := ⟨P, T, h.symm⟩
          revert this; decide)
      (Or.inl (by unfold NoDdsSegment; decide)),
   demangle_dds_type_name_refuses ex_name_further
      (by
        rintro ⟨P, T, h | h, hP, hT⟩
        · have h1 : "::msg::".toList.isPrefixOf (ex_name_further.drop P.length) = true :=
            isPrefixOf_drop_of_eq h
          have h2 := lt_length_of_isPrefixOf_drop (by decide) h1
          have h3 : P.length = 3 := by
            have : ∀ n, n < ex_name_further.length →
                "::msg::".toList.isPrefixOf (ex_name_further.drop n) = true → n = 3 := by decide
            exact this _ h2 h1
          have h4 : T = "dds_::a::T_".toList := by
            have h5 : (P ++ "::msg::".toList ++ T).drop (P.length + 7) = T := by
              rw [List.append_assoc, ← List.drop_drop, List.drop_left]
              rfl
            rw [← h, h3] at h5
            exact h5.symm
          rw [h4] at hT
          revert hT; decide
        · have : "::srv::".toList <:+: ex_name_further := ⟨P, T, h.symm⟩
          revert this; decide)
      (Or.inr ⟨"pkg::msg".toList, "::dds_::".toList, "a::T_".toList, by decide, Or.inr rfl,
        by decide, by decide, by decide⟩)⟩
/-! ## Demangling: the names that are accepted -/

theorem isPrefixOf_false_of_mem (c : Char) :
    ∀ (pat U : List Char), c ∈ pat → c ∉ U → pat.isPrefixOf U = false
  | [], _, hc, _ => by simp at hc
  | _ :: _, [], _, _ => rfl
  | p :: ps, u :: U, hc, hU => by
    simp only [List.isPrefixOf, Bool.and_eq_false_imp, beq_iff_eq]
    intro hpu
    subst hpu
    have hne : c ≠ p := fun e => hU (by simp [e])
    have hc2 : c ∈ ps := by
      rcases List.mem_cons.mp hc with h | h
      · exact absurd h hne
      · exact h
    exact isPrefixOf_false_of_mem c ps U hc2 (fun h => hU (List.mem_cons_of_mem _ h))

theorem find_sep (A L R : List Char) (pos : Nat) (hL : ':' ∉ L) (hpos : pos = A.length) :
    str_find (A ++ (L ++ ':' :: ':' :: R)) "::".toList pos = some (pos + L.length) := by
  subst hpos
  unfold str_find
  rw [List.drop_left]
  show str_find_aux [':', ':'] (L ++ ':' :: ':' :: R) A.length = _
  rw [str_find_aux_block _ L _ _ (no_start_of_not_mem ':' [':'] L _ hL)]
  exact str_find_aux_head [':', ':'] R _ (by simp)

theorem find_sep_none (A L : List Char) (pos : Nat) (hL : ':' ∉ L) (hpos : pos = A.length) :
    str_find (A ++ L) "::".toList pos = none := by
  subst hpos
  unfold str_find
  rw [List.drop_left]
  exact str_find_aux_not_mem ':' [':'] L _ hL

theorem substr_mid (A L R : List Char) (pos n : Nat) (hpos : pos = A.length)
    (hn : n = L.length) : substr (A ++ (L ++ R)) pos n = L := by
  subst hpos hn
  unfold substr
  rw [List.drop_left, List.take_left]

/-- The counting loop finds three separators in a name of four segments. -/
theorem count_four_segments (P M D U : List Char) (f : Nat)
    (hP : ':' ∉ P) (hM : ':' ∉ M) (hD : ':' ∉ D) (hU : ':' ∉ U) :
    count_ns_seps (P ++ ':' :: ':' :: (M ++ ':' :: ':' :: (D ++ ':' :: ':' :: U))) (f + 4)
      (str_find (P ++ ':' :: ':' :: (M ++ ':' :: ':' :: (D ++ ':' :: ':' :: U)))
        "::".toList 0) 0 = 3 := by
  have h1 := find_sep [] P (M ++ ':' :: ':' :: (D ++ ':' :: ':' :: U)) 0 hP rfl
  have h2 := find_sep (P ++ [':', ':']) M (D ++ ':' :: ':' :: U) (0 + P.length + 2) hM
    (by simp)
  have h3 := find_sep (P ++ ':' :: ':' :: (M ++ [':', ':'])) D U
    (0 + P.length + 2 + M.length + 2) hD (by simp; omega)
  have h4 := find_sep_none (P ++ ':' :: ':' :: (M ++ ':' :: ':' :: (D ++ [':', ':']))) U
    (0 + P.length + 2 + M.length + 2 + D.length + 2) hU (by simp; omega)
  simp only [List.nil_append, List.append_assoc, List.cons_append] at h1 h2 h3 h4
  simp only [count_ns_seps, h1, h2, h3, h4]

theorem demangle_loop_continue (s : Name) (pos fuel start sep sep2 : Nat) (ss el : Name)
    (hf : str_find s "::".toList start = some sep) (hs : substr s start (sep - start) = el)
    (hf2 : str_find s "::".toList (start + el.length + 2) = some sep2) (hle : sep2 ≤ pos) :
    demangle_loop s pos (fuel + 1) start ss =
      demangle_loop s pos fuel (start + el.length + 2)
        ((if start > 0 then ss ++ ['/'] else ss) ++ el) := by
  rw [demangle_loop]
  simp only [hf, hs, hf2, if_pos hle]

theorem demangle_loop_stop (s : Name) (pos fuel start sep sep2 : Nat) (ss el : Name)
    (hf : str_find s "::".toList start = some sep) (hs : substr s start (sep - start) = el)
    (hf2 : str_find s "::".toList (start + el.length + 2) = some sep2) (hgt : ¬ sep2 ≤ pos) :
    demangle_loop s pos (fuel + 1) start ss =
      (if start > 0 then ss ++ ['/'] else ss) ++ el := by
  rw [demangle_loop]
  simp only [hf, hs, hf2, if_neg hgt]

/-- The segment loop writes the two segments in front of the `dds` segment. -/
theorem demangle_loop_four_segments (P M D U : List Char) (f : Nat)
    (hP : ':' ∉ P) (hM : ':' ∉ M) (hD : ':' ∉ D) :
    demangle_loop (P ++ ':' :: ':' :: (M ++ ':' :: ':' :: (D ++ ':' :: ':' :: U)))
      (P.length + 2 + M.length) (f + 2) 0 [] = P ++ '/' :: M := by
  have h1 := find_sep [] P (M ++ ':' :: ':' :: (D ++ ':' :: ':' :: U)) 0 hP rfl
  have h2 := find_sep (P ++ [':', ':']) M (D ++ ':' :: ':' :: U) (0 + P.length + 2) hM
    (by simp)
  have h3 := find_sep (P ++ ':' :: ':' :: (M ++ [':', ':'])) D U
    (0 + P.length + 2 + M.length + 2) hD (by simp; omega)
  have s1 := substr_mid [] P (':' :: ':' :: (M ++ ':' :: ':' :: (D ++ ':' :: ':' :: U)))
    0 (0 + P.length - 0) rfl (by simp)
  have s2 := substr_mid (P ++ [':', ':']) M (':' :: ':' :: (D ++ ':' :: ':' :: U))
    (0 + P.length + 2) (0 + P.length + 2 + M.length - (0 + P.length + 2)) (by simp) (by omega)
  simp only [List.nil_append, List.append_assoc, List.cons_append] at h1 h2 h3 s1 s2
  rw [demangle_loop_continue _ _ _ _ _ _ _ _ h1 s1 h2 (by omega),
    demangle_loop_stop _ _ _ _ _ _ _ _ h2 s2 h3 (by omega)]
  simp

theorem rfind_sep_last (A U : List Char) (hU : ':' ∉ U) :
    str_rfind (A ++ ':' :: ':' :: U) "::".toList = some A.length := by
  unfold str_rfind
  apply str_rfind_aux_append_some
  rw [Nat.zero_add]
  apply str_rfind_aux_head [':', ':'] U _ (by simp)
  show str_rfind_aux [':', ':'] (':' :: U) _ = none
  rw [str_rfind_aux_cons, str_rfind_aux_not_mem ':' [':'] U _ hU]
  simp [List.isPrefixOf, isPrefixOf_false_of_mem ':' [':'] U (by simp) hU]

theorem isPrefixOf_colon_segment (D R : List Char) (hD : ':' ∉ D) (ps : List Char) :
    (':' :: ps).isPrefixOf (D ++ ':' :: R) = true → D = [] := by
  cases D with
  | nil => intro _; rfl
  | cons d D =>
    intro h
    simp only [List.cons_append, List.isPrefixOf, Bool.and_eq_true, beq_iff_eq] at h
    exact absurd (List.mem_cons.mpr (Or.inl h.1)) hD

/-- The rightmost occurrence of `::D::` in a name ending in `::D::U`. -/
theorem rfind_segment (A D U : List Char) (hD : ':' ∉ D) (hU : ':' ∉ U) :
    str_rfind (A ++ ':' :: ':' :: (D ++ ':' :: ':' :: U)) (':' :: ':' :: (D ++ [':', ':'])) =
      some A.length := by
  unfold str_rfind
  apply str_rfind_aux_append_some
  rw [Nat.zero_add]
  have e : ':' :: ':' :: (D ++ ':' :: ':' :: U) = (':' :: ':' :: (D ++ [':', ':'])) ++ U := by
    simp
  rw [e]
  apply str_rfind_aux_head _ U _ (by simp)
  rw [← e]
  show str_rfind_aux _ (':' :: (D ++ ':' :: ':' :: U)) _ = none
  have hU1 : str_rfind_aux (':' :: ':' :: (D ++ [':', ':'])) U
      (A.length + 1 + 1 + D.length + 1 + 1) = none := str_rfind_aux_not_mem _ _ U _ hU
  have hU2 : (':' :: (D ++ [':', ':'])).isPrefixOf U = false :=
    isPrefixOf_false_of_mem ':' _ U (by simp) hU
  have hU3 : (D ++ [':', ':']).isPrefixOf U = false :=
    isPrefixOf_false_of_mem ':' _ U (by simp) hU
  have hD1 : (':' :: (D ++ [':', ':'])).isPrefixOf (D ++ ':' :: ':' :: U) = false := by
    cases h : (':' :: (D ++ [':', ':'])).isPrefixOf (D ++ ':' :: ':' :: U) with
    | false => rfl
    | true =>
      have hnil := isPrefixOf_colon_segment D (':' :: U) hD _ h
      subst hnil
      simp [List.isPrefixOf, isPrefixOf_false_of_mem ':' [':'] U (by simp) hU] at h
  rw [str_rfind_aux_cons,
    str_rfind_aux_block _ D _ _ (no_start_of_not_mem ':' _ D _ hD),
    str_rfind_aux_cons, str_rfind_aux_cons, hU1]
  simp [List.isPrefixOf, hU2, hU3, hD1]

theorem dds_not_isPrefixOf (M R : List Char) (hM : ':' ∉ M) (hne : M ≠ "dds_".toList) :
    ['d', 'd', 's', '_', ':', ':'].isPrefixOf (M ++ ':' :: R) = false := by
  rcases M with _ | ⟨a, _ | ⟨b, _ | ⟨c, _ | ⟨d, _ | ⟨e, M⟩⟩⟩⟩⟩
  · rfl
  · simp [List.isPrefixOf]
  · simp [List.isPrefixOf]
  · simp [List.isPrefixOf]
  · cases h : ['d', 'd', 's', '_', ':', ':'].isPrefixOf ([a, b, c, d] ++ ':' :: R) with
    | false => rfl
    | true =>
      simp only [List.cons_append, List.nil_append, List.isPrefixOf, Bool.and_eq_true,
        beq_iff_eq] at h
      obtain ⟨h1, h2, h3, h4, _⟩ := h
      subst h1 h2 h3 h4
      exact absurd rfl hne
  · cases h : ['d', 'd', 's', '_', ':', ':'].isPrefixOf
        (a :: b :: c :: d :: e :: M ++ ':' :: R) with
    | false => rfl
    | true =>
      simp only [List.cons_append, List.isPrefixOf, Bool.and_eq_true, beq_iff_eq] at h
      have he : ':' = e := h.2.2.2.2.1
      exact absurd (by rw [he]; simp) hM

/-- No `::dds_::` occurs in `P::M::dds::T` unless `M` is `dds_`. -/
theorem rfind_dds_underscore_none (P M T : List Char) (hP : ':' ∉ P) (hM : ':' ∉ M)
    (hT : ':' ∉ T) (hMne : M ≠ []) (hne : M ≠ "dds_".toList) :
    str_rfind (P ++ ':' :: ':' :: (M ++ ':' :: ':' :: ("dds".toList ++ ':' :: ':' :: T)))
      "::dds_::".toList = none := by
  unfold str_rfind
  have hpat : "::dds_::".toList = [':', ':', 'd', 'd', 's', '_', ':', ':'] := rfl
  have hdds : "dds".toList = ['d', 'd', 's'] := rfl
  rw [hpat, hdds]
  have hT1 : ∀ off, str_rfind_aux [':', ':', 'd', 'd', 's', '_', ':', ':'] T off = none :=
    fun off => str_rfind_aux_not_mem ':' _ T off hT
  have hM1 : ['d', 'd', 's', '_', ':', ':'].isPrefixOf
      (M ++ ':' :: ':' :: (['d', 'd', 's'] ++ ':' :: ':' :: T)) = false :=
    dds_not_isPrefixOf M _ hM hne
  have hM2 : [':', 'd', 'd', 's', '_', ':', ':'].isPrefixOf
      (M ++ ':' :: ':' :: (['d', 'd', 's'] ++ ':' :: ':' :: T)) = false := by
    cases h : [':', 'd', 'd', 's', '_', ':', ':'].isPrefixOf
        (M ++ ':' :: ':' :: (['d', 'd', 's'] ++ ':' :: ':' :: T)) with
    | false => rfl
    | true => exact absurd (isPrefixOf_colon_segment M _ hM _ h) hMne
  rw [str_rfind_aux_block _ P _ _ (no_start_of_not_mem ':' _ P _ hP),
    str_rfind_aux_cons, str_rfind_aux_cons,
    str_rfind_aux_block _ M _ _ (no_start_of_not_mem ':' _ M _ hM)]
  have htail : str_rfind_aux [':', ':', 'd', 'd', 's', '_', ':', ':']
      (':' :: ':' :: (['d', 'd', 's'] ++ ':' :: ':' :: T)) (0 + P.length + 1 + 1 + M.length) =
      none := by
    have hT2 : ¬ [':', 'd', 'd', 's', '_', ':', ':'] <+: T :=
      fun h => hT (h.subset (by simp))
    have hT3 : ¬ ['d', 'd', 's', '_', ':', ':'] <+: T :=
      fun h => hT (h.subset (by simp))
    simp [str_rfind_aux_cons, hT1, hT2, hT3, List.isPrefixOf]
  rw [htail]
  have e1 : [':', ':', 'd', 'd', 's', '_', ':', ':'].isPrefixOf
      (':' :: (M ++ ':' :: ':' :: (['d', 'd', 's'] ++ ':' :: ':' :: T))) = false := by
    simpa [List.isPrefixOf] using hM2
  have e2 : [':', ':', 'd', 'd', 's', '_', ':', ':'].isPrefixOf
      (':' :: ':' :: (M ++ ':' :: ':' :: (['d', 'd', 's'] ++ ':' :: ':' :: T))) = false := by
    simpa [List.isPrefixOf] using hM1
  simp only [e1, e2]
  rfl

theorem replace_sep (c : Char) (cs rep L R : List Char) (hL : c ∉ L) :
    regex_replace_aux (c :: cs) rep 0 (L ++ (c :: cs ++ R)) =
      L ++ (rep ++ regex_replace_aux (c :: cs) rep 0 R) := by
  rw [regex_replace_aux_block _ _ L _ (no_start_of_not_mem c cs L _ hL),
    regex_replace_aux_match _ _ _ (by simp)]

/-- Demangling of a name of four segments whose third segment is the one the
search for the `dds` segment finds. -/
theorem demangle_four_segments (P M D U : List Char) (len : Nat)
    (hP : ':' ∉ P) (hM : ':' ∉ M) (hD : ':' ∉ D) (hU : ':' ∉ U)
    (hlen : len = D.length + 4) :
    demangle_after_dds (P ++ ':' :: ':' :: (M ++ ':' :: ':' :: (D ++ ':' :: ':' :: U)))
      (P.length + 2 + M.length) len =
      .ok (P ++ '/' :: M ++ ['/'] ++ strip_trailing_underscore U) := by
  have hr := rfind_sep_last (P ++ ':' :: ':' :: (M ++ ':' :: ':' :: D)) U hU
  simp only [List.append_assoc, List.cons_append, List.length_append, List.length_cons] at hr
  have hdrop : (P ++ ':' :: ':' :: (M ++ ':' :: ':' :: (D ++ ':' :: ':' :: U))).drop
      (P.length + 2 + M.length + len) = U := by
    have e : P ++ ':' :: ':' :: (M ++ ':' :: ':' :: (D ++ ':' :: ':' :: U)) =
        (P ++ ':' :: ':' :: (M ++ ':' :: ':' :: (D ++ [':', ':']))) ++ U := by simp
    have e2 : P.length + 2 + M.length + len =
        (P ++ ':' :: ':' :: (M ++ ':' :: ':' :: (D ++ [':', ':']))).length := by
      simp; omega
    rw [e, e2, List.drop_left]
  obtain ⟨f, hf⟩ : ∃ f,
      (P ++ ':' :: ':' :: (M ++ ':' :: ':' :: (D ++ ':' :: ':' :: U))).length + 1 = f + 2 :=
    ⟨P.length + M.length + D.length + U.length + 5, by simp; omega⟩
  unfold demangle_after_dds
  rw [if_neg, hdrop, hf, demangle_loop_four_segments P M D U f hP hM hD]
  rw [hr]
  intro h
  apply h
  congr 1
  omega

/-- The canonical test fails on a name of four segments. -/
theorem not_canonical_four_segments (P M D U : List Char)
    (hP : ':' ∉ P) (hM : ':' ∉ M) (hD : ':' ∉ D) (hU : ':' ∉ U) :
    ¬ (count_ns_seps (P ++ ':' :: ':' :: (M ++ ':' :: ':' :: (D ++ ':' :: ':' :: U)))
        ((P ++ ':' :: ':' :: (M ++ ':' :: ':' :: (D ++ ':' :: ':' :: U))).length + 1)
        (str_find (P ++ ':' :: ':' :: (M ++ ':' :: ':' :: (D ++ ':' :: ':' :: U)))
          "::".toList 0) 0 = 2) := by
  obtain ⟨f, hf⟩ : ∃ f,
      (P ++ ':' :: ':' :: (M ++ ':' :: ':' :: (D ++ ':' :: ':' :: U))).length + 1 = f + 4 :=
    ⟨P.length + M.length + D.length + U.length + 3, by simp; omega⟩
  rw [hf, count_four_segments P M D U f hP hM hD hU]
  decide

/-- Demangling of the mangled form with the `dds_` segment. -/
theorem demangle_mangled_form (P M T : List Char)
    (hP : ':' ∉ P) (hM : ':' ∉ M) (hT : ':' ∉ T) :
    demangle_dds_type_name
      (P ++ ':' :: ':' :: (M ++ ':' :: ':' :: ("dds_".toList ++ ':' :: ':' :: (T ++ ['_'])))) =
      .ok (P ++ '/' :: M ++ ['/'] ++ T) := by
  have hU : ':' ∉ T ++ ['_'] := by simp [hT]
  have hD : ':' ∉ "dds_".toList := by decide
  have hseg := rfind_segment (P ++ ':' :: ':' :: M) "dds_".toList (T ++ ['_']) hD hU
  simp only [List.append_assoc, List.cons_append, List.length_append, List.length_cons] at hseg
  have hpat : ':' :: ':' :: ("dds_".toList ++ [':', ':']) = "::dds_::".toList := rfl
  rw [hpat] at hseg
  unfold demangle_dds_type_name
  simp only []
  rw [if_neg (fun h => not_canonical_four_segments P M _ _ hP hM hD hU h.1), hseg]
  simp only []
  have e : P.length + (M.length + 1 + 1) = P.length + 2 + M.length := by omega
  rw [e, demangle_four_segments P M _ _ 8 hP hM hD hU rfl, strip_trailing_underscore_snoc]

/-- Demangling of the form with the `dds` segment. -/
theorem demangle_normalised_form (P M T : List Char)
    (hP : ':' ∉ P) (hM : ':' ∉ M) (hT : ':' ∉ T) (hMne : M ≠ [])
    (hne : M ≠ "dds_".toList) (hlast : T.getLast? ≠ some '_') :
    demangle_dds_type_name
      (P ++ ':' :: ':' :: (M ++ ':' :: ':' :: ("dds".toList ++ ':' :: ':' :: T))) =
      .ok (P ++ '/' :: M ++ ['/'] ++ T) := by
  have hD : ':' ∉ "dds".toList := by decide
  have hseg := rfind_segment (P ++ ':' :: ':' :: M) "dds".toList T hD hT
  simp only [List.append_assoc, List.cons_append, List.length_append, List.length_cons] at hseg
  have hpat : ':' :: ':' :: ("dds".toList ++ [':', ':']) = "::dds::".toList := rfl
  rw [hpat] at hseg
  unfold demangle_dds_type_name
  simp only []
  rw [if_neg (fun h => not_canonical_four_segments P M _ _ hP hM hD hT h.1),
    rfind_dds_underscore_none P M T hP hM hT hMne hne]
  simp only []
  rw [hseg]
  simp only []
  have e : P.length + (M.length + 1 + 1) = P.length + 2 + M.length := by omega
  rw [e, demangle_four_segments P M _ _ 7 hP hM hD hT rfl,
    strip_trailing_underscore_id T hlast]

/-- Demangling of a name that is already canonical. -/
theorem demangle_canonical_form (P mid T : List Char) (hP : ':' ∉ P) (hT : ':' ∉ T)
    (hmid : mid = "msg".toList ∨ mid = "srv".toList) :
    demangle_dds_type_name (P ++ ':' :: ':' :: (mid ++ ':' :: ':' :: T)) =
      .ok (P ++ '/' :: mid ++ ['/'] ++ T) := by
  have hM : ':' ∉ mid := by rcases hmid with rfl | rfl <;> decide
  have hmlen : mid.length = 3 := by rcases hmid with rfl | rfl <;> rfl
  have h1 := find_sep [] P (mid ++ ':' :: ':' :: T) 0 hP rfl
  have h2 := find_sep (P ++ [':', ':']) mid T (0 + P.length + 2) hM (by simp)
  have h3 := find_sep_none (P ++ ':' :: ':' :: (mid ++ [':', ':'])) T
    (0 + P.length + 2 + mid.length + 2) hT (by simp; omega)
  simp only [List.nil_append, List.append_assoc, List.cons_append] at h1 h2 h3
  obtain ⟨f, hf⟩ : ∃ f, (P ++ ':' :: ':' :: (mid ++ ':' :: ':' :: T)).length + 1 = f + 3 :=
    ⟨P.length + mid.length + T.length + 2, by simp; omega⟩
  have hcount : count_ns_seps (P ++ ':' :: ':' :: (mid ++ ':' :: ':' :: T))
      ((P ++ ':' :: ':' :: (mid ++ ':' :: ':' :: T)).length + 1)
      (str_find (P ++ ':' :: ':' :: (mid ++ ':' :: ':' :: T)) "::".toList 0) 0 = 2 := by
    rw [hf]
    simp only [count_ns_seps, h1, h2, h3]
  have hpre : "::msg::".toList.isPrefixOf
        ((P ++ ':' :: ':' :: (mid ++ ':' :: ':' :: T)).drop
          ((str_find (P ++ ':' :: ':' :: (mid ++ ':' :: ':' :: T)) "::".toList 0).getD 0)) ∨
      "::srv::".toList.isPrefixOf
        ((P ++ ':' :: ':' :: (mid ++ ':' :: ':' :: T)).drop
          ((str_find (P ++ ':' :: ':' :: (mid ++ ':' :: ':' :: T)) "::".toList 0).getD 0)) := by
    rw [h1, Option.getD_some, Nat.zero_add, List.drop_left]
    rcases hmid with rfl | rfl
    · left; simp [List.isPrefixOf]
    · right; simp [List.isPrefixOf]
  unfold demangle_dds_type_name
  simp only []
  rw [if_pos ⟨hcount, hpre⟩]
  unfold regex_replace_lit
  have e : P ++ ':' :: ':' :: (mid ++ ':' :: ':' :: T) =
      P ++ ([':', ':'] ++ (mid ++ ([':', ':'] ++ T))) := by simp
  have hs : "::".toList = [':', ':'] := rfl
  rw [e, hs, replace_sep ':' [':'] _ P _ hP, replace_sep ':' [':'] _ mid _ hM,
    regex_replace_aux_not_mem ':' [':'] _ T hT]
  simp

/-- The form `P::dds_::dds::T` is refused: the `dds_` segment is searched
first, and a `::` follows it. -/
theorem demangle_dds_underscore_module (P T : List Char) (hP : ':' ∉ P) (hT : ':' ∉ T) :
    demangle_dds_type_name
      (P ++ ':' :: ':' :: ("dds_".toList ++ ':' :: ':' :: ("dds".toList ++ ':' :: ':' :: T))) =
      .error (.invalidName
        (P ++ ':' :: ':' :: ("dds_".toList ++ ':' :: ':' :: ("dds".toList ++ ':' :: ':' :: T)))) := by
  have hM : ':' ∉ "dds_".toList := by decide
  have hD : ':' ∉ "dds".toList := by decide
  have hr := rfind_sep_last (P ++ ':' :: ':' :: ("dds_".toList ++ ':' :: ':' :: "dds".toList)) T hT
  simp only [List.append_assoc, List.cons_append] at hr
  have hT1 : ∀ off, str_rfind_aux [':', ':', 'd', 'd', 's', '_', ':', ':'] T off = none :=
    fun off => str_rfind_aux_not_mem ':' _ T off hT
  have hT2 : ∀ ps : List Char, ':' ∈ ps → ¬ ps <+: T :=
    fun ps hps h => hT (h.subset hps)
  have hk : str_rfind_aux "::dds_::".toList
      (P ++ ':' :: ':' :: ("dds_".toList ++ ':' :: ':' :: ("dds".toList ++ ':' :: ':' :: T))) 0 =
      some P.length := by
    apply str_rfind_aux_append_some
    rw [Nat.zero_add]
    have e : ':' :: ':' :: ("dds_".toList ++ ':' :: ':' :: ("dds".toList ++ ':' :: ':' :: T)) =
        [':', ':', 'd', 'd', 's', '_', ':', ':'] ++ ('d' :: 'd' :: 's' :: ':' :: ':' :: T) := rfl
    have hpat : "::dds_::".toList = [':', ':', 'd', 'd', 's', '_', ':', ':'] := rfl
    rw [e, hpat]
    apply str_rfind_aux_head _ _ _ (by simp)
    simp [str_rfind_aux_cons, hT1, hT2, List.isPrefixOf]
  unfold demangle_dds_type_name
  simp only []
  rw [if_neg (fun h => not_canonical_four_segments P _ _ _ hP hM hD hT h.1)]
  unfold str_rfind
  rw [hk]
  simp only []
  apply demangle_after_dds_refused _ _ _ _ hr
  simp

/-- C17, as stated, fails: with the module named `dds_`, the form
`P::M::dds::T` is refused although `P`, `M` and `T` are non-empty identifiers
without `:` and `T` does not end in `_`. -/
theorem demangle_dds_underscore_module_refused :
    ("p".toList ≠ [] ∧ "dds_".toList ≠ [] ∧ "T".toList ≠ [] ∧ ':' ∉ "p".toList ∧
      ':' ∉ "dds_".toList ∧ ':' ∉ "T".toList ∧ "T".toList.getLast? ≠ some '_') ∧
    demangle_dds_type_name
      ("p".toList ++ "::".toList ++ "dds_".toList ++ "::dds::".toList ++ "T".toList) =
      .error (.invalidName "p::dds_::dds::T".toList) := by
  decide

/-- C17, amended: for all non-empty identifiers `P`, `M`, `T` without `:`
(`T` not ending in `_`), `demangle_dds_type_name` maps `P::M::dds_::T_` to
`P/M/T`, maps `P::M::dds::T` to `P/M/T` when `M` is not `dds_` and refuses
it when `M` is `dds_`, and maps `P::msg::T` and `P::srv::T` to `P/msg/T` and
`P/srv/T`. -/
theorem demangle_dds_type_name_forms (P M T : Name) :
    P ≠ [] → M ≠ [] → T ≠ [] → ':' ∉ P → ':' ∉ M → ':' ∉ T → T.getLast? ≠ some '_' →
    demangle_dds_type_name (P ++ "::".toList ++ M ++ "::dds_::".toList ++ T ++ "_".toList) =
      .ok (P ++ "/".toList ++ M ++ "/".toList ++ T) ∧
    (M ≠ "dds_".toList →
      demangle_dds_type_name (P ++ "::".toList ++ M ++ "::dds::".toList ++ T) =
        .ok (P ++ "/".toList ++ M ++ "/".toList ++ T)) ∧
    (M = "dds_".toList →
      demangle_dds_type_name (P ++ "::".toList ++ M ++ "::dds::".toList ++ T) =
        .error (.invalidName (P ++ "::".toList ++ M ++ "::dds::".toList ++ T))) ∧
    demangle_dds_type_name (P ++ "::msg::".toList ++ T) = .ok (P ++ "/msg/".toList ++ T) ∧
    demangle_dds_type_name (P ++ "::srv::".toList ++ T) = .ok (P ++ "/srv/".toList ++ T) := by
  intro _ hMne _ hP hM hT hlast
  have e1 : P ++ "::".toList ++ M ++ "::dds_::".toList ++ T ++ "_".toList =
      P ++ ':' :: ':' :: (M ++ ':' :: ':' :: ("dds_".toList ++ ':' :: ':' :: (T ++ ['_']))) := by
    have a : "::".toList = [':', ':'] := rfl
    have b : "::dds_::".toList = ':' :: ':' :: ("dds_".toList ++ [':', ':']) := rfl
    have c : "_".toList = ['_'] := rfl
    rw [a, b, c]
    simp only [List.append_assoc, List.cons_append, List.nil_append]
  have e2 : P ++ "::".toList ++ M ++ "::dds::".toList ++ T =
      P ++ ':' :: ':' :: (M ++ ':' :: ':' :: ("dds".toList ++ ':' :: ':' :: T)) := by
    have a : "::".toList = [':', ':'] := rfl
    have b : "::dds::".toList = ':' :: ':' :: ("dds".toList ++ [':', ':']) := rfl
    rw [a, b]
    simp only [List.append_assoc, List.cons_append, List.nil_append]
  have e3 : ∀ mid : List Char, P ++ '/' :: mid ++ ['/'] ++ T =
      P ++ ['/'] ++ mid ++ ['/'] ++ T := by
    intro mid
    simp only [List.append_assoc, List.cons_append, List.nil_append]
  have e4 : P ++ "::msg::".toList ++ T = P ++ ':' :: ':' :: ("msg".toList ++ ':' :: ':' :: T) := by
    have b : "::msg::".toList = ':' :: ':' :: ("msg".toList ++ [':', ':']) := rfl
    rw [b]
    simp only [List.append_assoc, List.cons_append, List.nil_append]
  have e5 : P ++ "::srv::".toList ++ T = P ++ ':' :: ':' :: ("srv".toList ++ ':' :: ':' :: T) := by
    have b : "::srv::".toList = ':' :: ':' :: ("srv".toList ++ [':', ':']) := rfl
    rw [b]
    simp only [List.append_assoc, List.cons_append, List.nil_append]
  have hs : "/".toList = ['/'] := rfl
  refine ⟨?_, ?_, ?_, ?_, ?_⟩
  · rw [e1, hs, ← e3, demangle_mangled_form P M T hP hM hT]
  · intro hne
    rw [e2, hs, ← e3, demangle_normalised_form P M T hP hM hT hMne hne hlast]
  · intro heq
    rw [e2, heq]
    exact demangle_dds_underscore_module P T hP hT
  · rw [e4, demangle_canonical_form P _ T hP hT (Or.inl rfl)]
    have b : "/msg/".toList = '/' :: ("msg".toList ++ ['/']) := rfl
    rw [b]
    simp only [List.append_assoc, List.cons_append, List.nil_append]
  · rw [e5, demangle_canonical_form P _ T hP hT (Or.inr rfl)]
    have b : "/srv/".toList = '/' :: ("srv".toList ++ ['/']) := rfl
    rw [b]
    simp only [List.append_assoc, List.cons_append, List.nil_append]

theorem demangle_dds_type_name_forms_witness :
    demangle_dds_type_name "std_msgs::msg::dds_::String_".toList = .ok "std_msgs/msg/String".toList ∧
    demangle_dds_type_name "std_msgs::msg::dds::String".toList = .ok "std_msgs/msg/String".toList ∧
    demangle_dds_type_name "std_msgs::msg::String".toList = .ok "std_msgs/msg/String".toList ∧
    demangle_dds_type_name "std_msgs::srv::String".toList = .ok "std_msgs/srv/String".toList :=
  have h := demangle_dds_type_name_forms "std_msgs".toList "msg".toList "String".toList
    (by decide) (by decide) (by decide) (by decide) (by decide) (by decide) (by decide)
  ⟨h.1, h.2.1 (by decide), h.2.2.2.1, h.2.2.2.2⟩
/-! ## Mangling and demangling of type code names -/

theorem has_double_underscore_cons (c : Char) (hc : c ≠ '_') (B : List Char) :
    has_double_underscore (c :: B) = has_double_underscore B := by
  have := has_double_underscore_append_sep c hc [] B
  simpa [has_double_underscore] using this

theorem getLast?_append_ne_nil (A B : List Char) (hB : B ≠ []) :
    (A ++ B).getLast? = B.getLast? := by
  rw [List.getLast?_append]
  cases h : B.getLast? with
  | none => exact absurd (List.getLast?_eq_none_iff.mp h) hB
  | some b => rfl

theorem make_typecode_name_demangled_eq (n : Name) :
    make_typecode_name_demangled n = normalize_dds_type_name n := by
  unfold make_typecode_name_demangled
  cases h : normalize_dds_type_name n with
  | error e => rfl
  | ok r =>
    show (if r = n then pure n else pure r) = Except.ok r
    by_cases hr : r = n
    · rw [if_pos hr, hr]; rfl
    · rw [if_neg hr]; rfl

theorem normalize_unfold (name : Name) (hne : name ≠ []) :
    normalize_dds_type_name name = .ok
      (regex_replace_aux "::dds::".toList "::".toList 0
        (regex_replace_aux "::dds_::".toList "::dds::".toList 0
          (strip_trailing_underscore
            (regex_replace_aux "__".toList "::".toList 0 name)))) := by
  unfold normalize_dds_type_name regex_replace_lit
  rw [if_neg]
  intro h
  exact hne (List.length_eq_zero.mp h)

/-- A pattern that starts with `::d` leaves the storage form alone. -/
theorem regex_replace_storage_id (ps rep P mid T : List Char) (hps : ':' ∈ ps)
    (hP : ':' ∉ P) (hT : ':' ∉ T) (hmid : mid = "msg".toList ∨ mid = "srv".toList) :
    regex_replace_aux (':' :: ':' :: 'd' :: ps) rep 0 (P ++ ':' :: ':' :: (mid ++ ':' :: ':' :: T)) =
      P ++ ':' :: ':' :: (mid ++ ':' :: ':' :: T) := by
  have h1 : ¬ ('d' :: ps) <+: T := fun h => hT (h.subset (by simp [hps]))
  have h2 : ¬ (':' :: 'd' :: ps) <+: T := fun h => hT (h.subset (by simp))
  rw [regex_replace_aux_block _ _ P _ (no_start_of_not_mem ':' _ P _ hP)]
  rcases hmid with rfl | rfl
  · simp [regex_replace_aux_cons_zero, List.isPrefixOf, h1, h2,
      regex_replace_aux_not_mem ':' _ _ T hT]
  · simp [regex_replace_aux_cons_zero, List.isPrefixOf, h1, h2,
      regex_replace_aux_not_mem ':' _ _ T hT]

/-- The storage form `P::M::T` is a fixed point of the normalisation. -/
theorem normalize_storage_form (P mid T : List Char) (hP : ':' ∉ P) (hT : ':' ∉ T)
    (hPdu : has_double_underscore P = false) (hTdu : has_double_underscore T = false)
    (hTne : T ≠ []) (hlast : T.getLast? ≠ some '_')
    (hmid : mid = "msg".toList ∨ mid = "srv".toList) :
    normalize_dds_type_name (P ++ ':' :: ':' :: (mid ++ ':' :: ':' :: T)) =
      .ok (P ++ ':' :: ':' :: (mid ++ ':' :: ':' :: T)) := by
  have hdu : has_double_underscore (P ++ ':' :: ':' :: (mid ++ ':' :: ':' :: T)) = false := by
    have hm : has_double_underscore mid = false := by rcases hmid with rfl | rfl <;> rfl
    rw [has_double_underscore_append_sep ':' (by decide),
      has_double_underscore_cons ':' (by decide),
      has_double_underscore_append_sep ':' (by decide),
      has_double_underscore_cons ':' (by decide), hPdu, hm, hTdu]
    rfl
  have hl : (P ++ ':' :: ':' :: (mid ++ ':' :: ':' :: T)).getLast? ≠ some '_' := by
    have e : P ++ ':' :: ':' :: (mid ++ ':' :: ':' :: T) =
        (P ++ ':' :: ':' :: (mid ++ [':', ':'])) ++ T := by simp
    rw [e, getLast?_append_ne_nil _ T hTne]
    exact hlast
  rw [normalize_unfold _ (by simp)]
  have e : "__".toList = ['_', '_'] := rfl
  have e1 : "::dds_::".toList = ':' :: ':' :: 'd' :: "ds_::".toList := rfl
  have e2 : "::dds::".toList = ':' :: ':' :: 'd' :: "ds::".toList := rfl
  rw [e, regex_replace_dunder_id _ _ hdu, strip_trailing_underscore_id _ hl, e1,
    regex_replace_storage_id _ _ P mid T (by decide) hP hT hmid, e2,
    regex_replace_storage_id _ _ P mid T (by decide) hP hT hmid]

/-- The mangled form `P::M::dds_::T_` normalises to the storage form. -/
theorem normalize_mangled_form (P mid T : List Char) (hP : ':' ∉ P) (hT : ':' ∉ T)
    (hPdu : has_double_underscore P = false) (hTdu : has_double_underscore T = false)
    (hlast : T.getLast? ≠ some '_')
    (hmid : mid = "msg".toList ∨ mid = "srv".toList) :
    normalize_dds_type_name
      (P ++ ':' :: ':' :: (mid ++ ':' :: ':' :: ("dds_".toList ++ ':' :: ':' :: (T ++ ['_'])))) =
      .ok (P ++ ':' :: ':' :: (mid ++ ':' :: ':' :: T)) := by
  have hTl : (T.getLast? == some '_') = false := by
    cases h : T.getLast? == some '_' with
    | false => rfl
    | true => exact absurd (beq_iff_eq.mp h) hlast
  have hdu : has_double_underscore
      (P ++ ':' :: ':' :: (mid ++ ':' :: ':' :: ("dds_".toList ++ ':' :: ':' :: (T ++ ['_'])))) =
      false := by
    have hm : has_double_underscore mid = false := by rcases hmid with rfl | rfl <;> rfl
    have hd : has_double_underscore "dds_".toList = false := rfl
    rw [has_double_underscore_append_sep ':' (by decide),
      has_double_underscore_cons ':' (by decide),
      has_double_underscore_append_sep ':' (by decide),
      has_double_underscore_cons ':' (by decide),
      has_double_underscore_append_sep ':' (by decide),
      has_double_underscore_cons ':' (by decide),
      has_double_underscore_snoc, hPdu, hm, hd, hTdu, hTl]
    rfl
  have hstrip : strip_trailing_underscore
      (P ++ ':' :: ':' :: (mid ++ ':' :: ':' :: ("dds_".toList ++ ':' :: ':' :: (T ++ ['_'])))) =
      P ++ ':' :: ':' :: (mid ++ ':' :: ':' :: ("dds_".toList ++ ':' :: ':' :: T)) := by
    have e : P ++ ':' :: ':' :: (mid ++ ':' :: ':' :: ("dds_".toList ++ ':' :: ':' :: (T ++ ['_']))) =
        (P ++ ':' :: ':' :: (mid ++ ':' :: ':' :: ("dds_".toList ++ ':' :: ':' :: T))) ++ ['_'] := by
      simp
    rw [e, strip_trailing_underscore_snoc]
  have h1 : ¬ ['d', 'd', 's', '_', ':', ':'] <+: T := fun h => hT (h.subset (by simp))
  have h2 : ¬ [':', 'd', 'd', 's', '_', ':', ':'] <+: T := fun h => hT (h.subset (by simp))
  have h3 : ¬ ['d', 'd', 's', ':', ':'] <+: T := fun h => hT (h.subset (by simp))
  have h4 : ¬ [':', 'd', 'd', 's', ':', ':'] <+: T := fun h => hT (h.subset (by simp))
  have hr1 : regex_replace_aux "::dds_::".toList "::dds::".toList 0
      (P ++ ':' :: ':' :: (mid ++ ':' :: ':' :: ("dds_".toList ++ ':' :: ':' :: T))) =
      P ++ ':' :: ':' :: (mid ++ ':' :: ':' :: ("dds".toList ++ ':' :: ':' :: T)) := by
    have e1 : "::dds_::".toList = [':', ':', 'd', 'd', 's', '_', ':', ':'] := rfl
    rw [e1, regex_replace_aux_block _ _ P _ (no_start_of_not_mem ':' _ P _ hP)]
    rcases hmid with rfl | rfl
    · simp [regex_replace_aux_cons_zero, regex_replace_aux_cons_succ, List.isPrefixOf, h1, h2,
        regex_replace_aux_not_mem ':' _ _ T hT]
    · simp [regex_replace_aux_cons_zero, regex_replace_aux_cons_succ, List.isPrefixOf, h1, h2,
        regex_replace_aux_not_mem ':' _ _ T hT]
  have hr2 : regex_replace_aux "::dds::".toList "::".toList 0
      (P ++ ':' :: ':' :: (mid ++ ':' :: ':' :: ("dds".toList ++ ':' :: ':' :: T))) =
      P ++ ':' :: ':' :: (mid ++ ':' :: ':' :: T) := by
    have e1 : "::dds::".toList = [':', ':', 'd', 'd', 's', ':', ':'] := rfl
    rw [e1, regex_replace_aux_block _ _ P _ (no_start_of_not_mem ':' _ P _ hP)]
    rcases hmid with rfl | rfl
    · simp [regex_replace_aux_cons_zero, regex_replace_aux_cons_succ, List.isPrefixOf, h3, h4,
        regex_replace_aux_not_mem ':' _ _ T hT]
    · simp [regex_replace_aux_cons_zero, regex_replace_aux_cons_succ, List.isPrefixOf, h3, h4,
        regex_replace_aux_not_mem ':' _ _ T hT]
  rw [normalize_unfold _ (by simp)]
  have e : "__".toList = ['_', '_'] := rfl
  rw [e, regex_replace_dunder_id _ _ hdu, hstrip, hr1, hr2]

/-- Mangling of the storage form `P::M::T`. -/
theorem mangle_storage_form (P mid T : List Char) (hP : IsSegment P) (hT : IsSegment T)
    (hlast : T.getLast? ≠ some '_') (hmid : mid = "msg".toList ∨ mid = "srv".toList) :
    make_typecode_name_mangled (P ++ ':' :: ':' :: (mid ++ ':' :: ':' :: T)) =
      .ok (P ++ ':' :: ':' :: (mid ++ ':' :: ':' :: ("dds_".toList ++ ':' :: ':' :: (T ++ ['_'])))) := by
  obtain ⟨_, hPc, hPs, hPdu⟩ := hP
  obtain ⟨hTne, hTc, hTs, hTdu⟩ := hT
  have hm : has_double_underscore mid = false := by rcases hmid with rfl | rfl <;> rfl
  have hdu : has_double_underscore (P ++ '/' :: (mid ++ '/' :: T)) = false := by
    rw [has_double_underscore_append_sep '/' (by decide),
      has_double_underscore_append_sep '/' (by decide), hPdu, hm, hTdu]
    rfl
  have hl : (P ++ '/' :: (mid ++ '/' :: T)).getLast? ≠ some '_' := by
    have e : P ++ '/' :: (mid ++ '/' :: T) = (P ++ '/' :: (mid ++ ['/'])) ++ T := by simp
    rw [e, getLast?_append_ne_nil _ T hTne]
    exact hlast
  have hparse := parse_ros_type_name_plain P mid T hPs hTs hTne hdu hl
  have hdem := demangle_canonical_form P mid T hPc hTc hmid
  have e : P ++ '/' :: mid ++ ['/'] ++ T = P ++ '/' :: (mid ++ '/' :: T) := by simp
  rw [e] at hdem
  unfold make_typecode_name_mangled
  rw [normalize_storage_form P mid T hPc hTc hPdu hTdu hTne hlast hmid]
  show (if _ = _ then _ else _) = _
  rw [if_pos rfl, hdem]
  show (parse_ros_type_name _ >>= _) = _
  rw [hparse]
  show Except.ok _ = Except.ok _
  congr 1
  have a : "::".toList = [':', ':'] := rfl
  have c : "_".toList = ['_'] := rfl
  rw [a, c]
  simp only [List.append_assoc, List.cons_append, List.nil_append]

/-- A name without `:` is refused by the demangling. -/
theorem demangle_no_colon (s : Name) (hc : ':' ∉ s) :
    demangle_dds_type_name s = .error (.invalidName s) := by
  have hf : str_find s "::".toList 0 = none := by
    unfold str_find
    rw [List.drop_zero]
    exact str_find_aux_not_mem ':' [':'] s 0 hc
  have h1 : str_rfind s "::dds_::".toList = none := str_rfind_aux_not_mem ':' _ s 0 hc
  have h2 : str_rfind s "::dds::".toList = none := str_rfind_aux_not_mem ':' _ s 0 hc
  unfold demangle_dds_type_name
  simp only [hf, h1, h2]
  rw [if_neg]
  intro h
  have := h.1
  simp [count_ns_seps] at this

/-- The slash form `P/M/T` is refused by the mangling. -/
theorem mangle_slash_form (P mid T : List Char) (hP : IsSegment P) (hT : IsSegment T)
    (hlast : T.getLast? ≠ some '_') (hmid : mid = "msg".toList ∨ mid = "srv".toList) :
    make_typecode_name_mangled (P ++ '/' :: (mid ++ '/' :: T)) =
      .error (.invalidName (P ++ '/' :: (mid ++ '/' :: T))) := by
  obtain ⟨_, hPc, _, hPdu⟩ := hP
  obtain ⟨hTne, hTc, _, hTdu⟩ := hT
  have hm : has_double_underscore mid = false := by rcases hmid with rfl | rfl <;> rfl
  have hmc : ':' ∉ mid := by rcases hmid with rfl | rfl <;> decide
  have hdu : has_double_underscore (P ++ '/' :: (mid ++ '/' :: T)) = false := by
    rw [has_double_underscore_append_sep '/' (by decide),
      has_double_underscore_append_sep '/' (by decide), hPdu, hm, hTdu]
    rfl
  have hl : (P ++ '/' :: (mid ++ '/' :: T)).getLast? ≠ some '_' := by
    have e : P ++ '/' :: (mid ++ '/' :: T) = (P ++ '/' :: (mid ++ ['/'])) ++ T := by simp
    rw [e, getLast?_append_ne_nil _ T hTne]
    exact hlast
  have hc : ':' ∉ P ++ '/' :: (mid ++ '/' :: T) := by
    simp [hPc, hmc, hTc]
  have hnorm : normalize_dds_type_name (P ++ '/' :: (mid ++ '/' :: T)) =
      .ok (P ++ '/' :: (mid ++ '/' :: T)) := by
    rw [normalize_unfold _ (by simp)]
    have e : "__".toList = ['_', '_'] := rfl
    have e1 : "::dds_::".toList = ':' :: ":dds_::".toList := rfl
    have e2 : "::dds::".toList = ':' :: ":dds::".toList := rfl
    rw [e, regex_replace_dunder_id _ _ hdu, strip_trailing_underscore_id _ hl, e1,
      regex_replace_aux_not_mem ':' _ _ _ hc, e2, regex_replace_aux_not_mem ':' _ _ _ hc]
  have hdem : demangle_dds_type_name (P ++ '/' :: (mid ++ '/' :: T)) =
      .error (.invalidName (P ++ '/' :: (mid ++ '/' :: T))) := by
    exact demangle_no_colon _ hc
  unfold make_typecode_name_mangled
  rw [hnorm]
  show (if _ = _ then _ else _) = _
  rw [if_pos rfl, hdem]
  rfl

theorem storage_form_eq (P M T : Name) :
    P ++ "::".toList ++ M ++ "::".toList ++ T = P ++ ':' :: ':' :: (M ++ ':' :: ':' :: T) := by
  have a : "::".toList = [':', ':'] := rfl
  rw [a]
  simp only [List.append_assoc, List.cons_append, List.nil_append]

theorem mangled_form_eq (P M T : Name) :
    P ++ "::".toList ++ M ++ "::dds_::".toList ++ T ++ "_".toList =
      P ++ ':' :: ':' :: (M ++ ':' :: ':' :: ("dds_".toList ++ ':' :: ':' :: (T ++ ['_']))) := by
  have a : "::".toList = [':', ':'] := rfl
  have b : "::dds_::".toList = ':' :: ':' :: ("dds_".toList ++ [':', ':']) := rfl
  have c : "_".toList = ['_'] := rfl
  rw [a, b, c]
  simp only [List.append_assoc, List.cons_append, List.nil_append]

theorem slash_form_eq (P M T : Name) :
    P ++ "/".toList ++ M ++ "/".toList ++ T = P ++ '/' :: (M ++ '/' :: T) := by
  have a : "/".toList = ['/'] := rfl
  rw [a]
  simp only [List.append_assoc, List.cons_append, List.nil_append]

/-- C19, as stated, fails: the slash form `std_msgs/msg/String` is a valid
demangled name that `make_typecode_name_mangled` refuses, so that no
demangling of its mangled name gives it back. -/
theorem mangle_slash_form_refused :
    make_typecode_name_mangled "std_msgs/msg/String".toList =
      .error (.invalidName "std_msgs/msg/String".toList) ∧
    (make_typecode_name_mangled "std_msgs/msg/String".toList >>= demangle_dds_type_name) ≠
      .ok "std_msgs/msg/String".toList ∧
    (make_typecode_name_mangled "std_msgs/msg/String".toList >>= make_typecode_name_demangled) ≠
      .ok "std_msgs/msg/String".toList := by
  decide

/-- C19, amended: for every valid demangled type name in the storage form
`package::middle::Type` (middle `msg` or `srv`, package and type non-empty
identifiers without `:`, `/` or `__`, the type not ending in `_`),
`make_typecode_name_mangled` gives `package::middle::dds_::Type_`, whose
demangling gives the name back: `make_typecode_name_demangled` returns the
storage form and `demangle_dds_type_name` returns the slash form
`package/middle/Type`. The slash form itself is refused by
`make_typecode_name_mangled`. -/
theorem mangle_demangle_round_trip (P M T : Name) (hP : IsSegment P) (hT : IsSegment T)
    (hlast : T.getLast? ≠ some '_') (hM : M = "msg".toList ∨ M = "srv".toList) :
    make_typecode_name_mangled (P ++ "::".toList ++ M ++ "::".toList ++ T) =
      .ok (P ++ "::".toList ++ M ++ "::dds_::".toList ++ T ++ "_".toList) ∧
    (make_typecode_name_mangled (P ++ "::".toList ++ M ++ "::".toList ++ T) >>=
        make_typecode_name_demangled) = .ok (P ++ "::".toList ++ M ++ "::".toList ++ T) ∧
    (make_typecode_name_mangled (P ++ "::".toList ++ M ++ "::".toList ++ T) >>=
        demangle_dds_type_name) = .ok (P ++ "/".toList ++ M ++ "/".toList ++ T) ∧
    make_typecode_name_mangled (P ++ "/".toList ++ M ++ "/".toList ++ T) =
      .error (.invalidName (P ++ "/".toList ++ M ++ "/".toList ++ T)) := by
  have hmc : ':' ∉ M := by rcases hM with rfl | rfl <;> decide
  have hmangle := mangle_storage_form P M T hP hT hlast hM
  have hnorm := normalize_mangled_form P M T hP.2.1 hT.2.1 hP.2.2.2 hT.2.2.2 hlast hM
  have hdem := demangle_mangled_form P M T hP.2.1 hmc hT.2.1
  have e : P ++ '/' :: M ++ ['/'] ++ T = P ++ '/' :: (M ++ '/' :: T) := by simp
  rw [e] at hdem
  rw [storage_form_eq, mangled_form_eq, slash_form_eq, hmangle]
  refine ⟨rfl, ?_, ?_, mangle_slash_form P M T hP hT hlast hM⟩
  · show make_typecode_name_demangled _ = _
    rw [make_typecode_name_demangled_eq, hnorm]
  · show demangle_dds_type_name _ = _
    rw [hdem]

theorem mangle_demangle_round_trip_witness :
    make_typecode_name_mangled "std_msgs::msg::String".toList =
      .ok "std_msgs::msg::dds_::String_".toList ∧
    (make_typecode_name_mangled "std_msgs::msg::String".toList >>=
        make_typecode_name_demangled) = .ok "std_msgs::msg::String".toList ∧
    (make_typecode_name_mangled "std_msgs::msg::String".toList >>=
        demangle_dds_type_name) = .ok "std_msgs/msg/String".toList ∧
    make_typecode_name_mangled "std_msgs/msg/String".toList =
      .error (.invalidName "std_msgs/msg/String".toList) :=
  mangle_demangle_round_trip "std_msgs".toList "msg".toList "String".toList
    (by unfold IsSegment; decide) (by unfold IsSegment; decide) (by decide) (Or.inl rfl)

/-- C20: for every valid mangled type name `package::middle::dds_::Type_`
(middle `msg` or `srv`, package and type non-empty identifiers without `:`,
`/` or `__`, the type not ending in `_`), `make_typecode_name_demangled`
returns `package::middle::Type`, and mangling that name gives the mangled
name back. -/
theorem demangle_mangle_round_trip (P M T : Name) (hP : IsSegment P) (hT : IsSegment T)
    (hlast : T.getLast? ≠ some '_') (hM : M = "msg".toList ∨ M = "srv".toList) :
    make_typecode_name_demangled
        (P ++ "::".toList ++ M ++ "::dds_::".toList ++ T ++ "_".toList) =
      .ok (P ++ "::".toList ++ M ++ "::".toList ++ T) ∧
    (make_typecode_name_demangled
        (P ++ "::".toList ++ M ++ "::dds_::".toList ++ T ++ "_".toList) >>=
      make_typecode_name_mangled) =
      .ok (P ++ "::".toList ++ M ++ "::dds_::".toList ++ T ++ "_".toList) := by
  have hmangle := mangle_storage_form P M T hP hT hlast hM
  have hnorm := normalize_mangled_form P M T hP.2.1 hT.2.1 hP.2.2.2 hT.2.2.2 hlast hM
  rw [storage_form_eq, mangled_form_eq, make_typecode_name_demangled_eq, hnorm]
  refine ⟨rfl, ?_⟩
  show make_typecode_name_mangled _ = _
  rw [hmangle]

theorem demangle_mangle_round_trip_witness :
    make_typecode_name_demangled "std_msgs::msg::dds_::String_".toList =
      .ok "std_msgs::msg::String".toList ∧
    (make_typecode_name_demangled "std_msgs::msg::dds_::String_".toList >>=
      make_typecode_name_mangled) = .ok "std_msgs::msg::dds_::String_".toList :=
  demangle_mangle_round_trip "std_msgs".toList "msg".toList "String".toList
    (by unfold IsSegment; decide) (by unfold IsSegment; decide) (by decide) (Or.inl rfl)

/-! ## Request and reply names -/

/-- C22, the code at the failing inputs: a name of six characters is
classified as a request and a name of seven characters other than `Request`
as a reply, although they end with none of the suffixes (`npos` equals the
wrapped `size() - sfx_len`); and `Request_FooRequest`, which ends with
`Request`, is not classified as a request, because the earlier `Request_`
is the occurrence that is compared. On names such as `AddTwoInts_Request`
the code and the classification by the ending agree. -/
theorem is_type_requestreply_wraps :
    is_type_requestreply "abcdef".toList = (true, true) ∧
    spec_is_requestreply "abcdef".toList = (false, false) ∧
    is_type_requestreply "abcdefg".toList = (true, false) ∧
    spec_is_requestreply "abcdefg".toList = (false, false) ∧
    is_type_requestreply "Request_FooRequest".toList = (false, false) ∧
    spec_is_requestreply "Request_FooRequest".toList = (true, true) ∧
    is_type_requestreply "AddTwoInts_Request".toList = (true, true) ∧
    spec_is_requestreply "AddTwoInts_Request".toList = (true, true) ∧
    is_type_requestreply "AddTwoInts_Response_".toList = (true, false) ∧
    spec_is_requestreply "AddTwoInts_Response_".toList = (true, false) := by
  decide

/-! ## The table of primitive type identifiers -/

/-- C26: `type_id_ros_to_dds` is the fixed table: BOOL gives boolean, BYTE,
UINT8 and INT8 give octet, CHAR gives char, FLOAT32 float, FLOAT64 double,
INT16 short, UINT16 ushort, INT32 long, UINT32 ulong, INT64 longlong,
UINT64 ulonglong, STRING string, WSTRING wstring, MESSAGE struct, and every
other type identifier gives the null kind. -/
theorem type_id_ros_to_dds_table :
    type_id_ros_to_dds .ROS_TYPE_BOOL = .BOOLEAN ∧
    type_id_ros_to_dds .ROS_TYPE_BYTE = .OCTET ∧
    type_id_ros_to_dds .ROS_TYPE_UINT8 = .OCTET ∧
    type_id_ros_to_dds .ROS_TYPE_INT8 = .OCTET ∧
    type_id_ros_to_dds .ROS_TYPE_CHAR = .CHAR ∧
    type_id_ros_to_dds .ROS_TYPE_FLOAT32 = .FLOAT ∧
    type_id_ros_to_dds .ROS_TYPE_FLOAT64 = .DOUBLE ∧
    type_id_ros_to_dds .ROS_TYPE_INT16 = .SHORT ∧
    type_id_ros_to_dds .ROS_TYPE_UINT16 = .USHORT ∧
    type_id_ros_to_dds .ROS_TYPE_INT32 = .LONG ∧
    type_id_ros_to_dds .ROS_TYPE_UINT32 = .ULONG ∧
    type_id_ros_to_dds .ROS_TYPE_INT64 = .LONGLONG ∧
    type_id_ros_to_dds .ROS_TYPE_UINT64 = .ULONGLONG ∧
    type_id_ros_to_dds .ROS_TYPE_STRING = .STRING ∧
    type_id_ros_to_dds .ROS_TYPE_WSTRING = .WSTRING ∧
    type_id_ros_to_dds .ROS_TYPE_MESSAGE = .STRUCT ∧
    (∀ value, type_id_ros_to_dds (.other value) = .NULL) ∧
    (∀ id, type_id_ros_to_dds id = .NULL ↔ ∃ value, id = .other value) := by
  refine ⟨rfl, rfl, rfl, rfl, rfl, rfl, rfl, rfl, rfl, rfl, rfl, rfl, rfl, rfl, rfl, rfl,
    fun _ => rfl, ?_⟩
  intro id
  cases id <;> simp [type_id_ros_to_dds]

/-! ## JSON strings -/

/-- C27, the code at the failing inputs: the value `a"b` is written as
`"a"b"`, with the inner quote unescaped, where the specification gives
`"a\"b"`; and in `a` CR LF `b` the carriage return stays in front of the
two characters `\n`. Only the replacement of the line feed, the last of the
three, reaches the output. -/
theorem json_string_keeps_quote :
    json_string ['a', char_quote, 'b'] = [char_quote, 'a', char_quote, 'b', char_quote] ∧
    spec_json_string ['a', char_quote, 'b'] =
      [char_quote, 'a', char_backslash, char_quote, 'b', char_quote] ∧
    json_string ['a', char_cr, char_lf, 'b'] =
      [char_quote, 'a', char_cr, char_backslash, 'n', 'b', char_quote] ∧
    spec_json_string ['a', char_cr, char_lf, 'b'] =
      [char_quote, 'a', char_backslash, 'n', 'b', char_quote] ∧
    json_string ['a', char_lf, 'b'] = spec_json_string ['a', char_lf, 'b'] := by
  refine ⟨by decide, ?_, by decide, ?_, ?_⟩ <;>
    simp [spec_json_string, spec_replace_every, json_string, regex_replace_lit,
      regex_replace_aux, char_quote, char_backslash, char_lf, char_cr, List.isPrefixOf]

/-! ## The input emitter -/

/-- C28: an empty line queues nothing; a non-empty line without `@` queues
the one record with the whole line as type, an empty topic and no type code;
a line `ty@topic`, where `ty` holds no `@`, queues the one record with type
`ty` and topic `topic` (further `@` stay in the topic). Nothing else of the
emitter changes. -/
theorem reader_line_queues_one_record (self : BaseInputEmitter) (line : Name) :
    (line = [] → self.reader_line line = self) ∧
    (line ≠ [] → '@' ∉ line →
      self.reader_line line =
        { self with input_queue_ := self.input_queue_ ++ [([], line, none)] }) ∧
    (∀ ty topic : Name, line = ty ++ '@' :: topic → '@' ∉ ty →
      self.reader_line line =
        { self with input_queue_ := self.input_queue_ ++ [(topic, ty, none)] }) := by
  have hat : "@".toList = ['@'] := rfl
  refine ⟨?_, ?_, ?_⟩
  · rintro rfl
    rfl
  · intro hne hno
    have hlen : ¬ (line.length = 0) := fun h => hne (List.length_eq_zero.mp h)
    have hf : str_find line ['@'] 0 = none := by
      unfold str_find
      rw [List.drop_zero]
      exact str_find_aux_not_mem '@' [] line 0 hno
    unfold BaseInputEmitter.reader_line
    rw [if_neg hlen, hat, hf]
    rfl
  · rintro ty topic rfl hno
    have hlen : ¬ ((ty ++ '@' :: topic).length = 0) := by simp
    have hf : str_find (ty ++ '@' :: topic) ['@'] 0 = some ty.length := by
      unfold str_find
      rw [List.drop_zero, str_find_aux_block ['@'] ty _ 0 (no_start_of_not_mem '@' [] ty _ hno)]
      have := str_find_aux_head ['@'] topic (0 + ty.length) (by simp)
      simpa using this
    have h1 : substr (ty ++ '@' :: topic) 0 ty.length = ty := by
      simp [substr]
    have h2 : (ty ++ '@' :: topic).drop (ty.length + 1) = topic := by
      have e : ty ++ '@' :: topic = (ty ++ ['@']) ++ topic := by simp
      have e2 : ty.length + 1 = (ty ++ ['@']).length := by simp
      rw [e, e2, List.drop_left]
    unfold BaseInputEmitter.reader_line
    rw [if_neg hlen, hat, hf]
    simp only []
    rw [h1, h2]
    rfl

theorem reader_line_queues_one_record_witness :
    (ex_emitter_stdin_first.reader_line "std_msgs/msg/String@chatter@x".toList).input_queue_ =
      [("chatter@x".toList, "std_msgs/msg/String".toList, none)] :=
  congrArg BaseInputEmitter.input_queue_
    ((reader_line_queues_one_record ex_emitter_stdin_first
      "std_msgs/msg/String@chatter@x".toList).2.2
        "std_msgs/msg/String".toList "chatter@x".toList (by decide) (by decide))

/-- C29, the code at the failing input: with the input files `-` and
`zzz.txt` the map `input_streams_` holds the key `stdin` in front of the key
`zzz.txt`, and the reader thread, which walks the map in the order of its
keys, queues the record of standard input before the record of the file. -/
theorem reader_thread_stdin_before_file :
    ex_emitter_stdin_first.open.input_streams_ =
      [("stdin".toList, .cin), ("zzz.txt".toList, .file "zzz.txt".toList)] ∧
    (ex_emitter_stdin_first.open.reader_thread ex_content).input_queue_ =
      [("t".toList, "a".toList, none), ([], "b".toList, none)] := by
  decide

theorem queue_input_queue (self : BaseInputEmitter) (topic_name type_name : Name)
    (type_tc : Option TypeCode) :
    (self.queue_input topic_name type_name type_tc).input_queue_ =
      self.input_queue_ ++ [(topic_name, type_name, type_tc)] := by
  cases type_tc <;> rfl

theorem queue_input_active (self : BaseInputEmitter) (topic_name type_name : Name)
    (type_tc : Option TypeCode) :
    (self.queue_input topic_name type_name type_tc).active_ = self.active_ := rfl

theorem next_cases (self : BaseInputEmitter) (timeout : Nat) (block : Bool)
    (h : self.active_ = true) :
    (∃ r rest, self.input_queue_ = r :: rest ∧
      self.next timeout block = ({ self with input_queue_ := rest }, .record r)) ∨
    (self.input_queue_ = [] ∧ (self.next timeout block).1 = self ∧
      ∀ r, (self.next timeout block).2 ≠ .record r) := by
  cases hq : self.input_queue_ with
  | nil =>
    right
    refine ⟨rfl, ?_, ?_⟩
    · unfold BaseInputEmitter.next
      rw [hq]
      split <;> rfl
    · intro r
      unfold BaseInputEmitter.next
      rw [hq]
      split <;> simp
  | cons r rest =>
    left
    refine ⟨r, rest, rfl, ?_⟩
    unfold BaseInputEmitter.next
    rw [hq]
    have ha : self.is_active = true := h
    simp [ha]

theorem run_queue_ops_fifo :
    ∀ (ops : List QueueOp) (self : BaseInputEmitter), self.active_ = true →
      (run_queue_ops self ops).2 ++ (run_queue_ops self ops).1.input_queue_ =
        self.input_queue_ ++ queued_records ops ∧
      (run_queue_ops self ops).1.active_ = true
  | [], self, h => by simp [run_queue_ops, queued_records, h]
  | .queue_input topic_name type_name type_tc :: rest, self, h => by
    have ih := run_queue_ops_fifo rest (self.queue_input topic_name type_name type_tc) h
    simp only [run_queue_ops, queued_records]
    rw [ih.1, queue_input_queue]
    exact ⟨by simp, ih.2⟩
  | .next timeout block :: rest, self, h => by
    rcases next_cases self timeout block h with ⟨r, q, hq, hn⟩ | ⟨hq, hs, hno⟩
    · have ih := run_queue_ops_fifo rest { self with input_queue_ := q } h
      simp only [run_queue_ops, queued_records, hn]
      rw [hq]
      refine ⟨?_, ih.2⟩
      have := ih.1
      simp only [List.cons_append]
      rw [this]
    · have ih := run_queue_ops_fifo rest self h
      have hrun : run_queue_ops self (.next timeout block :: rest) = run_queue_ops self rest := by
        simp only [run_queue_ops]
        cases hn : self.next timeout block with
        | mk s1 res =>
          have h1 : s1 = self := by rw [← hs, hn]
          cases res with
          | record r => exact absurd (by rw [hn]) (hno r)
          | no_input => simp [h1]
          | blocked => simp [h1]
      rw [hrun]
      simpa [queued_records] using ih

/-- C30: on the sequential state of an active emitter, after any sequence
of `queue_input` and `next` calls, the records returned by the `next` calls
followed by the records still queued are the records queued at the start
followed by the records passed to `queue_input`, in the same order; a call
of `next` on a non-empty queue returns its front record and removes it, a
call of `queue_input` appends at the back, and the emitter stays active. -/
theorem input_queue_fifo (self : BaseInputEmitter) (ops : List QueueOp)
    (hactive : self.active_ = true) :
    (run_queue_ops self ops).2 ++ (run_queue_ops self ops).1.input_queue_ =
      self.input_queue_ ++ queued_records ops ∧
    (run_queue_ops self ops).1.active_ = true ∧
    (∀ topic_name type_name type_tc,
      (self.queue_input topic_name type_name type_tc).input_queue_ =
        self.input_queue_ ++ [(topic_name, type_name, type_tc)]) ∧
    (∀ r rest timeout block, self.input_queue_ = r :: rest →
      self.next timeout block = ({ self with input_queue_ := rest }, .record r)) := by
  refine ⟨(run_queue_ops_fifo ops self hactive).1, (run_queue_ops_fifo ops self hactive).2,
    fun t ty tc => queue_input_queue self t ty tc, ?_⟩
  intro r rest timeout block hq
  rcases next_cases self timeout block hactive with ⟨r2, q, hq2, hn⟩ | ⟨hq2, _, _⟩
  · rw [hq] at hq2
    cases hq2
    exact hn
  · rw [hq] at hq2
    cases hq2

theorem input_queue_fifo_witness :
    (run_queue_ops ex_emitter_stdin_first
      [.queue_input [] "a".toList none, .next 0 true, .queue_input [] "b".toList none,
        .queue_input [] "c".toList none, .next 0 true, .next 0 false, .next 0 false]).2 =
      [([], "a".toList, none), ([], "b".toList, none), ([], "c".toList, none)] := by
  have h := (input_queue_fifo ex_emitter_stdin_first
      [.queue_input [] "a".toList none, .next 0 true, .queue_input [] "b".toList none,
        .queue_input [] "c".toList none, .next 0 true, .next 0 false, .next 0 false] rfl).1
  have hq : (run_queue_ops ex_emitter_stdin_first
      [.queue_input [] "a".toList none, .next 0 true, .queue_input [] "b".toList none,
        .queue_input [] "c".toList none, .next 0 true, .next 0 false, .next 0 false]).1.input_queue_ =
      [] := by decide
  rw [hq, List.append_nil] at h
  exact h

/-! ## The mangling transform undone -/

theorem mangle_leaf_no_struct (f : Name → Except Err Name) (g : Name → Name) :
    ∀ e : TypeCode, struct_leaf e = false → mangle_leaf f g e = .ok none
  | .sequence _ e, h => by
    simp only [struct_leaf] at h
    simp only [mangle_leaf]
    exact mangle_leaf_no_struct f g e h
  | .array _ e, h => by
    simp only [struct_leaf] at h
    simp only [mangle_leaf]
    exact mangle_leaf_no_struct f g e h
  | .struct _ _, h => by simp [struct_leaf] at h
  | .prim _, _ => by simp [mangle_leaf]
  | .string _, _ => by simp [mangle_leaf]
  | .wstring _, _ => by simp [mangle_leaf]
  | .enum _ _, _ => by simp [mangle_leaf]
  | .union _ _, _ => by simp [mangle_leaf]
  | .value _ _ _, _ => by simp [mangle_leaf]

theorem valid_mangled_name_round_trip {n : Name} (h : ValidMangledName n) :
    ∃ d, make_typecode_name_demangled n = .ok d ∧ make_typecode_name_mangled d = .ok n := by
  obtain ⟨P, M, T, hP, hT, hlast, hM, rfl⟩ := h
  refine ⟨P ++ ':' :: ':' :: (M ++ ':' :: ':' :: T), ?_, ?_⟩
  · rw [mangled_form_eq, make_typecode_name_demangled_eq]
    exact normalize_mangled_form P M T hP.2.1 hT.2.1 hP.2.2.2 hT.2.2.2 hlast hM
  · rw [mangled_form_eq]
    exact mangle_storage_form P M T hP hT hlast hM

theorem valid_member_name_round_trip (legacy : Bool) (m : Name)
    (h : valid_mangled_member_name legacy m = true) :
    make_typecode_member_name_mangled (make_typecode_member_name_demangled m) legacy = m := by
  unfold valid_mangled_member_name at h
  cases legacy with
  | false =>
    simp only [Bool.false_eq_true, if_false, Bool.and_eq_true, Bool.not_eq_true',
      beq_eq_false_iff_ne, ne_eq] at h
    simp [make_typecode_member_name_mangled, make_typecode_member_name_demangled, h.1]
  | true =>
    simp only [if_true, Bool.and_eq_true, Bool.not_eq_true', beq_iff_eq,
      beq_eq_false_iff_ne, ne_eq] at h
    obtain ⟨⟨h1, h2⟩, _⟩ := h
    have hm : m.dropLast ++ ['_'] = m := List.dropLast_append_getLast? '_' (by simp [h1])
    simp [make_typecode_member_name_mangled, make_typecode_member_name_demangled, h1, h2, hm]

theorem mangle_member_type_collection_kept (f : Name → Except Err Name) (g : Name → Name)
    (e : TypeCode) (h : struct_leaf e = false) :
    (∀ b, mangle_member_type f g (.sequence b e) = .ok (.sequence b e)) ∧
    (∀ d, mangle_member_type f g (.array d e) = .ok (.array d e)) := by
  constructor
  · intro b
    simp only [mangle_member_type, mangle_leaf_no_struct f g e h]
  · intro d
    simp only [mangle_member_type, mangle_leaf_no_struct f g e h]

theorem mangle_struct_of_members (f : Name → Except Err Name) (g : Name → Name)
    (n k : Name) (ms ms2 : Members) (hn : f n = .ok k) (hms : mangle_members f g ms = .ok ms2) :
    mangle_member_type f g (.struct n ms) = .ok (.struct k ms2) ∧
    mangle_leaf f g (.struct n ms) = .ok (some (.struct k ms2)) ∧
    (∀ b, mangle_member_type f g (.sequence b (.struct n ms)) =
      .ok (.sequence b (.struct k ms2))) ∧
    (∀ d, mangle_member_type f g (.array d (.struct n ms)) =
      .ok (.array d (.struct k ms2))) := by
  refine ⟨?_, ?_, ?_, ?_⟩
  · simp only [mangle_member_type, hn, hms]
  · simp only [mangle_leaf, hn, hms]
  · intro b
    simp only [mangle_member_type, mangle_leaf, hn, hms]
  · intro d
    simp only [mangle_member_type, mangle_leaf, hn, hms]

mutual
/-- Demangling and then mangling a valid mangled member type gives the
type back. -/
theorem mangle_member_type_round_trip (legacy : Bool) :
    ∀ t : TypeCode, ValidMangled legacy t →
      ∃ t2, mangle_member_type make_typecode_name_demangled
          make_typecode_member_name_demangled t = .ok t2 ∧
        mangle_member_type make_typecode_name_mangled
          (fun m => make_typecode_member_name_mangled m legacy) t2 = .ok t
  | .struct n ms, h => by
    simp only [ValidMangled] at h
    obtain ⟨d, hd, hm⟩ := valid_mangled_name_round_trip h.1
    obtain ⟨ms2, h1, h2⟩ := mangle_members_round_trip legacy ms h.2
    exact ⟨.struct d ms2, (mangle_struct_of_members _ _ n d ms ms2 hd h1).1,
      (mangle_struct_of_members _ _ d n ms2 ms hm h2).1⟩
  | .sequence b (.struct n ms), h => by
    simp only [ValidMangled, ValidMangledElement] at h
    obtain ⟨d, hd, hm⟩ := valid_mangled_name_round_trip h.1
    obtain ⟨ms2, h1, h2⟩ := mangle_members_round_trip legacy ms h.2
    exact ⟨.sequence b (.struct d ms2), (mangle_struct_of_members _ _ n d ms ms2 hd h1).2.2.1 b,
      (mangle_struct_of_members _ _ d n ms2 ms hm h2).2.2.1 b⟩
  | .array dims (.struct n ms), h => by
    simp only [ValidMangled, ValidMangledElement] at h
    obtain ⟨d, hd, hm⟩ := valid_mangled_name_round_trip h.1
    obtain ⟨ms2, h1, h2⟩ := mangle_members_round_trip legacy ms h.2
    exact ⟨.array dims (.struct d ms2),
      (mangle_struct_of_members _ _ n d ms ms2 hd h1).2.2.2 dims,
      (mangle_struct_of_members _ _ d n ms2 ms hm h2).2.2.2 dims⟩
  | .sequence b (.sequence b2 e), h => by
    simp only [ValidMangled, ValidMangledElement] at h
    exact ⟨_, (mangle_member_type_collection_kept _ _ (.sequence b2 e) h).1 b,
      (mangle_member_type_collection_kept _ _ (.sequence b2 e) h).1 b⟩
  | .sequence b (.array d2 e), h => by
    simp only [ValidMangled, ValidMangledElement] at h
    exact ⟨_, (mangle_member_type_collection_kept _ _ (.array d2 e) h).1 b,
      (mangle_member_type_collection_kept _ _ (.array d2 e) h).1 b⟩
  | .array dims (.sequence b2 e), h => by
    simp only [ValidMangled, ValidMangledElement] at h
    exact ⟨_, (mangle_member_type_collection_kept _ _ (.sequence b2 e) h).2 dims,
      (mangle_member_type_collection_kept _ _ (.sequence b2 e) h).2 dims⟩
  | .array dims (.array d2 e), h => by
    simp only [ValidMangled, ValidMangledElement] at h
    exact ⟨_, (mangle_member_type_collection_kept _ _ (.array d2 e) h).2 dims,
      (mangle_member_type_collection_kept _ _ (.array d2 e) h).2 dims⟩
  | .sequence b (.prim k), _ =>
    ⟨_, (mangle_member_type_collection_kept _ _ (.prim k) rfl).1 b,
      (mangle_member_type_collection_kept _ _ (.prim k) rfl).1 b⟩
  | .sequence b (.string k), _ =>
    ⟨_, (mangle_member_type_collection_kept _ _ (.string k) rfl).1 b,
      (mangle_member_type_collection_kept _ _ (.string k) rfl).1 b⟩
  | .sequence b (.wstring k), _ =>
    ⟨_, (mangle_member_type_collection_kept _ _ (.wstring k) rfl).1 b,
      (mangle_member_type_collection_kept _ _ (.wstring k) rfl).1 b⟩
  | .sequence b (.enum n ls), _ =>
    ⟨_, (mangle_member_type_collection_kept _ _ (.enum n ls) rfl).1 b,
      (mangle_member_type_collection_kept _ _ (.enum n ls) rfl).1 b⟩
  | .sequence b (.union n ms), _ =>
    ⟨_, (mangle_member_type_collection_kept _ _ (.union n ms) rfl).1 b,
      (mangle_member_type_collection_kept _ _ (.union n ms) rfl).1 b⟩
  | .sequence b (.value n bs ms), _ =>
    ⟨_, (mangle_member_type_collection_kept _ _ (.value n bs ms) rfl).1 b,
      (mangle_member_type_collection_kept _ _ (.value n bs ms) rfl).1 b⟩
  | .array dims (.prim k), _ =>
    ⟨_, (mangle_member_type_collection_kept _ _ (.prim k) rfl).2 dims,
      (mangle_member_type_collection_kept _ _ (.prim k) rfl).2 dims⟩
  | .array dims (.string k), _ =>
    ⟨_, (mangle_member_type_collection_kept _ _ (.string k) rfl).2 dims,
      (mangle_member_type_collection_kept _ _ (.string k) rfl).2 dims⟩
  | .array dims (.wstring k), _ =>
    ⟨_, (mangle_member_type_collection_kept _ _ (.wstring k) rfl).2 dims,
      (mangle_member_type_collection_kept _ _ (.wstring k) rfl).2 dims⟩
  | .array dims (.enum n ls), _ =>
    ⟨_, (mangle_member_type_collection_kept _ _ (.enum n ls) rfl).2 dims,
      (mangle_member_type_collection_kept _ _ (.enum n ls) rfl).2 dims⟩
  | .array dims (.union n ms), _ =>
    ⟨_, (mangle_member_type_collection_kept _ _ (.union n ms) rfl).2 dims,
      (mangle_member_type_collection_kept _ _ (.union n ms) rfl).2 dims⟩
  | .array dims (.value n bs ms), _ =>
    ⟨_, (mangle_member_type_collection_kept _ _ (.value n bs ms) rfl).2 dims,
      (mangle_member_type_collection_kept _ _ (.value n bs ms) rfl).2 dims⟩
  | .prim k, _ => ⟨.prim k, by simp [mangle_member_type], by simp [mangle_member_type]⟩
  | .string k, _ => ⟨.string k, by simp [mangle_member_type], by simp [mangle_member_type]⟩
  | .wstring k, _ => ⟨.wstring k, by simp [mangle_member_type], by simp [mangle_member_type]⟩
  | .enum n ls, _ => ⟨.enum n ls, by simp [mangle_member_type], by simp [mangle_member_type]⟩
  | .union n ms, _ => ⟨.union n ms, by simp [mangle_member_type], by simp [mangle_member_type]⟩
  | .value n bs ms, _ =>
    ⟨.value n bs ms, by simp [mangle_member_type], by simp [mangle_member_type]⟩
/-- Demangling and then mangling a valid mangled member list gives the list
back. -/
theorem mangle_members_round_trip (legacy : Bool) :
    ∀ ms : Members, ValidMangledMembers legacy ms →
      ∃ ms2, mangle_members make_typecode_name_demangled
          make_typecode_member_name_demangled ms = .ok ms2 ∧
        mangle_members make_typecode_name_mangled
          (fun m => make_typecode_member_name_mangled m legacy) ms2 = .ok ms
  | .nil, _ => ⟨.nil, by simp [mangle_members], by simp [mangle_members]⟩
  | .cons m t rest, h => by
    simp only [ValidMangledMembers] at h
    obtain ⟨t2, ht1, ht2⟩ := mangle_member_type_round_trip legacy t h.2.1
    obtain ⟨r2, hr1, hr2⟩ := mangle_members_round_trip legacy rest h.2.2
    refine ⟨.cons (make_typecode_member_name_demangled m) t2 r2, ?_, ?_⟩
    · simp only [mangle_members, ht1, hr1]
    · simp only [mangle_members, ht2, hr2]
      rw [valid_member_name_round_trip legacy m h.1]
end

theorem mangle_typecode_recur_struct (f : Name → Except Err Name) (g : Name → Name)
    (n : Name) (ms : Members) :
    mangle_typecode_recur (.struct n ms) f g = mangle_member_type f g (.struct n ms) := by
  unfold mangle_typecode_recur
  simp only [DDS_TypeCode_name, mangle_member_type]

/-- C21, as stated, fails: with the default options the member name `x_`
of the valid mangled struct `p::msg::dds_::T_ { long x_ }` comes back as
`x`, because the trailing `_` that demangling removes is only appended
again in legacy mode; and in legacy mode the member name `x` of
`p::msg::dds_::T_ { long x }` comes back as `x_`. -/
theorem mangle_demangle_changes_member_name :
    (ex_empty.demangle_typecode ex_T_mangled >>= ex_empty.mangle_typecode) =
      .ok ex_T_mangled_plain ∧
    DDS_TypeCode_equal ex_T_mangled_plain ex_T_mangled = false ∧
    ((TypeCache.empty ex_legacy_options).demangle_typecode ex_T_mangled_plain >>=
      (TypeCache.empty ex_legacy_options).mangle_typecode) = .ok ex_T_mangled ∧
    DDS_TypeCode_equal ex_T_mangled ex_T_mangled_plain = false := by
  decide

/-- C21, amended: for every cache (every option set) and every valid
mangled struct descriptor (`ValidMangled`: mangled type names, a collection
member over a struct has a single level) whose member names are in the
mangled form of the option set (ending in exactly one `_` in legacy mode,
not ending in `_` otherwise), `mangle_typecode(demangle_typecode(tc))`
succeeds and is structurally equal to `tc`. -/
theorem mangle_demangle_typecode (c : TypeCache) (n : Name) (ms : Members)
    (h : ValidMangled c.options_.legacy_rmw_compatible (.struct n ms)) :
    (c.demangle_typecode (.struct n ms) >>= c.mangle_typecode) = .ok (.struct n ms) ∧
    ∃ d r, c.demangle_typecode (.struct n ms) = .ok d ∧ c.mangle_typecode d = .ok r ∧
      DDS_TypeCode_equal r (.struct n ms) = true := by
  obtain ⟨t2, h1, h2⟩ :=
    mangle_member_type_round_trip c.options_.legacy_rmw_compatible (.struct n ms) h
  have hd : c.demangle_typecode (.struct n ms) = .ok t2 := by
    unfold TypeCache.demangle_typecode
    rw [mangle_typecode_recur_struct]
    exact h1
  have ht2 : ∃ k ms2, t2 = .struct k ms2 := by
    simp only [mangle_member_type] at h1
    split at h1
    · cases h1
    · split at h1
      · cases h1
      · cases h1
        exact ⟨_, _, rfl⟩
  obtain ⟨k, ms2, rfl⟩ := ht2
  have hm : c.mangle_typecode (.struct k ms2) = .ok (.struct n ms) := by
    unfold TypeCache.mangle_typecode
    rw [mangle_typecode_recur_struct]
    exact h2
  refine ⟨?_, _, _, hd, hm, ?_⟩
  · rw [hd]
    exact hm
  · simp [DDS_TypeCode_equal]

theorem mangle_demangle_typecode_witness :
    (ex_empty.demangle_typecode ex_T_nesting >>= ex_empty.mangle_typecode) = .ok ex_T_nesting :=
  have hT : ValidMangledName "p::msg::dds_::T_".toList :=
    ⟨"p".toList, "msg".toList, "T".toList, by unfold IsSegment; decide,
      by unfold IsSegment; decide, by decide, Or.inl rfl, by decide⟩
  have hN : ValidMangledName "p::msg::dds_::N_".toList :=
    ⟨"p".toList, "msg".toList, "N".toList, by unfold IsSegment; decide,
      by unfold IsSegment; decide, by decide, Or.inl rfl, by decide⟩
  (mangle_demangle_typecode ex_empty "p::msg::dds_::T_".toList _
    (by
      show ValidMangled false _
      simp only [ValidMangled, ValidMangledMembers, ValidMangledElement, ex_N_mangled, ex_long]
      exact ⟨hT, by decide, trivial, by decide, ⟨hN, by decide, trivial, trivial⟩, by decide,
        ⟨hN, by decide, trivial, trivial⟩, by decide, trivial, trivial⟩)).1

/-! ## Conversion of introspection members -/

theorem convert_header_options {typecodes : HeaderTypeCodes} {st st1 : ConvertState}
    {root rr is_req : Bool} {h : Option TypeCode}
    (hc : convert_header typecodes st root rr is_req = .ok (st1, h)) :
    st1.cache.options_ = st.cache.options_ ∧
    (h.isSome = (select_header st.cache.options_ root rr is_req).isSome) := by
  unfold convert_header at hc
  cases hs : select_header st.cache.options_ root rr is_req with
  | none =>
    simp only [hs, Except.ok.injEq, Prod.mk.injEq] at hc
    obtain ⟨rfl, rfl⟩ := hc
    exact ⟨rfl, rfl⟩
  | some kind =>
    simp only [hs] at hc
    cases ha : st.cache.assert_typecode (typecodes.get kind) true [] with
    | mk c1 res =>
      cases res with
      | error e => simp [ha] at hc
      | ok r =>
        obtain ⟨newly, hnew, hal⟩ := r
        simp only [ha] at hc
        have hopt : c1.options_ = st.cache.options_ := by
          obtain ⟨a, n, k, _, _, hcase⟩ := assert_typecode_ok ha
          rcases hcase with ⟨_, h1, _⟩ | ⟨_, added, al, _, _, h1, _⟩
          · rw [h1]
          · exact h1
        split at hc
        · cases hc
        · simp only [Except.ok.injEq, Prod.mk.injEq] at hc
          obtain ⟨rfl, rfl⟩ := hc
          exact ⟨hopt, rfl⟩

theorem convert_member_collection_options {st st1 : ConvertState} {is_array_ : Bool}
    {array_size_ : Nat} {is_upper_bound_ : Bool} {el ty : TypeCode}
    (h : convert_member_collection st is_array_ array_size_ is_upper_bound_ el = .ok (st1, ty)) :
    st1.cache.options_ = st.cache.options_ := by
  unfold convert_member_collection at h
  split at h
  · split at h
    · split at h
      · cases h
      · simp only [Except.ok.injEq, Prod.mk.injEq] at h
        obtain ⟨rfl, _⟩ := h
        rfl
    · split at h
      · cases h
      · simp only [Except.ok.injEq, Prod.mk.injEq] at h
        obtain ⟨rfl, _⟩ := h
        rfl
  · simp only [Except.ok.injEq, Prod.mk.injEq] at h
    obtain ⟨rfl, _⟩ := h
    rfl

theorem assert_typecode_with_options
    {convert : ConvertState → Except Err (ConvertState × Members)} {st st1 : ConvertState}
    {type_fqname : Name} {new_type : Bool}
    (hconv : ∀ s s1 r, convert s = .ok (s1, r) → s1.cache.options_ = s.cache.options_)
    (h : assert_typecode_with convert st type_fqname = .ok (st1, new_type)) :
    st1.cache.options_ = st.cache.options_ := by
  unfold assert_typecode_with at h
  split at h
  · cases h
  · split at h
    · cases h
    · simp only [Except.ok.injEq, Prod.mk.injEq] at h
      obtain ⟨rfl, _⟩ := h
      rfl
    · split at h
      · cases h
      · rename_i st2 tc_members hcv
        simp only [] at h
        split at h
        · cases h
        · rename_i c2 hins
          simp only [Except.ok.injEq, Prod.mk.injEq] at h
          obtain ⟨rfl, _⟩ := h
          obtain ⟨_, _, _, _, hopt, _⟩ := insert_ok_fields hins
          show c2.options_ = _
          rw [hopt]
          exact hconv _ _ _ hcv

mutual
theorem convert_typesupport_member_options (typecodes : HeaderTypeCodes) :
    ∀ (member : MessageMember) (st st1 : ConvertState) (rr is_req : Bool) (ty : TypeCode),
      convert_typesupport_member typecodes member st rr is_req = .ok (st1, ty) →
      st1.cache.options_ = st.cache.options_
  | .mk _ type_id_ sub members_ is_array_ array_size_ is_ub, st, st1, rr, is_req, ty, h => by
    simp only [convert_typesupport_member] at h
    split at h
    · cases h
    · rename_i st0 el hel
      have h1 := convert_member_element_options typecodes members_ st st0 type_id_ sub rr is_req
        el hel
      have h2 := convert_member_collection_options h
      rw [h2, h1]
theorem convert_member_element_options (typecodes : HeaderTypeCodes) :
    ∀ (members_ : NestedSupport) (st st1 : ConvertState) (type_id_ : RosTypeId) (sub : Nat)
      (rr is_req : Bool) (el : TypeCode),
      convert_member_element typecodes members_ st type_id_ sub rr is_req = .ok (st1, el) →
      st1.cache.options_ = st.cache.options_
  | .unresolved, st, st1, type_id_, sub, rr, is_req, el, h => by
    cases type_id_ <;> simp only [convert_member_element, type_id_ros_to_dds,
      DDS_TypeCodeFactory_get_primitive_tc, Except.ok.injEq, Prod.mk.injEq] at h <;>
      first
      | (obtain ⟨rfl, _⟩ := h; rfl)
      | cases h
  | .resolved ts, st, st1, type_id_, sub, rr, is_req, el, h => by
    cases type_id_ <;> simp only [convert_member_element, type_id_ros_to_dds,
      DDS_TypeCodeFactory_get_primitive_tc, Except.ok.injEq, Prod.mk.injEq] at h <;>
      first
      | (obtain ⟨rfl, _⟩ := h; rfl)
      | cases h
      | skip
    split at h
    · cases h
    · rename_i st2 new_type ha
      split at h
      · cases h
      · simp only [Except.ok.injEq, Prod.mk.injEq] at h
        obtain ⟨rfl, _⟩ := h
        exact assert_typecode_with_options
          (fun s s1 r hc => convert_typesupport_members_options typecodes ts s s1 rr is_req
            false r hc) ha
theorem convert_typesupport_members_options (typecodes : HeaderTypeCodes) :
    ∀ (members : MessageMembers) (st st1 : ConvertState) (rr is_req root : Bool) (r : Members),
      convert_typesupport_members typecodes members st rr is_req root = .ok (st1, r) →
      st1.cache.options_ = st.cache.options_
  | .mk _ _ members_, st, st1, rr, is_req, root, r, h => by
    simp only [convert_typesupport_members] at h
    split at h
    · cases h
    · rename_i st0 hdr hh
      split at h
      · cases h
      · rename_i st2 ms hl
        have h1 := (convert_header_options hh).1
        have h2 := convert_members_loop_options typecodes members_ st0 st2 rr is_req ms hl
        split at h <;>
          (simp only [Except.ok.injEq, Prod.mk.injEq] at h
           obtain ⟨rfl, _⟩ := h
           rw [h2, h1])
theorem convert_members_loop_options (typecodes : HeaderTypeCodes) :
    ∀ (members_ : MessageMemberList) (st st1 : ConvertState) (rr is_req : Bool) (r : Members),
      convert_members_loop typecodes members_ st rr is_req = .ok (st1, r) →
      st1.cache.options_ = st.cache.options_
  | .nil, st, st1, rr, is_req, r, h => by
    simp only [convert_members_loop, Except.ok.injEq, Prod.mk.injEq] at h
    obtain ⟨rfl, _⟩ := h
    rfl
  | .cons member rest, st, st1, rr, is_req, r, h => by
    simp only [convert_members_loop] at h
    split at h
    · cases h
    · split at h
      · cases h
      · split at h
        · cases h
        · rename_i st0 ty hm
          split at h
          · cases h
          · rename_i st2 ms hl
            simp only [Except.ok.injEq, Prod.mk.injEq] at h
            obtain ⟨rfl, _⟩ := h
            have h1 := convert_typesupport_member_options typecodes member st st0 rr is_req ty hm
            have h2 := convert_members_loop_options typecodes rest st0 st2 rr is_req ms hl
            rw [h2, h1]
end

theorem convert_members_loop_layout (typecodes : HeaderTypeCodes) :
    ∀ (members_ : MessageMemberList) (st st2 : ConvertState) (rr is_req : Bool) (r : Members),
      convert_members_loop typecodes members_ st rr is_req = .ok (st2, r) →
      r.toList.length = members_.toList.length ∧
      ∀ i, i < members_.toList.length → ∃ member name_ sti sti2 ty,
        members_.toList[i]? = some member ∧ member.name_ = some name_ ∧
        sti.cache.options_ = st.cache.options_ ∧
        convert_typesupport_member typecodes member sti rr is_req = .ok (sti2, ty) ∧
        r.toList[i]? =
          some ((if st.cache.options_.legacy_rmw_compatible then name_ ++ "_".toList
                 else name_), ty)
  | .nil, st, st2, rr, is_req, r, h => by
    simp only [convert_members_loop, Except.ok.injEq, Prod.mk.injEq] at h
    obtain ⟨_, rfl⟩ := h
    refine ⟨rfl, ?_⟩
    intro i hi
    simp [MessageMemberList.toList] at hi
  | .cons member rest, st, st2, rr, is_req, r, h => by
    simp only [convert_members_loop] at h
    split at h
    · cases h
    · rename_i name_ hname
      split at h
      · cases h
      · split at h
        · cases h
        · rename_i st0 ty hm
          split at h
          · cases h
          · rename_i st1 ms hl
            simp only [Except.ok.injEq, Prod.mk.injEq] at h
            obtain ⟨_, rfl⟩ := h
            have hopt := convert_typesupport_member_options typecodes member st st0 rr is_req
              ty hm
            obtain ⟨hlen, hrest⟩ := convert_members_loop_layout typecodes rest st0 st1 rr
              is_req ms hl
            refine ⟨by simp [Members.toList, MessageMemberList.toList, hlen], ?_⟩
            intro i hi
            cases i with
            | zero =>
              exact ⟨member, name_, st, st0, ty, by simp [MessageMemberList.toList], hname, rfl,
                hm, by simp [Members.toList]⟩
            | succ j =>
              have hj : j < rest.toList.length := by
                simp [MessageMemberList.toList] at hi
                exact hi
              obtain ⟨m, nm, sti, sti2, t, h1, h2, h3, h4, h5⟩ := hrest j hj
              refine ⟨m, nm, sti, sti2, t, by simpa [MessageMemberList.toList] using h1, h2,
                by rw [h3, hopt], h4, ?_⟩
              rw [hopt] at h5
              simpa [Members.toList] using h5

/-- C24: when `convert_typesupport_members` returns the member sequence of a
member list of `n` records, then with a synthetic header chosen the
sequence has `n + 1` members, member 0 is `_header`, and member `i + 1` is
the conversion of record `i` (its name, with `_` appended in legacy mode,
and the type that `convert_typesupport_member` returns for it); with no
header chosen the sequence has `n` members and member `i` is the conversion
of record `i`. -/
theorem convert_typesupport_members_layout (typecodes : HeaderTypeCodes)
    (members : MessageMembers) (st st2 : ConvertState) (rr is_req root : Bool)
    (tc_members : Members)
    (h : convert_typesupport_members typecodes members st rr is_req root = .ok (st2, tc_members)) :
    (∀ kind, select_header st.cache.options_ root rr is_req = some kind →
      tc_members.toList.length = members.member_count_ + 1 ∧
      (∃ tc_header, tc_members.toList[0]? = some ("_header".toList, tc_header)) ∧
      ∀ i, i < members.member_count_ → ∃ member name_ sti sti2 ty,
        members.members_[i]? = some member ∧ member.name_ = some name_ ∧
        sti.cache.options_ = st.cache.options_ ∧
        convert_typesupport_member typecodes member sti rr is_req = .ok (sti2, ty) ∧
        tc_members.toList[i + 1]? =
          some ((if st.cache.options_.legacy_rmw_compatible then name_ ++ "_".toList
                 else name_), ty)) ∧
    (select_header st.cache.options_ root rr is_req = none →
      tc_members.toList.length = members.member_count_ ∧
      ∀ i, i < members.member_count_ → ∃ member name_ sti sti2 ty,
        members.members_[i]? = some member ∧ member.name_ = some name_ ∧
        sti.cache.options_ = st.cache.options_ ∧
        convert_typesupport_member typecodes member sti rr is_req = .ok (sti2, ty) ∧
        tc_members.toList[i]? =
          some ((if st.cache.options_.legacy_rmw_compatible then name_ ++ "_".toList
                 else name_), ty)) := by
  obtain ⟨ns, nm, members_⟩ := members
  simp only [convert_typesupport_members] at h
  split at h
  · cases h
  · rename_i st0 hdr hh
    split at h
    · cases h
    · rename_i st1 ms hl
      obtain ⟨hopt, hsome⟩ := convert_header_options hh
      obtain ⟨hlen, hrest⟩ := convert_members_loop_layout typecodes members_ st0 st1 rr is_req
        ms hl
      rw [hopt] at hrest
      constructor
      · intro kind hk
        rw [hk] at hsome
        cases hdr with
        | none => simp at hsome
        | some tc_header =>
          simp only [Except.ok.injEq, Prod.mk.injEq] at h
          obtain ⟨_, rfl⟩ := h
          refine ⟨by simp [Members.toList, MessageMembers.member_count_,
            MessageMembers.members_, hlen], ⟨tc_header, by simp [Members.toList]⟩, ?_⟩
          intro i hi
          obtain ⟨m, n2, sti, sti2, t, h1, h2, h3, h4, h5⟩ := hrest i hi
          exact ⟨m, n2, sti, sti2, t, h1, h2, h3, h4,
            by simpa [Members.toList] using h5⟩
      · intro hk
        rw [hk] at hsome
        cases hdr with
        | some tc_header => simp at hsome
        | none =>
          simp only [Except.ok.injEq, Prod.mk.injEq] at h
          obtain ⟨_, rfl⟩ := h
          refine ⟨by simp [MessageMembers.member_count_, MessageMembers.members_, hlen], ?_⟩
          intro i hi
          obtain ⟨m, n2, sti, sti2, t, h1, h2, h3, h4, h5⟩ := hrest i hi
          exact ⟨m, n2, sti, sti2, t, h1, h2, h3, h4, h5⟩

theorem convert_typesupport_members_layout_witness :
    ex_request_result.2.toList.length = ex_request_members.member_count_ + 1 ∧
    (∃ tc_header, ex_request_result.2.toList[0]? = some ("_header".toList, tc_header)) :=
  have h := (convert_typesupport_members_layout ex_headers ex_request_members ex_basic_state
    ex_request_result.1 true true true ex_request_result.2 (by decide)).1 .RequestHeader
    (by decide)
  ⟨h.1, h.2.1⟩

/-- C25, as stated, fails: a member record with `is_array_` set,
`array_size_ = 2147483648 > 0` and `is_upper_bound_` not set is not
converted to an array of that dimension, the conversion throws
`unrepresentable array length`. -/
theorem convert_typesupport_member_array_too_long :
    ex_member_big.is_array_ = true ∧ ex_member_big.array_size_ > 0 ∧
    ex_member_big.is_upper_bound_ = false ∧
    convert_typesupport_member ex_headers ex_member_big ex_basic_state false false =
      .error (.runtimeError "unrepresentable array length".toList) := by
  decide

/-- C25, amended: for every member record whose element type `el` is
created, `convert_typesupport_member` returns `el` unwrapped when
`is_array_` is not set; with `is_array_` set it returns the one-dimensional
array of dimension `array_size_` when `0 < array_size_ <= INT32_MAX` and
`is_upper_bound_` is not set, the sequence bounded by `array_size_` when
`is_upper_bound_` is set and `array_size_ < INT32_MAX`, the unbounded
sequence when `is_upper_bound_` is set and `array_size_ = INT32_MAX` (the
length that stands for unbounded) or when `is_upper_bound_` is not set and
`array_size_ = 0`, and throws for an array or a bounded sequence with
`array_size_ > INT32_MAX`; the collection created is appended to
`tc_cache_`. The element of a string or wstring member is bounded by
`string_upper_bound_` when that is positive, below `2 ^ 32` and not
`INT32_MAX`, and unbounded when it is `0` or `INT32_MAX`. -/
theorem convert_typesupport_member_wraps (typecodes : HeaderTypeCodes) (member : MessageMember)
    (st st1 : ConvertState) (rr is_req : Bool) (el : TypeCode)
    (hel : convert_member_element typecodes member.members_ st member.type_id_
      member.string_upper_bound_ rr is_req = .ok (st1, el)) :
    (member.is_array_ = false →
      convert_typesupport_member typecodes member st rr is_req = .ok (st1, el)) ∧
    (member.is_array_ = true → member.is_upper_bound_ = false → 0 < member.array_size_ →
      member.array_size_ ≤ INT32_MAX →
      convert_typesupport_member typecodes member st rr is_req =
        .ok ({ st1 with cache := st1.cache.insert_typecode (.array [member.array_size_] el) },
          .array [member.array_size_] el)) ∧
    (member.is_array_ = true → member.is_upper_bound_ = false → INT32_MAX < member.array_size_ →
      convert_typesupport_member typecodes member st rr is_req =
        .error (.runtimeError "unrepresentable array length".toList)) ∧
    (member.is_array_ = true → member.is_upper_bound_ = true → member.array_size_ < INT32_MAX →
      convert_typesupport_member typecodes member st rr is_req =
        .ok ({ st1 with
                cache := (st1.cache.insert_typecode
                  (.sequence (.bounded member.array_size_) el)) },
          .sequence (.bounded member.array_size_) el)) ∧
    (member.is_array_ = true →
      (member.is_upper_bound_ = true ∧ member.array_size_ = INT32_MAX ∨
        member.is_upper_bound_ = false ∧ member.array_size_ = 0) →
      convert_typesupport_member typecodes member st rr is_req =
        .ok ({ st1 with cache := st1.cache.insert_typecode (.sequence .unbounded el) },
          .sequence .unbounded el)) ∧
    (member.is_array_ = true → member.is_upper_bound_ = true → INT32_MAX < member.array_size_ →
      convert_typesupport_member typecodes member st rr is_req =
        .error (.runtimeError "unrepresentable sequence length".toList)) ∧
    (member.type_id_ = .ROS_TYPE_STRING →
      (member.string_upper_bound_ = 0 ∨ member.string_upper_bound_ = INT32_MAX →
        el = .string .unbounded) ∧
      (0 < member.string_upper_bound_ → member.string_upper_bound_ < 4294967296 →
        member.string_upper_bound_ ≠ INT32_MAX →
        el = .string (.bounded member.string_upper_bound_))) ∧
    (member.type_id_ = .ROS_TYPE_WSTRING →
      (member.string_upper_bound_ = 0 ∨ member.string_upper_bound_ = INT32_MAX →
        el = .wstring .unbounded) ∧
      (0 < member.string_upper_bound_ → member.string_upper_bound_ < 4294967296 →
        member.string_upper_bound_ ≠ INT32_MAX →
        el = .wstring (.bounded member.string_upper_bound_))) := by
  obtain ⟨name_, type_id_, sub, members_, is_array_, array_size_, is_ub⟩ := member
  simp only [MessageMember.members_, MessageMember.type_id_, MessageMember.string_upper_bound_,
    MessageMember.is_array_, MessageMember.array_size_, MessageMember.is_upper_bound_] at hel ⊢
  have hconv : convert_typesupport_member typecodes
      (.mk name_ type_id_ sub members_ is_array_ array_size_ is_ub) st rr is_req =
      convert_member_collection st1 is_array_ array_size_ is_ub el := by
    simp only [convert_typesupport_member, hel]
  rw [hconv]
  have hmax : INT32_MAX = 2147483647 := rfl
  refine ⟨?_, ?_, ?_, ?_, ?_, ?_, ?_, ?_⟩
  · rintro rfl
    simp [convert_member_collection]
  · rintro rfl rfl hpos hle
    have hmod : static_cast_DDS_UnsignedLong array_size_ = array_size_ := by
      unfold static_cast_DDS_UnsignedLong
      apply Nat.mod_eq_of_lt
      rw [hmax] at hle
      omega
    have hnot : ¬ array_size_ > INT32_MAX := by omega
    simp [convert_member_collection, hpos, hnot, hmod, DDS_TypeCodeFactory_create_array_tc]
  · rintro rfl rfl hgt
    have hpos : 0 < array_size_ := by omega
    simp [convert_member_collection, hpos, hgt]
  · rintro rfl rfl hlt
    have hnot : ¬ array_size_ > INT32_MAX := by omega
    have hne : array_size_ ≠ LENGTH_UNBOUND := by
      show array_size_ ≠ 2147483647
      rw [hmax] at hlt
      omega
    simp [convert_member_collection, hnot, DDS_TypeCodeFactory_create_sequence_tc,
      bound_of_length, hne]
  · rintro rfl (⟨rfl, rfl⟩ | ⟨rfl, rfl⟩)
    · simp [convert_member_collection, DDS_TypeCodeFactory_create_sequence_tc,
        bound_of_length, INT32_MAX, LENGTH_UNBOUND]
    · simp [convert_member_collection, DDS_TypeCodeFactory_create_sequence_tc,
        bound_of_length]
  · rintro rfl rfl hgt
    simp [convert_member_collection, hgt]
  · rintro rfl
    have hel2 : el = DDS_TypeCodeFactory_create_string_tc
        (if sub > 0 then static_cast_DDS_UnsignedLong sub else LENGTH_UNBOUND) := by
      cases members_ <;>
        (simp only [convert_member_element, Except.ok.injEq, Prod.mk.injEq] at hel
         exact hel.2.symm)
    refine ⟨?_, ?_⟩
    · rintro (rfl | rfl)
      · rw [hel2]
        simp [DDS_TypeCodeFactory_create_string_tc, bound_of_length]
      · rw [hel2]
        simp [DDS_TypeCodeFactory_create_string_tc, bound_of_length, INT32_MAX,
          LENGTH_UNBOUND, static_cast_DDS_UnsignedLong]
    · intro hpos hlt hne
      have hmod : static_cast_DDS_UnsignedLong sub = sub := Nat.mod_eq_of_lt hlt
      have hne2 : sub ≠ LENGTH_UNBOUND := hne
      rw [hel2]
      simp [DDS_TypeCodeFactory_create_string_tc, bound_of_length, hpos, hmod, hne2]
  · rintro rfl
    have hel2 : el = DDS_TypeCodeFactory_create_wstring_tc
        (if sub > 0 then static_cast_DDS_UnsignedLong sub else LENGTH_UNBOUND) := by
      cases members_ <;>
        (simp only [convert_member_element, Except.ok.injEq, Prod.mk.injEq] at hel
         exact hel.2.symm)
    refine ⟨?_, ?_⟩
    · rintro (rfl | rfl)
      · rw [hel2]
        simp [DDS_TypeCodeFactory_create_wstring_tc, bound_of_length]
      · rw [hel2]
        simp [DDS_TypeCodeFactory_create_wstring_tc, bound_of_length, INT32_MAX,
          LENGTH_UNBOUND, static_cast_DDS_UnsignedLong]
    · intro hpos hlt hne
      have hmod : static_cast_DDS_UnsignedLong sub = sub := Nat.mod_eq_of_lt hlt
      have hne2 : sub ≠ LENGTH_UNBOUND := hne
      rw [hel2]
      simp [DDS_TypeCodeFactory_create_wstring_tc, bound_of_length, hpos, hmod, hne2]

theorem convert_typesupport_member_wraps_witness :
    convert_typesupport_member ex_headers ex_member_names ex_basic_state false false =
      .ok ({ ex_names_state with
              cache := (ex_names_state.cache.insert_typecode
                (.array [3] (.string (.bounded 8)))) },
        .array [3] (.string (.bounded 8))) :=
  have h := convert_typesupport_member_wraps ex_headers ex_member_names ex_basic_state
    ex_names_state false false (.string (.bounded 8)) (by decide)
  h.2.1 rfl rfl (by decide) (by decide)

/-! ## Member names -/

theorem getLast?_underscore_iff (m : Name) :
    m.getLast? = some '_' ↔ ∃ b, m = b ++ ['_'] :=
  List.getLast?_eq_some_iff

/-- C35: for a non-empty member name `m`, mangling in legacy mode keeps a name
that ends in `_` and appends `_` to any other name, so that mangling twice is
mangling once; outside legacy mode the name is kept; demangling removes
exactly one trailing `_` and keeps a name without one; and demangling after
legacy mangling gives back a name that does not end in `_`. -/
theorem member_name_mangle_demangle (m : Name) (hm : m ≠ []) :
    (∀ b, m = b ++ ['_'] → make_typecode_member_name_mangled m true = m) ∧
    ((∀ b, m ≠ b ++ ['_']) → make_typecode_member_name_mangled m true = m ++ ['_']) ∧
    make_typecode_member_name_mangled (make_typecode_member_name_mangled m true) true =
      make_typecode_member_name_mangled m true ∧
    make_typecode_member_name_mangled m false = m ∧
    (∀ b, m = b ++ ['_'] → make_typecode_member_name_demangled m = b) ∧
    ((∀ b, m ≠ b ++ ['_']) → make_typecode_member_name_demangled m = m) ∧
    ((∀ b, m ≠ b ++ ['_']) →
      make_typecode_member_name_demangled (make_typecode_member_name_mangled m true) = m) := by
  have _ := hm
  have hno : (∀ b, m ≠ b ++ ['_']) → m.getLast? ≠ some '_' := fun h e =>
    (getLast?_underscore_iff m).mp e |>.elim (fun b hb => h b hb)
  refine ⟨?_, ?_, ?_, ?_, ?_, ?_, ?_⟩
  · intro b hb
    subst hb
    simp [make_typecode_member_name_mangled]
  · intro h
    simp [make_typecode_member_name_mangled, hno h]
  · by_cases h : m.getLast? = some '_'
    · simp [make_typecode_member_name_mangled, h]
    · simp [make_typecode_member_name_mangled, h]
  · simp [make_typecode_member_name_mangled]
  · intro b hb
    subst hb
    simp [make_typecode_member_name_demangled]
  · intro h
    simp [make_typecode_member_name_demangled, hno h]
  · intro h
    simp [make_typecode_member_name_mangled, make_typecode_member_name_demangled, hno h]

theorem member_name_mangle_demangle_witness :
    "data".toList ≠ [] ∧
    make_typecode_member_name_mangled "data".toList true = "data_".toList ∧
    make_typecode_member_name_demangled
      (make_typecode_member_name_mangled "data".toList true) = "data".toList :=
  have h := member_name_mangle_demangle "data".toList (by decide)
  ⟨by decide, h.2.1 (fun b hb => by
      have := (getLast?_underscore_iff "data".toList).mpr ⟨b, hb⟩
      revert this
      decide),
    h.2.2.2.2.2.2 (fun b hb => by
      have := (getLast?_underscore_iff "data".toList).mpr ⟨b, hb⟩
      revert this
      decide)⟩

/-! ## The order of the cache -/

/-- C36: after a successful `assert_dds_type` the vector of all types is the
vector before the call followed by the returned newly added type codes, in
the order returned, so that the cache is iterated in insertion order; a call
that returns `is_new = false` leaves the vector as it was. -/
theorem assert_dds_type_appends_newly_added (c c1 : TypeCache) (tc : TypeCode)
    (ros_type : Bool) (demangled_ros_type : Name) (is_new : Bool)
    (newly_added already_present : List TypeCode)
    (h : c.assert_dds_type tc ros_type demangled_ros_type =
      (c1, .ok (is_new, newly_added, already_present))) :
    c1.cache = c.cache ++ newly_added ∧ (is_new = false → c1.cache = c.cache) := by
  unfold TypeCache.assert_dds_type at h
  obtain ⟨a, n, k, _, _, hcase⟩ := assert_typecode_ok h
  unfold TypeCache.cache
  rcases hcase with ⟨_, hc, hr⟩ | ⟨_, added, al, _, hcache, _, _, hr, _⟩
  · simp only [Prod.mk.injEq] at hr
    obtain ⟨_, hnew, _⟩ := hr
    subst hc
    subst hnew
    simp
  · simp only [Prod.mk.injEq] at hr
    obtain ⟨hnew, hadded, _⟩ := hr
    subst hadded
    subst hnew
    exact ⟨hcache, fun hfalse => by simp at hfalse⟩

theorem assert_dds_type_appends_newly_added_witness :
    (ex_empty.assert_dds_type ex_top_A false []).1.cache = ex_empty.cache ++ [ex_N, ex_top_A] ∧
    ((true = false) → (ex_empty.assert_dds_type ex_top_A false []).1.cache = ex_empty.cache) :=
  assert_dds_type_appends_newly_added ex_empty (ex_empty.assert_dds_type ex_top_A false []).1
    ex_top_A false [] true [ex_N, ex_top_A] [] (by decide)

/-! ## Mangling and demangling do not touch the cache -/

mutual
theorem mangle_member_type_call_eq (f : Name → Except Err Name) (g : Name → Name) :
    ∀ (t : TypeCode) (c : TypeCache),
      mangle_member_type_call f g t c = (c, mangle_member_type f g t)
  | .struct n ms, c => by
    simp only [mangle_member_type_call, mangle_member_type, mangle_members_call_eq f g ms c]
    cases f n with
    | error e => rfl
    | ok k => cases mangle_members f g ms <;> rfl
  | .sequence b e, c => by
    simp only [mangle_member_type_call, mangle_member_type, mangle_leaf_call_eq f g e c]
    cases mangle_leaf f g e with
    | error e => rfl
    | ok o => cases o <;> rfl
  | .array d e, c => by
    simp only [mangle_member_type_call, mangle_member_type, mangle_leaf_call_eq f g e c]
    cases mangle_leaf f g e with
    | error e => rfl
    | ok o => cases o <;> rfl
  | .prim _, _ => rfl
  | .string _, _ => rfl
  | .wstring _, _ => rfl
  | .enum _ _, _ => rfl
  | .union _ _, _ => rfl
  | .value _ _ _, _ => rfl
theorem mangle_leaf_call_eq (f : Name → Except Err Name) (g : Name → Name) :
    ∀ (t : TypeCode) (c : TypeCache), mangle_leaf_call f g t c = (c, mangle_leaf f g t)
  | .struct n ms, c => by
    simp only [mangle_leaf_call, mangle_leaf, mangle_members_call_eq f g ms c]
    cases f n with
    | error e => rfl
    | ok k => cases mangle_members f g ms <;> rfl
  | .sequence b e, c => by
    simp only [mangle_leaf_call, mangle_leaf]
    exact mangle_leaf_call_eq f g e c
  | .array d e, c => by
    simp only [mangle_leaf_call, mangle_leaf]
    exact mangle_leaf_call_eq f g e c
  | .prim _, _ => rfl
  | .string _, _ => rfl
  | .wstring _, _ => rfl
  | .enum _ _, _ => rfl
  | .union _ _, _ => rfl
  | .value _ _ _, _ => rfl
theorem mangle_members_call_eq (f : Name → Except Err Name) (g : Name → Name) :
    ∀ (ms : Members) (c : TypeCache), mangle_members_call f g ms c = (c, mangle_members f g ms)
  | .nil, _ => rfl
  | .cons name t rest, c => by
    simp only [mangle_members_call, mangle_members, mangle_member_type_call_eq f g t c]
    cases mangle_member_type f g t with
    | error e => rfl
    | ok t2 =>
      simp only [mangle_members_call_eq f g rest c]
      cases mangle_members f g rest <;> rfl
end

/-- A call of `mangle_typecode_recur` returns the cache it was called on, with
the result of the transformation. -/
theorem mangle_typecode_recur_call_eq (c : TypeCache) (tc : TypeCode)
    (f : Name → Except Err Name) (g : Name → Name) :
    c.mangle_typecode_recur_call tc f g = (c, mangle_typecode_recur tc f g) := by
  cases h1 : DDS_TypeCode_name tc with
  | error e => simp only [TypeCache.mangle_typecode_recur_call, mangle_typecode_recur, h1]
  | ok tc_name =>
    cases h2 : f tc_name with
    | error e =>
      simp only [TypeCache.mangle_typecode_recur_call, mangle_typecode_recur, h1, h2]
    | ok k =>
      simp only [TypeCache.mangle_typecode_recur_call, mangle_typecode_recur, h1, h2,
        mangle_members_call_eq]
      split <;>
        (rename_i heq
         simp only [Prod.mk.injEq] at heq
         obtain ⟨rfl, heq⟩ := heq
         rw [heq])

/-- C34: `mangle_typecode` and `demangle_typecode` leave the cache as it was: for
every cache state and every type code, whether the call returns or throws,
the map of the types by name, the vector of all types and the map of the
topics after the call are the ones before it. What a call returns depends
on the type code and the options only: on two cache states with the same
options, whatever their types and topics, each function returns the same,
and two results for the same type code are structurally equal. -/
theorem mangle_demangle_typecode_pure (c1 c2 : TypeCache) (tc : TypeCode)
    (hopt : c1.options_ = c2.options_) :
    ((c1.mangle_typecode_call tc).1 = c1 ∧
      (c1.mangle_typecode_call tc).1.tc_named_cache_ = c1.tc_named_cache_ ∧
      (c1.mangle_typecode_call tc).1.tc_cache_ = c1.tc_cache_ ∧
      (c1.mangle_typecode_call tc).1.topics_cache_ = c1.topics_cache_) ∧
    ((c1.demangle_typecode_call tc).1 = c1 ∧
      (c1.demangle_typecode_call tc).1.tc_named_cache_ = c1.tc_named_cache_ ∧
      (c1.demangle_typecode_call tc).1.tc_cache_ = c1.tc_cache_ ∧
      (c1.demangle_typecode_call tc).1.topics_cache_ = c1.topics_cache_) ∧
    (c1.mangle_typecode_call tc).2 = c1.mangle_typecode tc ∧
    (c1.demangle_typecode_call tc).2 = c1.demangle_typecode tc ∧
    (c1.mangle_typecode_call tc).2 = (c2.mangle_typecode_call tc).2 ∧
    (c1.demangle_typecode_call tc).2 = (c2.demangle_typecode_call tc).2 ∧
    c1.mangle_typecode tc = c2.mangle_typecode tc ∧
    c1.demangle_typecode tc = c2.demangle_typecode tc ∧
    (∀ r1 r2, (c1.mangle_typecode_call tc).2 = .ok r1 →
      (c2.mangle_typecode_call tc).2 = .ok r2 → DDS_TypeCode_equal r1 r2 = true) ∧
    (∀ r1 r2, (c1.demangle_typecode_call tc).2 = .ok r1 →
      (c2.demangle_typecode_call tc).2 = .ok r2 → DDS_TypeCode_equal r1 r2 = true) ∧
    (∀ r1 r2, c1.mangle_typecode tc = .ok r1 → c2.mangle_typecode tc = .ok r2 →
      DDS_TypeCode_equal r1 r2 = true) ∧
    (∀ r1 r2, c1.demangle_typecode tc = .ok r1 → c2.demangle_typecode tc = .ok r2 →
      DDS_TypeCode_equal r1 r2 = true) := by
  have hmc : ∀ c : TypeCache, c.mangle_typecode_call tc = (c, c.mangle_typecode tc) := by
    intro c
    unfold TypeCache.mangle_typecode_call TypeCache.mangle_typecode
    exact mangle_typecode_recur_call_eq c tc _ _
  have hdc : ∀ c : TypeCache, c.demangle_typecode_call tc = (c, c.demangle_typecode tc) := by
    intro c
    unfold TypeCache.demangle_typecode_call TypeCache.demangle_typecode
    exact mangle_typecode_recur_call_eq c tc _ _
  have hm : c1.mangle_typecode tc = c2.mangle_typecode tc := by
    unfold TypeCache.mangle_typecode
    rw [hopt]
  have hd : c1.demangle_typecode tc = c2.demangle_typecode tc := rfl
  have heq : ∀ (x y : Except Err TypeCode), x = y → ∀ r1 r2, x = .ok r1 → y = .ok r2 →
      DDS_TypeCode_equal r1 r2 = true := by
    intro x y hxy r1 r2 h1 h2
    rw [hxy, h2] at h1
    simp only [Except.ok.injEq] at h1
    simp [DDS_TypeCode_equal, h1]
  rw [hmc c1, hmc c2, hdc c1, hdc c2]
  exact ⟨⟨rfl, rfl, rfl, rfl⟩, ⟨rfl, rfl, rfl, rfl⟩, rfl, rfl, hm, hd, hm, hd,
    heq _ _ hm, heq _ _ hd, heq _ _ hm, heq _ _ hd⟩

theorem mangle_demangle_typecode_pure_witness :
    (ex_cache_A_x.demangle_typecode_call ex_T_mangled).1 = ex_cache_A_x ∧
    (ex_cache_A_x.mangle_typecode_call ex_T_demangled).1 = ex_cache_A_x ∧
    (ex_cache_A_x.mangle_typecode_call ex_T_demangled).2 =
      (ex_empty.mangle_typecode_call ex_T_demangled).2 ∧
    ex_cache_A_x.demangle_typecode ex_T_mangled = ex_empty.demangle_typecode ex_T_mangled :=
  have h := mangle_demangle_typecode_pure ex_cache_A_x ex_empty ex_T_mangled (by decide)
  have h2 := mangle_demangle_typecode_pure ex_cache_A_x ex_empty ex_T_demangled (by decide)
  ⟨h.2.1.1, h2.1.1, h2.2.2.2.2.1, h.2.2.2.2.2.2.2.1⟩

/-! ## Formatted records hold no line feed -/

theorem regex_replace_line_feed (rep : List Char) (hrep : char_lf ∉ rep) :
    ∀ (n : Nat) (s : List Char), s.length ≤ n → ∀ (skip : Nat),
      char_lf ∉ regex_replace_aux [char_lf] rep skip s
  | 0, s, hs, skip => by
    have : s = [] := List.length_eq_zero.mp (Nat.le_zero.mp hs)
    subst this
    rw [regex_replace_aux_nil]
    simp
  | n + 1, [], _, skip => by
    rw [regex_replace_aux_nil]
    simp
  | n + 1, c :: cs, hs, skip + 1 => by
    rw [regex_replace_aux_cons_succ]
    exact regex_replace_line_feed rep hrep n cs (by simpa using hs) skip
  | n + 1, c :: cs, hs, 0 => by
    have ih := regex_replace_line_feed rep hrep n cs (by simpa using hs)
    rw [regex_replace_aux_cons_zero]
    by_cases hc : c = char_lf
    · subst hc
      have hpre : [char_lf].isPrefixOf (char_lf :: cs) = true := by
        simp [List.isPrefixOf]
      rw [if_pos hpre]
      intro hmem
      rcases List.mem_append.mp hmem with h | h
      · exact hrep h
      · exact ih _ h
    · have hpre : [char_lf].isPrefixOf (c :: cs) = false := by
        simp [List.isPrefixOf, Ne.symm hc]
      rw [hpre]
      intro hmem
      simp only [Bool.false_eq_true, if_false, List.mem_cons] at hmem
      rcases hmem with h | h
      · exact hc h.symm
      · exact ih 0 h

theorem json_string_line_feed (value : List Char) : char_lf ∉ json_string value := by
  unfold json_string regex_replace_lit
  intro h
  simp only [List.mem_append, List.mem_singleton] at h
  rcases h with (h | h) | h
  · exact absurd h (by decide)
  · exact regex_replace_line_feed [char_backslash, 'n'] (by decide) value.length value
      (Nat.le_refl _) 0 h
  · exact absurd h (by decide)

theorem json_field_line_feed (ss key value : List Char) (last : Bool) (hss : char_lf ∉ ss) :
    char_lf ∉ json_field ss key value last := by
  have hk := json_string_line_feed key
  have hv := json_string_line_feed value
  have h1 : char_lf ∉ ": ".toList := by decide
  have h2 : char_lf ∉ ", ".toList := by decide
  unfold json_field
  cases last <;> simp [hss, hk, hv] <;> decide

/-- C38: the text written by `json_string` holds no line feed, whatever the value
(carriage returns, line feeds and double quotes included), and so a formatted
type record and a formatted topic record hold no line feed between their
braces. -/
theorem json_string_single_line (value type_fqname topic_name topic_type_name idl : List Char) :
    char_lf ∉ json_string value ∧
    char_lf ∉ format_type type_fqname idl ∧
    char_lf ∉ format_topic topic_name topic_type_name idl := by
  refine ⟨json_string_line_feed value, ?_, ?_⟩
  · unfold format_type json_end json_begin
    have h0 : char_lf ∉ ([] : List Char) ++ "\x7b ".toList := by decide
    have h1 := json_field_line_feed _ "fqname".toList type_fqname false h0
    have h2 := json_field_line_feed _ "idl".toList idl true h1
    have h3 : char_lf ∉ " \x7d".toList := by decide
    intro h
    rcases List.mem_append.mp h with h | h
    · exact h2 h
    · exact h3 h
  · unfold format_topic json_end json_begin
    have h0 : char_lf ∉ ([] : List Char) ++ "\x7b ".toList := by decide
    have h1 := json_field_line_feed _ "name".toList topic_name false h0
    have h2 := json_field_line_feed _ "type_name".toList topic_type_name false h1
    have h3 := json_field_line_feed _ "idl".toList idl true h2
    have h4 : char_lf ∉ " \x7d".toList := by decide
    intro h
    rcases List.mem_append.mp h with h | h
    · exact h3 h
    · exact h4 h

/-! ## A failing assertion and the cache -/

/-- C39, the code at the failing input: on the empty cache the assertion of
`Top { N a; N b }`, whose two members are different structs named `N`, fails
with the conflict of the nested type `N`, and the cache after the failure
holds `N { long v }`, inserted for the member `a`, in `tc_named_cache_` and
in `tc_cache_`, which were empty before the call. A conflict on the asserted
type itself leaves the cache as it was. -/
theorem assert_dds_type_failure_keeps_nested :
    ex_empty.tc_named_cache_ = [] ∧ ex_empty.tc_cache_ = [] ∧
    ex_empty.assert_dds_type ex_two_N false [] =
      (ex_cache_N, .error (.nestedTypeConflict "N".toList)) ∧
    ex_cache_N.tc_named_cache_ = [("N".toList, ex_N)] ∧ ex_cache_N.tc_cache_ = [ex_N] ∧
    ex_cache_N.assert_dds_type ex_N_other false [] =
      (ex_cache_N, .error (.typeConflict "N".toList)) := by
  decide

/-! ## Nested collections -/

/-- C33, the code at the failing input: the member
`sequence<p::msg::N[2], 5> m` of `p::msg::T`, a sequence of arrays of a
struct, comes out of `demangle_typecode` as `sequence<p::msg::N, 5>` and out
of `mangle_typecode` as `sequence<p::msg::dds_::N_, 5>`: the array level is
lost. The member count and order, the primitive member `x` and the
one-level sequence `s` are kept. -/
theorem mangle_typecode_flattens_nested_collection :
    ex_empty.demangle_typecode ex_T_nested_collection =
      .ok (.struct "p::msg::T".toList
        (.cons "m".toList (.sequence (.bounded 5) ex_N_demangled)
          (.cons "x".toList ex_long
            (.cons "s".toList (.sequence .unbounded ex_N_demangled) .nil)))) ∧
    (TypeCache.empty ex_mangle_options).mangle_typecode ex_T_nested_collection =
      .ok (.struct "p::msg::dds_::T_".toList
        (.cons "m".toList (.sequence (.bounded 5) ex_N_dds)
          (.cons "x".toList ex_long
            (.cons "s".toList (.sequence .unbounded ex_N_dds) .nil)))) ∧
    Except.ok (TypeCode.sequence (.bounded 5) (.array [2] ex_N_demangled)) ≠
      mangle_member_type make_typecode_name_demangled make_typecode_member_name_demangled
        (.sequence (.bounded 5) (.array [2] ex_N_demangled)) := by
  decide

/-! ## The library paths tried -/

/-- The loops of `load_instrospection_typesupport_library` ask for the libraries at
the paths of `candidate_paths` and no other: when none of them loads, the
loops fail. -/
theorem load_candidates_paths (env : TypesupportEnvironment)
    (package_name middle_module type_name : Name) :
    ∀ (rounds : List (Name × Name)) (ss : Name),
      (∀ p ∈ candidate_paths package_name rounds ss, env.load_library p = none) →
      load_candidates env package_name middle_module type_name rounds ss =
        .error (.runtimeError "failed to load typesupport".toList)
  | [], _, _ => rfl
  | (pkg_dir, intro_lang) :: rest, ss, h => by
    have h0 := h (ss ++ candidate_text pkg_dir package_name intro_lang)
      (by simp [candidate_paths])
    have ih := load_candidates_paths env package_name middle_module type_name rest
      (ss ++ candidate_text pkg_dir package_name intro_lang)
      (fun p hp => h p (by simp [candidate_paths, hp]))
    simp only [load_candidates, h0, ih]

/-- C37, the code at the failing input: for the package `std_msgs` and the one
search root `/opt/ros` the first path tried is
`/opt/ros/lib/libstd_msgs__rosidl_typesupport_introspection_c.so`, and the
second one is that text followed by
`/opt/ros/lib/libstd_msgs__rosidl_typesupport_introspection_cpp.so`; a C++
library that exists at the path of the convention is not loaded. -/
theorem load_typesupport_library_paths_accumulate :
    candidate_paths "std_msgs".toList (candidate_rounds ["/opt/ros".toList]) [] =
      ["/opt/ros/lib/libstd_msgs__rosidl_typesupport_introspection_c.so".toList,
       "/opt/ros/lib/libstd_msgs__rosidl_typesupport_introspection_c.so".toList ++
         "/opt/ros/lib/libstd_msgs__rosidl_typesupport_introspection_cpp.so".toList] ∧
    (ex_env_cpp_only.load_library
      "/opt/ros/lib/libstd_msgs__rosidl_typesupport_introspection_cpp.so".toList).isSome = true ∧
    (load_instrospection_typesupport_library ex_env_cpp_only "std_msgs".toList "msg".toList
        "String".toList ex_env_cpp_only.lib_path_).map Prod.fst =
      .error (.runtimeError "failed to load typesupport".toList) := by
  decide

/-! ## The monitor and the storage form -/

/-- C32, the code at the failing input: the hint that the monitor computes for
`p::msg::T` is `p/msg/T`, which differs from the name, so with
`demangle_ros_names = false` the type code is stored as it came, named
`p::msg::T`, where `mangle_typecode` would give `p::msg::dds_::T_`. With
`demangle_ros_names = true` the type code named `p::msg::dds_::T_` is stored
under the name `p::msg::T`. -/
theorem on_type_detected_stores_demangled_name :
    demangled_hint "p::msg::T".toList = .ok (true, "p/msg/T".toList) ∧
    (BaseTypeMonitor.on_type_detected (TypeCache.empty ex_mangle_options) ex_T_demangled).2 =
      .ok (true, [ex_T_demangled], []) ∧
    (BaseTypeMonitor.on_type_detected (TypeCache.empty ex_mangle_options)
      ex_T_demangled).1.tc_cache_ = [ex_T_demangled] ∧
    DDS_TypeCode_name ex_T_demangled = .ok "p::msg::T".toList ∧
    (TypeCache.empty ex_mangle_options).mangle_typecode ex_T_demangled =
      .ok ex_T_mangled_plain ∧
    DDS_TypeCode_name ex_T_mangled_plain = .ok "p::msg::dds_::T_".toList ∧
    (BaseTypeMonitor.on_type_detected ex_empty ex_T_mangled).2 =
      .ok (true, [ex_T_demangled], []) ∧
    (BaseTypeMonitor.on_type_detected ex_empty ex_T_mangled).1.tc_cache_ = [ex_T_demangled] := by
  decide

/-! ## Asserting a type by its name -/

theorem candidate_text_c (root package_name : Name) :
    ([] : Name) ++ candidate_text root package_name "c".toList =
      root ++ ("/lib/lib".toList ++ package_name ++
        "__rosidl_typesupport_introspection_c.so".toList) := by
  unfold candidate_text
  simp [List.append_assoc]

/-- C31, as stated, fails: the plain ROS name `std_msgs/msg/String` is refused
by `assert_ros_type` as an invalid name, also where the library of `std_msgs`
is installed, and nothing is stored; the name `std_msgs::msg::String` is
resolved there. -/
theorem assert_ros_type_plain_name_refused :
    is_type_requestreply "std_msgs/msg/String".toList = (false, false) ∧
    demangle_dds_type_name "std_msgs/msg/String".toList =
      .error (.invalidName "std_msgs/msg/String".toList) ∧
    (TypeCache.assert_ros_type ex_headers ex_env ex_empty TypesupportLibs.empty
        "std_msgs/msg/String".toList).map (fun r => r.1) =
      .error (.invalidName "std_msgs/msg/String".toList) ∧
    (TypeCache.assert_ros_type ex_headers ex_env ex_empty TypesupportLibs.empty
        "std_msgs::msg::String".toList).map (fun r => r.1.tc_named_cache_) =
      .ok [("std_msgs::msg::String".toList, ex_String)] := by
  decide

/-- C31, amended: for the name `std_msgs::msg::String` in demangle mode, where
the package index gives the directory `root` for `std_msgs` and the library
`root/lib/libstd_msgs__rosidl_typesupport_introspection_c.so` holds the type
support of `String`, the name resolution of `assert_ros_type` succeeds: the
introspection lookup is made for package `std_msgs`, middle `msg`, type
`String`, and the map of the empty cache gets the one struct
`std_msgs::msg::String { string data }`, stored under its name. A later
assertion of `std_msgs::msg::dds_::String_` has the same cache key and
returns `is_new = false` with the cache as it was. -/
theorem assert_ros_type_std_msgs_string (typecodes : HeaderTypeCodes)
    (env : TypesupportEnvironment) (root : Name) (lib : SharedLibrary)
    (hroot : env.get_package_prefix "std_msgs".toList = some root)
    (hlib : env.load_library
        (root ++ ("/lib/lib".toList ++ "std_msgs".toList ++
          "__rosidl_typesupport_introspection_c.so".toList)) = some lib)
    (hsym : lib ("rosidl_typesupport_introspection_c__get_message_type_support_handle__".toList ++
        "std_msgs__msg__String".toList) = some ex_String_members) :
    load_typesupport env TypesupportLibs.empty "std_msgs::msg::String".toList =
      load_typesupport_uncached env TypesupportLibs.empty "std_msgs".toList "msg".toList
        "String".toList ∧
    TypeCache.assert_ros_type typecodes env ex_empty TypesupportLibs.empty
        "std_msgs::msg::String".toList =
      .ok (ex_cache_String,
        { typesupports_c_ := [("std_msgs".toList, lib)], typesupports_cpp_ := [] },
        true, [ex_String], []) ∧
    ex_cache_String.tc_named_cache_ = [("std_msgs::msg::String".toList, ex_String)] ∧
    DDS_TypeCode_name ex_String = .ok "std_msgs::msg::String".toList ∧
    cache_key "std_msgs::msg::dds_::String_".toList true =
      cache_key "std_msgs::msg::String".toList true ∧
    TypeCache.assert_ros_type typecodes env ex_cache_String
        { typesupports_c_ := [("std_msgs".toList, lib)], typesupports_cpp_ := [] }
        "std_msgs::msg::dds_::String_".toList =
      .ok (ex_cache_String,
        { typesupports_c_ := [("std_msgs".toList, lib)], typesupports_cpp_ := [] },
        false, [], [ex_String]) := by
  have hdec : decide ("c".toList = "cpp".toList) = false := by decide
  have hl : lookup_introspection_typesupport "std_msgs".toList "msg".toList "String".toList
      lib false = .ok ex_String_members := by
    have hname : (if false = true then
          "rosidl_typesupport_introspection_cpp".toList
        else "rosidl_typesupport_introspection_c".toList) ++
          "__get_message_type_support_handle__".toList ++ "std_msgs".toList ++ "__".toList ++
          (if "msg".toList.isEmpty then "msg".toList else "msg".toList) ++ "__".toList ++
          "String".toList =
        "rosidl_typesupport_introspection_c__get_message_type_support_handle__".toList ++
          "std_msgs__msg__String".toList := by decide
    unfold lookup_introspection_typesupport
    simp only [hname, hsym]
  have hload : load_instrospection_typesupport_library env "std_msgs".toList "msg".toList
      "String".toList env.lib_path_ = .ok (false, lib, ex_String_members) := by
    unfold load_instrospection_typesupport_library package_dirs
    simp only [hroot]
    rw [if_neg (by simp)]
    simp only [List.singleton_append, candidate_rounds, load_candidates]
    rw [candidate_text_c, hlib]
    simp only [hdec, hl]
  have hunc : load_typesupport_uncached env TypesupportLibs.empty "std_msgs".toList
      "msg".toList "String".toList =
      .ok ({ typesupports_c_ := [("std_msgs".toList, lib)], typesupports_cpp_ := [] },
        false, ex_String_members) := by
    unfold load_typesupport_uncached
    simp only [hload]
    rfl
  have hd1 : demangle_dds_type_name "std_msgs::msg::String".toList =
      .ok "std_msgs/msg/String".toList := by decide
  have hd2 : demangle_dds_type_name "std_msgs::msg::dds_::String_".toList =
      .ok "std_msgs/msg/String".toList := by decide
  have hp : parse_ros_type_name "std_msgs/msg/String".toList =
      .ok ("std_msgs".toList, "msg".toList, "String".toList) := by decide
  have hts1 : load_typesupport env TypesupportLibs.empty "std_msgs::msg::String".toList =
      load_typesupport_uncached env TypesupportLibs.empty "std_msgs".toList "msg".toList
        "String".toList := by
    unfold load_typesupport
    simp only [hd1, hp]
    rfl
  have hlk : List.lookup "std_msgs".toList [("std_msgs".toList, lib)] = some lib := by
    simp [List.lookup]
  have hts2 : load_typesupport env
      { typesupports_c_ := [("std_msgs".toList, lib)], typesupports_cpp_ := [] }
      "std_msgs::msg::dds_::String_".toList =
      .ok ({ typesupports_c_ := [("std_msgs".toList, lib)], typesupports_cpp_ := [] },
        false, ex_String_members) := by
    unfold load_typesupport
    simp only [hd2, hp, hlk, Option.isNone_some, hl]
  have hr1 : is_type_requestreply "std_msgs::msg::String".toList = (false, false) := by decide
  have hr2 : is_type_requestreply "std_msgs::msg::dds_::String_".toList = (false, false) := by
    decide
  have hconv : ∀ st : ConvertState,
      convert_typesupport_members typecodes ex_String_members st false false true =
        convert_typesupport_members ex_headers ex_String_members st false false true := by
    intro st
    simp [ex_String_members, convert_typesupport_members, convert_header, select_header,
      convert_members_loop, convert_typesupport_member, convert_member_element]
  have hby : ∀ (st : ConvertState) (name : Name),
      TypeCache.assert_typecode_by_name typecodes st name false false ex_String_members true =
        TypeCache.assert_typecode_by_name ex_headers st name false false ex_String_members
          true := by
    intro st name
    unfold TypeCache.assert_typecode_by_name
    simp only [hconv]
  have ha1 : TypeCache.assert_typecode_by_name typecodes
      { cache := ex_empty, new_asserted := [], already_asserted := [] }
      "std_msgs::msg::String".toList false false ex_String_members true =
      .ok ({ cache := ex_cache_String, new_asserted := [ex_String], already_asserted := [] },
        true) := by
    rw [hby]
    decide
  have ha2 : TypeCache.assert_typecode_by_name typecodes
      { cache := ex_cache_String, new_asserted := [], already_asserted := [] }
      "std_msgs::msg::dds_::String_".toList false false ex_String_members true =
      .ok ({ cache := ex_cache_String, new_asserted := [], already_asserted := [ex_String] },
        false) := by
    rw [hby]
    decide
  refine ⟨hts1, ?_, rfl, by decide, by decide, ?_⟩
  · unfold TypeCache.assert_ros_type
    simp only [hr1, hts1, hunc, ha1]
  · unfold TypeCache.assert_ros_type
    simp only [hr2, hts2, ha2]

theorem assert_ros_type_std_msgs_string_witness :
    TypeCache.assert_ros_type ex_headers ex_env ex_empty TypesupportLibs.empty
        "std_msgs::msg::String".toList =
      .ok (ex_cache_String,
        { typesupports_c_ := [("std_msgs".toList, ex_std_msgs_lib)], typesupports_cpp_ := [] },
        true, [ex_String], []) ∧
    TypeCache.assert_ros_type ex_headers ex_env ex_cache_String
        { typesupports_c_ := [("std_msgs".toList, ex_std_msgs_lib)], typesupports_cpp_ := [] }
        "std_msgs::msg::dds_::String_".toList =
      .ok (ex_cache_String,
        { typesupports_c_ := [("std_msgs".toList, ex_std_msgs_lib)], typesupports_cpp_ := [] },
        false, [], [ex_String]) :=
  have h := assert_ros_type_std_msgs_string ex_headers ex_env "/opt/ros".toList ex_std_msgs_lib
    (by decide) rfl rfl
  ⟨h.2.1, h.2.2.2.2.2⟩

/-! ## Normalising a normalised name -/

/-- The rewriting of a text, one step at a time: a relation between a text
and its rewriting holds when it holds for the empty text, is kept where the
pattern is replaced and is kept where a character is copied. -/
theorem regex_replace_aux_cases (pat rep : List Char) (hp : pat ≠ [])
    (rel : List Char → List Char → Prop) (hnil : rel [] [])
    (hhit : ∀ R out, rel R out → rel (pat ++ R) (rep ++ out))
    (hmiss : ∀ c cs out, pat.isPrefixOf (c :: cs) = false → rel cs out →
      rel (c :: cs) (c :: out)) :
    ∀ (n : Nat) (s : List Char), s.length ≤ n → rel s (regex_replace_aux pat rep 0 s)
  | 0, s, hs => by
    have : s = [] := List.length_eq_zero.mp (Nat.le_zero.mp hs)
    subst this
    exact hnil
  | _ + 1, [], _ => hnil
  | n + 1, c :: cs, hs => by
    have hlen : cs.length ≤ n := by simpa using hs
    cases hpre : pat.isPrefixOf (c :: cs) with
    | true =>
      obtain ⟨R, hR⟩ := List.isPrefixOf_iff_prefix.mp hpre
      rw [← hR, regex_replace_aux_match pat rep R hp]
      apply hhit
      apply regex_replace_aux_cases pat rep hp rel hnil hhit hmiss n R
      have hl : (pat ++ R).length = (c :: cs).length := by rw [hR]
      have hpl : 0 < pat.length := List.length_pos.mpr hp
      simp only [List.length_append, List.length_cons] at hl
      omega
    | false =>
      rw [regex_replace_aux_cons_nomatch pat rep c cs hpre]
      exact hmiss c cs _ hpre
        (regex_replace_aux_cases pat rep hp rel hnil hhit hmiss n cs hlen)

theorem has_double_underscore_tail (c : Char) (cs : List Char)
    (h : has_double_underscore (c :: cs) = false) : has_double_underscore cs = false := by
  cases cs with
  | nil => rfl
  | cons d ds =>
    simp only [has_double_underscore, Bool.or_eq_false_iff] at h
    exact h.2

theorem has_double_underscore_head (c : Char) (cs : List Char)
    (h : has_double_underscore (c :: cs) = false) (hc : c = '_') : cs.head? ≠ some '_' := by
  cases cs with
  | nil => simp
  | cons d ds =>
    simp only [has_double_underscore, Bool.or_eq_false_iff, Bool.and_eq_false_iff] at h
    intro hd
    simp only [List.head?_cons, Option.some.injEq] at hd
    subst hc
    subst hd
    simp at h

theorem has_double_underscore_cons_of_head (c : Char) (out : List Char)
    (hout : has_double_underscore out = false) (hhead : c = '_' → out.head? ≠ some '_') :
    has_double_underscore (c :: out) = false := by
  cases out with
  | nil => rfl
  | cons o os =>
    simp only [has_double_underscore, Bool.or_eq_false_iff, Bool.and_eq_false_iff]
    refine ⟨?_, hout⟩
    by_cases hc : c = '_'
    · right
      have := hhead hc
      simp only [List.head?_cons, ne_eq, Option.some.injEq] at this
      simpa using this
    · left
      simpa using hc

/-- After `__` was replaced by `::` everywhere, no `__` is left. -/
theorem regex_replace_dunder_clean (s : List Char) :
    has_double_underscore (regex_replace_aux ['_', '_'] [':', ':'] 0 s) = false := by
  have h := regex_replace_aux_cases ['_', '_'] [':', ':'] (by simp)
    (fun s out => has_double_underscore out = false ∧
      (out.head? = some '_' → s.head? = some '_'))
    ⟨rfl, fun h => by simp at h⟩
    (fun R out ih => by
      refine ⟨?_, fun h => by simp at h⟩
      show has_double_underscore (':' :: ':' :: out) = false
      rw [has_double_underscore_cons ':' (by decide), has_double_underscore_cons ':' (by decide)]
      exact ih.1)
    (fun c cs out hpre ih => by
      refine ⟨?_, fun h => by simpa using h⟩
      apply has_double_underscore_cons_of_head c out ih.1
      intro hc hhead
      have hcs := ih.2 hhead
      cases cs with
      | nil => simp at hcs
      | cons d ds =>
        simp only [List.head?_cons, Option.some.injEq] at hcs
        subst hc
        subst hcs
        simp [List.isPrefixOf] at hpre)
    s.length s (Nat.le_refl _)
  exact h.1

/-- A replacement that puts a text between two `:` for a pattern between two `:`
brings no `__` and no trailing `_` into a text. -/
theorem regex_replace_sep_clean (pa ra : List Char) (hra : ra ≠ [])
    (hrh : ra.head? ≠ some '_') (hru : has_double_underscore ra = false) (s : List Char) :
    (has_double_underscore s = false →
      has_double_underscore (regex_replace_aux (pa ++ [':']) (ra ++ [':']) 0 s) = false) ∧
    ((regex_replace_aux (pa ++ [':']) (ra ++ [':']) 0 s).getLast? = some '_' →
      s.getLast? = some '_') := by
  have hrep : ∀ X, (ra ++ [':']) ++ X = ra ++ ':' :: X := fun X => by simp
  have hpat : ∀ X, (pa ++ [':']) ++ X = pa ++ ':' :: X := fun X => by simp
  have h := regex_replace_aux_cases (pa ++ [':']) (ra ++ [':']) (by simp)
    (fun s out => (has_double_underscore s = false → has_double_underscore out = false) ∧
      (out.head? = some '_' → s.head? = some '_') ∧
      (out.getLast? = some '_' → s.getLast? = some '_') ∧ (out = [] → s = []))
    ⟨fun h => h, fun h => h, fun h => h, fun h => h⟩
    (fun R out ih => by
      refine ⟨?_, ?_, ?_, ?_⟩
      · intro hs
        rw [hpat, has_double_underscore_append_sep ':' (by decide), Bool.or_eq_false_iff] at hs
        rw [hrep, has_double_underscore_append_sep ':' (by decide), hru, Bool.false_or]
        exact ih.1 hs.2
      · intro h
        rw [hrep] at h
        cases ra with
        | nil => exact absurd rfl hra
        | cons a as =>
          simp only [List.cons_append, List.head?_cons] at h
          simp only [List.head?_cons] at hrh
          exact absurd h hrh
      · intro h
        cases out with
        | nil =>
          rw [List.append_nil, getLast?_append_ne_nil ra [':'] (by simp)] at h
          simp at h
        | cons o os =>
          rw [getLast?_append_ne_nil _ (o :: os) (by simp)] at h
          have hR := ih.2.2.1 h
          have hRne : R ≠ [] := by
            intro e
            subst e
            simp at hR
          rw [getLast?_append_ne_nil _ R hRne]
          exact hR
      · intro h
        have := (List.append_eq_nil.mp h).1
        exact absurd (List.append_eq_nil.mp this).2 (by simp))
    (fun c cs out hpre ih => by
      refine ⟨?_, fun h => by simpa using h, ?_, fun h => by simp at h⟩
      · intro hs
        apply has_double_underscore_cons_of_head c out
          (ih.1 (has_double_underscore_tail c cs hs))
        intro hc hhead
        exact has_double_underscore_head c cs hs hc (ih.2.1 hhead)
      · intro h
        cases out with
        | nil =>
          have : cs = [] := ih.2.2.2 rfl
          subst this
          exact h
        | cons o os =>
          rw [List.getLast?_cons_cons] at h
          have hcs := ih.2.2.1 h
          cases cs with
          | nil => simp at hcs
          | cons d ds =>
            rw [List.getLast?_cons_cons]
            exact hcs)
    s.length s (Nat.le_refl _)
  exact ⟨h.1, h.2.2.1⟩

/-- A result of `normalize_dds_type_name` holds no `__` and does not end in `_`. -/
theorem normalize_result_clean (n r : Name) (h : normalize_dds_type_name n = .ok r) :
    has_double_underscore r = false ∧ r.getLast? ≠ some '_' := by
  unfold normalize_dds_type_name at h
  split at h
  · cases h
  · simp only [Except.ok.injEq] at h
    subst h
    unfold regex_replace_lit
    have e0 : "__".toList = ['_', '_'] := rfl
    have e1 : "::".toList = [':', ':'] := rfl
    have e2 : "::dds_::".toList = "::dds_:".toList ++ [':'] := rfl
    have e3 : "::dds::".toList = "::dds:".toList ++ [':'] := rfl
    have e4 : "::".toList = [':'] ++ [':'] := rfl
    have h1 := regex_replace_dunder_clean n
    have h2 : has_double_underscore
          (strip_trailing_underscore (regex_replace_aux ['_', '_'] [':', ':'] 0 n)) = false ∧
        (strip_trailing_underscore (regex_replace_aux ['_', '_'] [':', ':'] 0 n)).getLast? ≠
          some '_' := by
      generalize regex_replace_aux ['_', '_'] [':', ':'] 0 n = s at h1
      by_cases hl : s.getLast? = some '_'
      · obtain ⟨T, hT⟩ := List.getLast?_eq_some_iff.mp hl
        subst hT
        rw [has_double_underscore_snoc, Bool.or_eq_false_iff] at h1
        rw [strip_trailing_underscore_snoc]
        refine ⟨h1.1, fun e => ?_⟩
        rw [e] at h1
        simp at h1
      · rw [strip_trailing_underscore_id s hl]
        exact ⟨h1, hl⟩
    rw [e0, e1]
    generalize strip_trailing_underscore (regex_replace_aux ['_', '_'] [':', ':'] 0 n) = s
      at h2
    have h3 := regex_replace_sep_clean "::dds_:".toList "::dds:".toList (by decide)
      (by decide) (by decide) s
    rw [← e2, ← e3] at h3
    have h4 := regex_replace_sep_clean "::dds:".toList [':'] (by decide)
      (by decide) (by decide)
      (regex_replace_aux "::dds_::".toList "::dds::".toList 0 s)
    rw [← e3, ← e4, e1] at h4
    exact ⟨h4.1 (h3.1 h2.1), fun e => h2.2 (h3.2 (h4.2 e))⟩

/-- A text in which the pattern does not occur is rewritten to itself. -/
theorem regex_replace_aux_absent (pat rep s : List Char) (h : ¬ pat <:+: s) :
    regex_replace_aux pat rep 0 s = s := by
  have := regex_replace_aux_block pat rep s [] (fun i _ => by
    rw [List.append_nil]
    cases hp : pat.isPrefixOf (s.drop i) with
    | false => rfl
    | true => exact absurd (occurs_of_isPrefixOf_drop hp) h)
  rw [List.append_nil] at this
  rw [this, regex_replace_aux_nil, List.append_nil]

/-- C40, as stated, fails: `p::msg::dds::dds::T` is normalised to
`p::msg::dds::T`, and that result, normalised again, becomes `p::msg::T`. -/
theorem normalize_dds_type_name_not_idempotent :
    "p::msg::dds::dds::T".toList ≠ [] ∧ "p::msg::dds::T".toList ≠ [] ∧
    normalize_dds_type_name "p::msg::dds::dds::T".toList = .ok "p::msg::dds::T".toList ∧
    normalize_dds_type_name "p::msg::dds::T".toList = .ok "p::msg::T".toList ∧
    "p::msg::T".toList ≠ "p::msg::dds::T".toList := by
  decide

/-- C40, amended: `normalize_dds_type_name` is idempotent on those of its results
that hold no `::dds::` and no `::dds_::`: for a non-empty name `n` whose
normalisation `r` is non-empty and holds neither segment, the normalisation
of `r` is `r`, so that `find` and `insert` (for a ROS type) and `insert_topic`
address the entry of the key `r` itself. -/
theorem normalize_dds_type_name_idempotent (n r : Name) (hn : n ≠ [])
    (hr : normalize_dds_type_name n = .ok r) (hne : r ≠ []) (hdds : NoDdsSegment r) :
    normalize_dds_type_name r = .ok r ∧ cache_key r true = .ok r ∧
    ∀ c : TypeCache, c.find r true = .ok (c.tc_named_cache_.lookup r) := by
  have _ := hn
  obtain ⟨hdu, hlast⟩ := normalize_result_clean n r hr
  have hnorm : normalize_dds_type_name r = .ok r := by
    unfold normalize_dds_type_name
    rw [if_neg (by simpa using hne)]
    unfold regex_replace_lit
    have e0 : "__".toList = ['_', '_'] := rfl
    rw [e0, regex_replace_dunder_id _ r hdu, strip_trailing_underscore_id r hlast,
      regex_replace_aux_absent _ _ r hdds.2, regex_replace_aux_absent _ _ r hdds.1]
  refine ⟨hnorm, ?_, ?_⟩
  · simp [cache_key, hnorm]
  · intro c
    simp [TypeCache.find, cache_key, hnorm]

theorem normalize_dds_type_name_idempotent_witness :
    normalize_dds_type_name "std_msgs::msg::String".toList =
      .ok "std_msgs::msg::String".toList ∧
    cache_key "std_msgs::msg::String".toList true = .ok "std_msgs::msg::String".toList :=
  have h := normalize_dds_type_name_idempotent "std_msgs::msg::dds_::String_".toList
    "std_msgs::msg::String".toList (by decide) (by decide) (by decide)
    (by unfold NoDdsSegment; decide)
  ⟨h.1, h.2.1⟩

end robotspy
